import Mathlib

/-!
Tiny v2 lexer and parser: embedding and verified properties.

A shallow embedding of `lexer.go`, `token.go`, `errors.go` and `parser.go`.

Conventions of the embedding:

* A Go `string` is a `Str`, a list of characters. Every delimiter the program
  looks at (tab, backslash, `n`, digits, signs) is ASCII, so byte-wise and
  character-wise processing agree on well-formed UTF-8 text.
* A Go `int` is an `Int`; line numbers, which only ever count up from zero,
  are `Nat`.
* The `*bufio.Scanner` held by the lexer is a `Scanner`: the lines it will
  still deliver, the read failure (if any) it reports once they are used up,
  and the bytes it holds in its buffer when it fails on a line that is too
  long, which it hands out as one more line after the failure.
* Pointers into the tree (`*Class`, `*Method`, ...) are paths of indices
  (`Element`): nodes are only ever appended, so a path names one node for
  the whole parse, as a pointer does.
* A run-time panic (index out of range) and the exhaustion of the loop
  budget are the two `Fault`s; every function that can meet one returns
  `Except Fault _`.
-/

namespace TinyV2

/-- Go strings, as character sequences. -/
abbrev Str := List Char

/-- A string literal of the program, as a `Str`. -/
def str (s : String) : Str := s.toList

/-! ## Library functions used by the program (`strings`, `strconv`, `fmt`, `bufio`) -/

/-- `strings.HasPrefix(s, pre)`. -/
def HasPrefix (s pre : Str) : Bool := pre.isPrefixOf s

/-- `strings.Split(s, sep)` for a one-character separator: the fields between
    the separators, `[""]` for the empty string. -/
def Split : Str → Char → List Str
  | [], _ => [[]]
  | c :: cs, sep =>
    if c = sep then [] :: Split cs sep
    else match Split cs sep with
      | [] => [[c]]
      | f :: fs => (c :: f) :: fs

/-- `strings.SplitN(s, sep, n)` for a one-character separator and `n ≥ 0`: at
    most `n` fields, the last one being the unsplit remainder. -/
def SplitN : Str → Char → Nat → List Str
  | _, _, 0 => []
  | s, _, 1 => [s]
  | [], _, _ + 2 => [[]]
  | c :: cs, sep, n + 2 =>
    if c = sep then [] :: SplitN cs sep (n + 1)
    else match SplitN cs sep (n + 2) with
      | [] => [[c]]
      | f :: fs => (c :: f) :: fs

/-- `strings.TrimLeft(s, cutset)`: drop the leading characters that belong to
    `cutset`. -/
def TrimLeft (s cutset : Str) : Str := s.dropWhile (fun c => cutset.contains c)

/-- `strings.Join(elems, sep)`. -/
def Join : List Str → Str → Str
  | [], _ => []
  | [a], _ => a
  | a :: b :: rest, sep => a ++ sep ++ Join (b :: rest) sep

/-- `strings.ReplaceAll(s, old, new)` for a non-empty `old`: the leftmost
    occurrences, not overlapping, are replaced. `skip` counts the characters of
    a matched occurrence that are still to be passed over. -/
def ReplaceAllFrom (old new : Str) : Str → Nat → Str
  | [], _ => []
  | _ :: cs, skip + 1 => ReplaceAllFrom old new cs skip
  | c :: cs, 0 =>
    if old.isPrefixOf (c :: cs) then new ++ ReplaceAllFrom old new cs (old.length - 1)
    else c :: ReplaceAllFrom old new cs 0

/-- `strings.ReplaceAll(s, old, new)`, `old` non-empty. -/
def ReplaceAll (s old new : Str) : Str := ReplaceAllFrom old new s 0

/-- Value of a decimal digit character, if it is one. -/
def digitVal (c : Char) : Option Nat :=
  if '0' ≤ c ∧ c ≤ '9' then some (c.toNat - '0'.toNat) else none

/-- Value of an all-digit string read in base 10 (`acc` is the value of the
    digits already read); `none` when a character is not a digit. Used to
    state what `scanUint` computes. -/
def digitsVal : Str → Nat → Option Nat
  | [], acc => some acc
  | c :: cs, acc =>
    match digitVal c with
    | some d => digitsVal cs (acc * 10 + d)
    | none => none

/-- Result of `strconv.Atoi`: the value returned, and whether `err == nil`. -/
structure AtoiResult where
  value : Int
  ok : Bool
  deriving DecidableEq, Repr

/-- How the digit loop of `strconv.ParseUint(s, 10, 64)` ends: with the
    value of the digits, at a character that is not a digit, or at the digit
    that takes the value past `2^64 - 1`. The loop stops there: the
    characters after that digit are not looked at. -/
inductive UintScan where
  | value (n : Nat)
  | syntaxError
  | rangeError
  deriving DecidableEq, Repr

/-- The digit loop of `strconv.ParseUint(s, 10, 64)`, from the left; `n` is
    the value of the digits already read. -/
def scanUint : Str → Nat → UintScan
  | [], n => .value n
  | c :: cs, n =>
    match digitVal c with
    | none => .syntaxError
    | some d => if 2 ^ 64 ≤ n * 10 + d then .rangeError else scanUint cs (n * 10 + d)

/-- `strconv.Atoi(s)` on a 64-bit platform: an optional sign and at least one
    decimal digit. A syntax error returns 0. A range error returns the
    nearest bound of `int`: when the digits read so far pass `2^64 - 1`
    (whatever follows them, digit or not), and when all characters are digits
    and the signed value is outside the `int` range. -/
def Atoi (s : Str) : AtoiResult :=
  let neg : Bool := s.head? = some '-'
  let body : Str := if s.head? = some '-' ∨ s.head? = some '+' then s.tail else s
  if body = [] then ⟨0, false⟩
  else match scanUint body 0 with
    | .syntaxError => ⟨0, false⟩
    | .rangeError => if neg then ⟨-(2 ^ 63 : Int), false⟩ else ⟨(2 ^ 63 - 1 : Int), false⟩
    | .value n =>
      if neg then
        (if n ≤ 2 ^ 63 then ⟨-(n : Int), true⟩ else ⟨-(2 ^ 63 : Int), false⟩)
      else
        (if n < 2 ^ 63 then ⟨(n : Int), true⟩ else ⟨(2 ^ 63 - 1 : Int), false⟩)

/-- The verb `%d` of `fmt.Sprintf` on an `int`. -/
def fmtInt : Int → Str
  | Int.ofNat n => Nat.toDigits 10 n
  | Int.negSucc n => '-' :: Nat.toDigits 10 (n + 1)

/-- The verb `%q` of `fmt.Sprintf` on a string of printable ASCII characters
    other than the double quote and the backslash (the only strings the
    program formats with it are `f`, `m`, `p` and `v`). -/
def fmtQuote (s : Str) : Str := '"' :: s ++ ['"']

/-- State of the `*bufio.Scanner` the lexer reads from: the lines `Scan` will
    still deliver, the error `Err` reports once they are used up (`none` for
    a clean end of stream), and the lines the scanner still holds in its
    buffer when it fails. A scanner that fails with `ErrTooLong` keeps the
    bytes it has buffered; the `Scan` that fails reports the error, the next
    `Scan` hands the buffered bytes out as one more line, and from then on
    every `Scan` fails. A read error of the underlying reader leaves nothing
    buffered: the lines read before it are delivered first. -/
structure Scanner where
  lines : List Str
  err : Option Str
  buffered : List Str
  deriving DecidableEq, Repr

/-- `Scan` followed by `Text`: the next line, if there is one, and the
    scanner after the call. A failed `Scan` of a scanner with an error
    releases what the scanner has buffered. -/
def Scanner.Scan (s : Scanner) : Option Str × Scanner :=
  match s.lines with
  | [] =>
    match s.err with
    | some _ => (none, { s with lines := s.buffered, buffered := [] })
    | none => (none, s)
  | l :: ls => (some l, { s with lines := ls })

/-- `Scanner.Err`. -/
def Scanner.Err (s : Scanner) : Option Str := s.err

/-- Size in bytes of a string's UTF-8 encoding. -/
def byteLen (s : Str) : Nat := (s.map Char.utf8Size).sum

/-- The longest prefix of `s` that fits in `n` bytes. (The scanner cuts at
    the byte; a character that straddles the cut is left out here, a `Str`
    having no partial characters.) -/
def takeBytes : Nat → Str → Str
  | _, [] => []
  | n, c :: cs => if c.utf8Size ≤ n then c :: takeBytes (n - c.utf8Size) cs else []

/-- `dropCR` of `bufio`: remove one trailing carriage return. -/
def dropCR (l : Str) : Str := if l.getLast? = some '\r' then l.dropLast else l

/-- `bufio.MaxScanTokenSize`. -/
def MaxScanTokenSize : Nat := 64 * 1024

/-- `bufio.NewScanner(strings.NewReader(input))` with the default `ScanLines`
    split function: the text is cut at every line feed, a final unterminated
    line counts when it is not empty, and one trailing carriage return is
    removed from each line. The first line of `MaxScanTokenSize` bytes or
    more does not fit the scanner's buffer: the scanner fails there with
    `ErrTooLong`, holding the first `MaxScanTokenSize` bytes of that line,
    which it hands out on the `Scan` after the failed one; the text after
    them is never read. -/
def readerOf (input : Str) : Scanner :=
  let cut := Split input '\n'
  let raw := if cut.getLast? = some [] then cut.dropLast else cut
  let good := raw.takeWhile (fun l => decide (byteLen l < MaxScanTokenSize))
  match raw.drop good.length with
  | [] => { lines := good.map dropCR, err := none, buffered := [] }
  | long :: _ =>
    { lines := good.map dropCR,
      err := some (str "bufio.Scanner: token too long"),
      buffered := [dropCR (takeBytes MaxScanTokenSize long)] }

/-! ## `errors.go` -/

def ErrIo (err : Str) : Str := (str "IO error: ") ++ err
def ErrHeaderTooShort : Str := (str "header too short")
def ErrInvalidHeader : Str := (str "invalid header")
def ErrInvalidProperty : Str := (str "invalid property format")
def ErrEmptyLine : Str := (str "empty line")
def ErrEmptyLineIndent : Str := (str "empty line after indent")
def ErrInvalidIdentifier (identifier : Str) (indent : Int) : Str :=
  (str "invalid identifier ") ++ fmtQuote identifier ++ (str " at indent ") ++ fmtInt indent

/-! ## `token.go` -/

inductive TokenType where
  | TokenHeader
  | TokenProperty
  | TokenClass
  | TokenField
  | TokenMethod
  | TokenParameter
  | TokenLocalVariable
  | TokenComment
  | TokenError
  | TokenEOF
  deriving DecidableEq, Repr

open TokenType

/-- A classified line. The defaults are Go's zero values (`TokenHeader` is the
    zero `TokenType`). -/
structure Token where
  Typ : TokenType := TokenHeader
  Indent : Int := 0
  Parts : List Str := []
  Line : Nat := 0
  Error : Str := []
  deriving DecidableEq, Repr

/-! ## `lexer.go` -/

/-- The constant `Separator = "\t"`, as its one character. -/
def Separator : Char := '\t'

inductive lexerState where
  | stateStart
  | stateHeaderParsed
  | stateInBody
  deriving DecidableEq, Repr

open lexerState

structure Lexer where
  reader : Scanner
  lineNumber : Nat := 0
  state : lexerState := stateStart
  namespaces : Int := 0
  deriving DecidableEq, Repr

def NewLexer (r : Scanner) : Lexer := { reader := r, state := stateStart }

def countIndent : Str → Int
  | [] => 0
  | c :: cs => if c = '\t' then countIndent cs + 1 else 0

def Lexer.errorToken (l : Lexer) (err : Str) : Token :=
  { Typ := TokenError, Line := l.lineNumber, Error := err }

def Lexer.parseHeader (l : Lexer) (line : Str) : Token × Lexer :=
  if !HasPrefix line (str "tiny\t") then (l.errorToken ErrInvalidHeader, l)
  else
    let parts := Split line Separator
    if parts.length < 5 then (l.errorToken ErrHeaderTooShort, l)
    else
      ({ Typ := TokenHeader, Parts := parts, Line := l.lineNumber },
       { l with namespaces := (parts.length : Int) - 4, state := stateHeaderParsed })

/-- The `switch identifier` statement of `parseBodyLine`: the token type of a
    body line from its first field and its indentation, `TokenError` being the
    initial value that no case overwrites. -/
def identifierType (identifier : Str) (indent : Int) : TokenType :=
  if identifier = ['c'] then (if indent = 0 then TokenClass else TokenComment)
  else if identifier = ['f'] then (if indent = 1 then TokenField else TokenError)
  else if identifier = ['m'] then (if indent = 1 then TokenMethod else TokenError)
  else if identifier = ['p'] then (if indent = 2 then TokenParameter else TokenError)
  else if identifier = ['v'] then (if indent = 2 then TokenLocalVariable else TokenError)
  else TokenComment

def Lexer.parseBodyLine (l : Lexer) (line : Str) : Token :=
  let indent := countIndent line
  let trimmed := TrimLeft line [Separator]
  if trimmed = [] then l.errorToken ErrEmptyLine
  else
    let parts := Split trimmed Separator
    if parts.length = 0 then l.errorToken ErrEmptyLineIndent
    else
      let identifier := parts.headD []
      let tokenType := identifierType identifier indent
      if tokenType = TokenError then l.errorToken (ErrInvalidIdentifier identifier indent)
      else { Typ := tokenType, Indent := indent, Parts := parts, Line := l.lineNumber }

def Lexer.parsePossibleProperty (l : Lexer) (line : Str) : Token × Lexer :=
  let indent := countIndent line
  let trimmed := TrimLeft line [Separator]
  if indent = 1 then
    let parts := SplitN trimmed Separator 3
    if parts.length < 2 then (l.errorToken ErrInvalidProperty, l)
    else ({ Typ := TokenProperty, Indent := indent, Line := l.lineNumber, Parts := parts }, l)
  else
    let l := { l with state := stateInBody }
    (l.parseBodyLine line, l)

def Lexer.NextToken (l : Lexer) : Token × Lexer :=
  match l.reader.Scan with
  | (none, r) =>
    match r.Err with
    | some err => (l.errorToken (ErrIo err), { l with reader := r })
    | none => ({ Typ := TokenEOF }, { l with reader := r })
  | (some line, r) =>
    let l := { l with reader := r, lineNumber := l.lineNumber + 1 }
    match l.state with
    | stateStart => l.parseHeader line
    | stateHeaderParsed => l.parsePossibleProperty line
    | stateInBody => (l.parseBodyLine line, l)

/-! ## `parser.go`: data model -/

/-- The two ways a run can fail to return: a run-time panic of the Go program
    (slice or index out of range), and the exhaustion of the iteration budget
    given to a loop of the embedding. -/
inductive Fault where
  | indexOutOfRange
  | outOfFuel
  deriving DecidableEq, Repr

deriving instance DecidableEq for Except

/-- The index expression `parts[i]`, which panics out of range. -/
def index (parts : List Str) (i : Nat) : Except Fault Str :=
  match parts[i]? with
  | some s => .ok s
  | none => .error .indexOutOfRange

/-- The slice expression `parts[i:]`, which panics when `i > len(parts)`. -/
def sliceFrom (parts : List Str) (i : Nat) : Except Fault (List Str) :=
  if i ≤ parts.length then .ok (parts.drop i) else .error .indexOutOfRange

/-- A `map[string]string`, as an association list without repeated keys. -/
abbrev GoMap := List (Str × Str)

/-- The map read `m[k]`: the zero value `""` for an absent key. -/
def mapGet (m : GoMap) (k : Str) : Str := (m.lookup k).getD []

/-- The map write `m[k] = v`. -/
def mapSet (m : GoMap) (k v : Str) : GoMap := (k, v) :: m.filter (fun e => e.1 != k)

structure ParseError where
  Line : Nat
  Message : Str
  deriving DecidableEq, Repr

structure Metadata where
  MajorVersion : Int := 0
  MinorVersion : Int := 0
  Namespaces : List Str := []
  Properties : GoMap := []
  GlobalComments : List Str := []
  deriving DecidableEq, Repr

structure Field where
  Descriptor : Str
  Names : List Str
  Comments : List Str := []
  deriving DecidableEq, Repr

structure Parameter where
  Index : Int
  Names : List Str
  Comments : List Str := []
  deriving DecidableEq, Repr

structure LocalVariable where
  Index : Int
  StartOffset : Int
  LvtIndex : Int
  Names : List Str
  Comments : List Str := []
  deriving DecidableEq, Repr

structure Method where
  Descriptor : Str
  Names : List Str
  Comments : List Str := []
  Parameters : List Parameter := []
  LocalVars : List LocalVariable := []
  deriving DecidableEq, Repr

structure Class where
  Names : List Str
  Comments : List Str := []
  Fields : List Field := []
  Methods : List Method := []
  deriving DecidableEq, Repr

structure Mapping where
  Metadata : Metadata
  Classes : List Class
  deriving DecidableEq, Repr

/-- A pointer to a node of the tree under construction, as the path of
    indices that leads to it: `Class ci` is `p.classes[ci]`, `Method ci mi` is
    `p.classes[ci].Methods[mi]`, and so on. This is the dynamic type and value
    of `parseNode.element`. -/
inductive Element where
  | Class (ci : Nat)
  | Field (ci fi : Nat)
  | Method (ci mi : Nat)
  | Parameter (ci mi pi : Nat)
  | LocalVariable (ci mi vi : Nat)
  deriving DecidableEq, Repr

structure parseNode where
  indent : Int
  element : Element
  deriving DecidableEq, Repr

structure Parser where
  lexer : Lexer
  currentTok : Token := {}
  errors : List ParseError := []
  metadata : Metadata := {}
  classes : List Class := []
  stack : List parseNode := []
  deriving DecidableEq, Repr

/-- What `Parse` hands back, `mapping = none` being the nil `*Mapping`,
    together with the parser it leaves behind (its receiver). -/
structure ParseOutcome where
  mapping : Option Mapping
  errors : List ParseError
  parser : Parser
  deriving DecidableEq, Repr

/-- A write through a pointer held in a list: apply `f` to the element at
    position `i`. -/
def updateAt {α : Type} (f : α → α) : Nat → List α → List α
  | _, [] => []
  | 0, a :: as => f a :: as
  | n + 1, a :: as => a :: updateAt f n as

/-- A write through a `*Class` pointer. -/
def updateClass (classes : List Class) (ci : Nat) (f : Class → Class) : List Class :=
  updateAt f ci classes

/-- A write through a `*Method` pointer. -/
def updateMethod (classes : List Class) (ci mi : Nat) (f : Method → Method) : List Class :=
  updateClass classes ci (fun c => { c with Methods := updateAt f mi c.Methods })

/-- A write through a `*Field` pointer. -/
def updateField (classes : List Class) (ci fi : Nat) (f : Field → Field) : List Class :=
  updateClass classes ci (fun c => { c with Fields := updateAt f fi c.Fields })

/-- A write through a `*Parameter` pointer. -/
def updateParameter (classes : List Class) (ci mi pi : Nat) (f : Parameter → Parameter) :
    List Class :=
  updateMethod classes ci mi (fun m => { m with Parameters := updateAt f pi m.Parameters })

/-- A write through a `*LocalVariable` pointer. -/
def updateLocalVariable (classes : List Class) (ci mi vi : Nat)
    (f : LocalVariable → LocalVariable) : List Class :=
  updateMethod classes ci mi (fun m => { m with LocalVars := updateAt f vi m.LocalVars })

/-- The number of methods of the class a `*Class` points to. -/
def methodCount (classes : List Class) (ci : Nat) : Nat :=
  match classes[ci]? with
  | some c => c.Methods.length
  | none => 0

/-- The number of fields of the class a `*Class` points to. -/
def fieldCount (classes : List Class) (ci : Nat) : Nat :=
  match classes[ci]? with
  | some c => c.Fields.length
  | none => 0

/-- The method a `*Method` points to. -/
def methodAt (classes : List Class) (ci mi : Nat) : Option Method :=
  match classes[ci]? with
  | some c => c.Methods[mi]?
  | none => none

/-! ## `parser.go`: operations -/

def NewParser (r : Scanner) : Parser := { lexer := NewLexer r, errors := [], stack := [] }

def unescapeString (s : Str) : Str := ReplaceAll s (str "\\n") (str "\n")

namespace Parser

def addError (p : Parser) (err : Str) : Parser :=
  { p with errors := p.errors ++ [{ Line := p.currentTok.Line, Message := err }] }

def pushStack (p : Parser) (element : Element) (indent : Int) : Parser :=
  { p with stack := p.stack ++ [{ indent := indent, element := element }] }

def getCurrentParent (p : Parser) : Option Element :=
  if p.stack.length = 0 then none else p.stack.getLast?.map (fun n => n.element)

/-- The loop of `adjustStack`; the first argument bounds the number of
    iterations and is the length of the stack when the loop starts. -/
def adjustStackLoop (currentIndent : Int) : Nat → List parseNode → List parseNode
  | 0, stack => stack
  | k + 1, stack =>
    match stack.getLast? with
    | some top =>
      if top.indent ≥ currentIndent then adjustStackLoop currentIndent k stack.dropLast else stack
    | none => stack

def adjustStack (p : Parser) (currentIndent : Int) : Parser :=
  { p with stack := adjustStackLoop currentIndent p.stack.length p.stack }

def unescape (p : Parser) (s : Str) : Str :=
  if mapGet p.metadata.Properties (str "escaped-names") ≠ [] then unescapeString s else s

def parseNames (p : Parser) (parts : List Str) : List Str :=
  (List.range p.metadata.Namespaces.length).foldl
    (fun names i => if i < parts.length then names.set i (p.unescape (parts.getD i [])) else names)
    (List.replicate p.metadata.Namespaces.length [])

def parseClass (p : Parser) : Except Fault Parser :=
  if p.currentTok.Indent ≠ 0 then .ok (p.addError (str "class must be at root level"))
  else do
    let nameParts ← sliceFrom p.currentTok.Parts 1
    let cls : Class := { Names := p.parseNames nameParts, Comments := [] }
    let ci := p.classes.length
    let p := { p with classes := p.classes ++ [cls] }
    return p.pushStack (Element.Class ci) p.currentTok.Indent

def parseMethod (p : Parser) : Except Fault Parser :=
  match p.getCurrentParent with
  | none => .ok (p.addError (str "method must be inside a class"))
  | some parent =>
    if p.currentTok.Indent ≠ 1 then .ok (p.addError (str "method must be inside a class"))
    else do
      let descriptor ← index p.currentTok.Parts 1
      let nameParts ← sliceFrom p.currentTok.Parts 2
      let method : Method :=
        { Descriptor := p.unescape descriptor, Names := p.parseNames nameParts, Comments := [] }
      match parent with
      | Element.Class ci =>
        let mi := methodCount p.classes ci
        let classes := updateClass p.classes ci (fun c => { c with Methods := c.Methods ++ [method] })
        let p := { p with classes := classes }
        return p.pushStack (Element.Method ci mi) p.currentTok.Indent
      | _ => return p.addError (str "method parent must be a class")

def parseField (p : Parser) : Except Fault Parser :=
  match p.getCurrentParent with
  | none => .ok (p.addError (str "field must be inside a class"))
  | some parent =>
    if p.currentTok.Indent ≠ 1 then .ok (p.addError (str "field must be inside a class"))
    else do
      let descriptor ← index p.currentTok.Parts 1
      let nameParts ← sliceFrom p.currentTok.Parts 2
      let field : Field :=
        { Descriptor := p.unescape descriptor, Names := p.parseNames nameParts, Comments := [] }
      match parent with
      | Element.Class ci =>
        let fi := fieldCount p.classes ci
        let classes := updateClass p.classes ci (fun c => { c with Fields := c.Fields ++ [field] })
        let p := { p with classes := classes }
        return p.pushStack (Element.Field ci fi) p.currentTok.Indent
      | _ => return p.addError (str "field parent must be a class")

def parseParameter (p : Parser) : Except Fault Parser :=
  match p.getCurrentParent with
  | none => .ok (p.addError (str "parameter must be inside a method"))
  | some parent =>
    if p.currentTok.Indent ≠ 2 then .ok (p.addError (str "parameter must be inside a method"))
    else do
      let indexPart ← index p.currentTok.Parts 1
      let idx := Atoi indexPart
      if !idx.ok then return p.addError (str "invalid parameter index")
      let nameParts ← sliceFrom p.currentTok.Parts 2
      let param : Parameter :=
        { Index := idx.value, Names := p.parseNames nameParts, Comments := [] }
      match parent with
      | Element.Method ci mi =>
        let pi := match methodAt p.classes ci mi with
          | some m => m.Parameters.length
          | none => 0
        let classes := updateMethod p.classes ci mi
          (fun m => { m with Parameters := m.Parameters ++ [param] })
        let p := { p with classes := classes }
        return p.pushStack (Element.Parameter ci mi pi) p.currentTok.Indent
      | _ => return p.addError (str "parameter parent must be a method")

def parseLocalVariable (p : Parser) : Except Fault Parser :=
  match p.getCurrentParent with
  | none => .ok (p.addError (str "local variable must be inside a method"))
  | some parent =>
    if p.currentTok.Indent ≠ 2 then .ok (p.addError (str "local variable must be inside a method"))
    else if p.currentTok.Parts.length < 4 then
      .ok (p.addError (str "invalid local variable format"))
    else do
      let r1 := Atoi (← index p.currentTok.Parts 1)
      let r2 := Atoi (← index p.currentTok.Parts 2)
      let r3 := Atoi (← index p.currentTok.Parts 3)
      if !r1.ok || !r2.ok || !r3.ok then
        return p.addError (str "invalid local variable numbers")
      let nameParts ← sliceFrom p.currentTok.Parts 4
      let localVar : LocalVariable :=
        { Index := r1.value, StartOffset := r2.value, LvtIndex := r3.value,
          Names := p.parseNames nameParts, Comments := [] }
      match parent with
      | Element.Method ci mi =>
        let vi := match methodAt p.classes ci mi with
          | some m => m.LocalVars.length
          | none => 0
        let classes := updateMethod p.classes ci mi
          (fun m => { m with LocalVars := m.LocalVars ++ [localVar] })
        let p := { p with classes := classes }
        return p.pushStack (Element.LocalVariable ci mi vi) p.currentTok.Indent
      | _ => return p.addError (str "local variable parent must be a method")

/-- The statement `elem.Comments = append(elem.Comments, text)` of
    `handleComment`, for each dynamic type of `elem`. -/
def appendComment (classes : List Class) (text : Str) : Element → List Class
  | Element.Class ci =>
    updateClass classes ci (fun c => { c with Comments := c.Comments ++ [text] })
  | Element.Field ci fi =>
    updateField classes ci fi (fun f => { f with Comments := f.Comments ++ [text] })
  | Element.Method ci mi =>
    updateMethod classes ci mi (fun m => { m with Comments := m.Comments ++ [text] })
  | Element.Parameter ci mi pi =>
    updateParameter classes ci mi pi (fun x => { x with Comments := x.Comments ++ [text] })
  | Element.LocalVariable ci mi vi =>
    updateLocalVariable classes ci mi vi (fun x => { x with Comments := x.Comments ++ [text] })

def handleComment (p : Parser) : Parser :=
  match p.stack.reverse.find? (fun n => n.indent = p.currentTok.Indent - 1) with
  | some node =>
    { p with classes := appendComment p.classes (Join p.currentTok.Parts (str "\t")) node.element }
  | none =>
    let text := (str "L") ++ Nat.toDigits 10 p.currentTok.Line ++ (str ": ") ++
      Join p.currentTok.Parts (str "\t")
    { p with metadata := { p.metadata with GlobalComments := p.metadata.GlobalComments ++ [text] } }

def parseBody (p : Parser) (tok : Token) : Except Fault Parser :=
  match tok.Typ with
  | TokenClass => p.parseClass
  | TokenField => p.parseField
  | TokenMethod => p.parseMethod
  | TokenParameter => p.parseParameter
  | TokenLocalVariable => p.parseLocalVariable
  | TokenComment => .ok p.handleComment
  | TokenError => .ok (p.addError tok.Error)
  | _ => .ok p

/-- The property loop that ends `parseHeader`; `fuel` bounds the number of
    tokens it may request. -/
def parseHeaderLoop : Nat → Parser → Except Fault Parser
  | 0, _ => .error .outOfFuel
  | fuel + 1, p =>
    let tl := p.lexer.NextToken
    let tok := tl.1
    let p := { p with lexer := tl.2 }
    if tok.Indent = 0 then
      parseBody { p with currentTok := tok } tok
    else if tok.Parts.length < 2 then
      parseHeaderLoop fuel (p.addError tok.Error)
    else do
      let value ← (if tok.Parts.length ≥ 3 then
          (do let rest ← sliceFrom tok.Parts 2; pure (Join rest (str "\t")))
        else pure [])
      let key ← index tok.Parts 1
      parseHeaderLoop fuel
        { p with metadata := { p.metadata with Properties := mapSet p.metadata.Properties key value } }

/-- `Parser.parseHeader`; the Boolean tells whether the returned `error` is
    non-nil. -/
def parseHeader (fuel : Nat) (p : Parser) (tok : Token) : Except Fault (Parser × Bool) :=
  if tok.Typ ≠ TokenHeader then .ok (p.addError (str "missing header"), true)
  else
    let parts := tok.Parts
    if parts.length < 5 then .ok (p.addError (str "invalid header format"), true)
    else do
      let majorPart ← index parts 1
      let major := Atoi majorPart
      let p := { p with metadata := { p.metadata with MajorVersion := major.value } }
      let p := if !major.ok then p.addError (str "invalid major version") else p
      let minorPart ← index parts 2
      let minor := Atoi minorPart
      let p := { p with metadata := { p.metadata with MinorVersion := minor.value } }
      let p := if !minor.ok then p.addError (str "invalid minor version") else p
      let namespaces ← sliceFrom parts 3
      let p := { p with metadata := { p.metadata with Namespaces := namespaces, Properties := [] } }
      let p ← parseHeaderLoop fuel p
      return (p, false)

/-- One iteration of the loop of `Parse` on a token that is not the end of
    the stream. -/
def loopBody (p : Parser) (tok : Token) : Except Fault Parser :=
  parseBody (adjustStack { p with currentTok := tok } tok.Indent) tok

/-- The loop of `Parse`; `fuel` bounds the number of tokens it may request. -/
def parseLoop : Nat → Parser → Except Fault Parser
  | 0, _ => .error .outOfFuel
  | fuel + 1, p =>
    let tl := p.lexer.NextToken
    let tok := tl.1
    let p := { p with lexer := tl.2 }
    if tok.Typ = TokenEOF then .ok p
    else do
      let p ← loopBody p tok
      parseLoop fuel p

/-- `Parser.Parse`; each of its two loops may request at most `fuel` tokens. -/
def Parse (fuel : Nat) (p : Parser) : Except Fault ParseOutcome :=
  let tl := p.lexer.NextToken
  let tok := tl.1
  let p := { p with lexer := tl.2 }
  do
    let hp ← parseHeader fuel p tok
    if hp.2 then
      return { mapping := none, errors := hp.1.errors, parser := hp.1 }
    let p ← parseLoop fuel hp.1
    return { mapping := some { Metadata := p.metadata, Classes := p.classes },
             errors := p.errors, parser := p }

end Parser

/-! ## Specification-level definitions -/

/-- Spec-level unescaping: every occurrence of backslash followed by `n`,
    found from the left, becomes one line feed; every other character is kept. -/
def newlineUnescaped : Str → Str
  | [] => []
  | [c] => [c]
  | c :: d :: rest =>
    if c = '\\' ∧ d = 'n' then '\n' :: newlineUnescaped rest
    else c :: newlineUnescaped (d :: rest)


/-- The parser state in which the property loop of `Parser.parseHeader`
    starts, when the first line `line` of the stream was accepted as a header
    by the lexer: the versions and namespaces are stored, one error is
    recorded for each version that is not an integer, and the lexer is past
    the first line. -/
def headerParser (line : Str) (rest : List Str) (err : Option Str) (buf : List Str) : Parser :=
  let parts := Split line '\t'
  let major := Atoi (parts.getD 1 [])
  let minor := Atoi (parts.getD 2 [])
  { lexer := { reader := ⟨rest, err, buf⟩, lineNumber := 1, state := stateHeaderParsed,
               namespaces := (parts.length : Int) - 4 },
    currentTok := {},
    errors := (if major.ok then [] else [{ Line := 0, Message := str "invalid major version" }]) ++
      (if minor.ok then [] else [{ Line := 0, Message := str "invalid minor version" }]),
    metadata := { MajorVersion := major.value, MinorVersion := minor.value,
                  Namespaces := parts.drop 3, Properties := [], GlobalComments := [] },
    classes := [],
    stack := [] }

/-- Example state: the parser after the header `tiny\t1\t0\tnsA\tnsB`, the
    class line `c\tA1\tB1` and the method line `\tm\t()V\ta\tb`, with the
    local-variable line `\t\tv\t0\t1` still to be read. -/
def methodOpenParser : Parser :=
  { lexer := { reader := ⟨[str "\t\t" ++ Join (str "v" :: [str "0", str "1"]) (str "\t")], none, []⟩,
               lineNumber := 3, state := stateInBody, namespaces := 1 },
    currentTok := { Typ := TokenMethod, Indent := 1,
                    Parts := [str "m", str "()V", str "a", str "b"], Line := 3 },
    errors := [],
    metadata := { MajorVersion := 1, MinorVersion := 0, Namespaces := [str "nsA", str "nsB"],
                  Properties := [], GlobalComments := [] },
    classes := [{ Names := [str "A1", str "B1"], Comments := [], Fields := [],
                  Methods := [{ Descriptor := str "()V", Names := [str "a", str "b"] }] }],
    stack := [⟨0, Element.Class 0⟩, ⟨1, Element.Method 0 0⟩] }

/-- The shapes the scope stack of the parser can take: empty; one class at
    indent 0; a class and, at indent 1, a field or a method; a class, a method
    and, at indent 2, a parameter or a local variable. -/
inductive StackShape : List parseNode → Prop where
  | empty : StackShape []
  | cls (ci : Nat) : StackShape [⟨0, Element.Class ci⟩]
  | field (ci cj fi : Nat) : StackShape [⟨0, Element.Class ci⟩, ⟨1, Element.Field cj fi⟩]
  | method (ci cj mi : Nat) : StackShape [⟨0, Element.Class ci⟩, ⟨1, Element.Method cj mi⟩]
  | parameter (ci cj mi ck mk pi : Nat) :
      StackShape [⟨0, Element.Class ci⟩, ⟨1, Element.Method cj mi⟩, ⟨2, Element.Parameter ck mk pi⟩]
  | localVariable (ci cj mi ck mk vi : Nat) :
      StackShape [⟨0, Element.Class ci⟩, ⟨1, Element.Method cj mi⟩,
        ⟨2, Element.LocalVariable ck mk vi⟩]

/-- The states of the parser at the head of the loop of `Parse`, in a run on
    the reader `r`: the state the header phase leaves, and every state
    that one more iteration of the loop produces from such a state. -/
inductive Reachable (r : Scanner) : Parser → Prop where
  | header (fuel : Nat) (p : Parser) :
      Parser.parseHeader fuel { NewParser r with lexer := (NewParser r).lexer.NextToken.2 }
        (NewParser r).lexer.NextToken.1 = .ok (p, false) → Reachable r p
  | step (p q : Parser) :
      Reachable r p → p.lexer.NextToken.1.Typ ≠ TokenEOF →
      Parser.loopBody { p with lexer := p.lexer.NextToken.2 } p.lexer.NextToken.1 = .ok q →
      Reachable r q

/-- Every name list of a method and of its parameters and local variables
    has `n` entries. -/
def Method.wellSized (n : Nat) (m : Method) : Prop :=
  m.Names.length = n ∧ (∀ x ∈ m.Parameters, x.Names.length = n) ∧
    (∀ x ∈ m.LocalVars, x.Names.length = n)

/-- Every name list of a class and of its fields and methods has `n` entries. -/
def Class.wellSized (n : Nat) (c : Class) : Prop :=
  c.Names.length = n ∧ (∀ f ∈ c.Fields, f.Names.length = n) ∧
    (∀ m ∈ c.Methods, Method.wellSized n m)

/-- Every name list in the classes has `n` entries. -/
def WellSized (n : Nat) (classes : List Class) : Prop :=
  ∀ c ∈ classes, Class.wellSized n c

/-- Example input: a header, a class line, a method line and the
    local-variable line `\t\tv\t0\t1`, as a clean line stream. -/
def scenarioReader : Scanner :=
  ⟨[str "tiny\t1\t0\tnsA\tnsB", str "c\tA1\tB1", str "\tm\t()V\ta\tb",
    str "\t\t" ++ Join (str "v" :: [str "0", str "1"]) (str "\t")], none, []⟩

/-- Example state: the parser when the header phase has ended on
    `scenarioReader`, the class line being consumed and the method line next. -/
def classOpenParser : Parser :=
  { lexer := { reader := ⟨[str "\tm\t()V\ta\tb",
                           str "\t\t" ++ Join (str "v" :: [str "0", str "1"]) (str "\t")], none, []⟩,
               lineNumber := 2, state := stateInBody, namespaces := 1 },
    currentTok := { Typ := TokenClass, Indent := 0,
                    Parts := [str "c", str "A1", str "B1"], Line := 2 },
    errors := [],
    metadata := { MajorVersion := 1, MinorVersion := 0, Namespaces := [str "nsA", str "nsB"],
                  Properties := [], GlobalComments := [] },
    classes := [{ Names := [str "A1", str "B1"], Comments := [], Fields := [], Methods := [] }],
    stack := [⟨0, Element.Class 0⟩] }

/-- The parser state after a header line `h`, a class line with the name
    fields `names` and a depth-1 comment line with the text `rest`, the
    lines `more` still to be read: the header's errors and metadata, one
    class holding the one comment, and that class as the only open scope. -/
def commentedClassParser (h : Str) (names : List Str) (rest : Str) (more : List Str)
    (err : Option Str) (buf : List Str) : Parser :=
  { lexer := { reader := ⟨more, err, buf⟩, lineNumber := 3, state := stateInBody,
               namespaces := (headerParser h [] none []).lexer.namespaces },
    currentTok := { Typ := TokenComment, Indent := 1, Parts := Split rest '\t', Line := 3 },
    errors := (headerParser h [] none []).errors,
    metadata := (headerParser h [] none []).metadata,
    classes := [{ Names := (headerParser h [] none []).parseNames names, Comments := [rest],
                  Fields := [], Methods := [] }],
    stack := [⟨0, Element.Class 0⟩] }

/-- The position of a lexer mode in the order BeforeHeader, InProperties,
    InBody. -/
def lexerState.rank : lexerState → Nat
  | stateStart => 0
  | stateHeaderParsed => 1
  | stateInBody => 2

/-- The lexer after `n` calls of `NextToken`. -/
def Lexer.after : Nat → Lexer → Lexer
  | 0, l => l
  | n + 1, l => Lexer.after n l.NextToken.2

/-- The token returned by call number `n` (counted from 0) of `NextToken`. -/
def Lexer.tokenAt (n : Nat) (l : Lexer) : Token := (Lexer.after n l).NextToken.1

/-- Example input: a header, a class line, an empty line and the field line
    `\tf\tI\tx\ty`. -/
def orphanReader : Scanner :=
  ⟨[str "tiny\t1\t0\tnsA\tnsB", str "c\tA1\tB1", [],
    '\t' :: Join (str "f" :: [str "I", str "x", str "y"]) (str "\t")], none, []⟩

/-- Example state: the parser when the header phase has ended on
    `orphanReader`, the class line being consumed and the empty line next. -/
def classOpenBeforeEmptyLine : Parser :=
  { lexer := { reader := ⟨[[], '\t' :: Join (str "f" :: [str "I", str "x", str "y"]) (str "\t")],
                          none, []⟩,
               lineNumber := 2, state := stateInBody, namespaces := 1 },
    currentTok := { Typ := TokenClass, Indent := 0,
                    Parts := [str "c", str "A1", str "B1"], Line := 2 },
    errors := [],
    metadata := { MajorVersion := 1, MinorVersion := 0, Namespaces := [str "nsA", str "nsB"],
                  Properties := [], GlobalComments := [] },
    classes := [{ Names := [str "A1", str "B1"], Comments := [], Fields := [], Methods := [] }],
    stack := [⟨0, Element.Class 0⟩] }

/-- The parser state in which the property loop of `Parser.parseHeader`
    starts, for a parser `p` that received the header token `tok`: versions
    and namespaces stored, one error for each version that is not an
    integer, an empty property map. -/
def headerInit (p : Parser) (tok : Token) : Parser :=
  { p with
    errors := p.errors ++
      (if (Atoi (tok.Parts.getD 1 [])).ok then []
       else [{ Line := p.currentTok.Line, Message := str "invalid major version" }]) ++
      (if (Atoi (tok.Parts.getD 2 [])).ok then []
       else [{ Line := p.currentTok.Line, Message := str "invalid minor version" }]),
    metadata := { p.metadata with
      MajorVersion := (Atoi (tok.Parts.getD 1 [])).value,
      MinorVersion := (Atoi (tok.Parts.getD 2 [])).value,
      Namespaces := tok.Parts.drop 3,
      Properties := [] } }

/-- The lexer `l` works on the stream `r` and has read its first
    `l.lineNumber` lines. -/
def LexerAt (r : Scanner) (l : Lexer) : Prop :=
  l.reader.err = r.err ∧ l.lineNumber ≤ (r.lines ++ r.buffered).length ∧
    l.reader.lines ++ l.reader.buffered = (r.lines ++ r.buffered).drop l.lineNumber

/-- The states of the parser while the property loop of `parseHeader` runs on
    the reader `r`: no token has been dispatched yet, so the current token is
    still the zero token, the stack and the classes are empty, and every
    error recorded so far sits on line 0. -/
def HeaderPhase (r : Scanner) (p : Parser) : Prop :=
  LexerAt r p.lexer ∧ p.currentTok = {} ∧ p.stack = [] ∧ p.classes = [] ∧
  p.metadata.GlobalComments = [] ∧
  p.metadata.Namespaces = (NewLexer r).NextToken.1.Parts.drop 3 ∧
  p.metadata.MajorVersion = (Atoi ((NewLexer r).NextToken.1.Parts.getD 1 [])).value ∧
  p.metadata.MinorVersion = (Atoi ((NewLexer r).NextToken.1.Parts.getD 2 [])).value ∧
  ∀ e ∈ p.errors, e.Line = 0 ∧
    (e.Message = str "invalid major version" ∨ e.Message = str "invalid minor version" ∨
      e.Message = [])

/-- Example state: `classOpenBeforeEmptyLine` one iteration later, the empty
    line 3 having been dispatched as an Error token. -/
def classClosedByEmptyLine : Parser :=
  { lexer := { reader := ⟨['\t' :: Join (str "f" :: [str "I", str "x", str "y"]) (str "\t")],
                          none, []⟩,
               lineNumber := 3, state := stateInBody, namespaces := 1 },
    currentTok := { Typ := TokenError, Indent := 0, Parts := [], Line := 3,
                    Error := str "empty line" },
    errors := [{ Line := 3, Message := str "empty line" }],
    metadata := { MajorVersion := 1, MinorVersion := 0, Namespaces := [str "nsA", str "nsB"],
                  Properties := [], GlobalComments := [] },
    classes := [{ Names := [str "A1", str "B1"], Comments := [], Fields := [], Methods := [] }],
    stack := [] }

/-- The `Comments` of the node a pointer leads to, `none` when the path of
    indices leads to no node. -/
def commentsOf (classes : List Class) : Element → Option (List Str)
  | Element.Class ci => classes[ci]?.map (fun c => c.Comments)
  | Element.Field ci fi => classes[ci]?.bind (fun c => c.Fields[fi]?.map (fun f => f.Comments))
  | Element.Method ci mi => (methodAt classes ci mi).map (fun m => m.Comments)
  | Element.Parameter ci mi pi =>
    (methodAt classes ci mi).bind (fun m => m.Parameters[pi]?.map (fun x => x.Comments))
  | Element.LocalVariable ci mi vi =>
    (methodAt classes ci mi).bind (fun m => m.LocalVars[vi]?.map (fun x => x.Comments))

/-- The pointer leads to a node of the tree. -/
def validElement (classes : List Class) (e : Element) : Prop :=
  (commentsOf classes e).isSome = true

/-- The method `n` has at least the parameters and local variables of `m`. -/
def Method.grows (m n : Method) : Prop :=
  m.Parameters.length ≤ n.Parameters.length ∧ m.LocalVars.length ≤ n.LocalVars.length

/-- The class `d` has at least the fields and methods of `c`, each method
    having grown. -/
def Class.grows (c d : Class) : Prop :=
  c.Fields.length ≤ d.Fields.length ∧
    ∀ (mi : Nat) (m : Method), c.Methods[mi]? = some m →
      ∃ n, d.Methods[mi]? = some n ∧ Method.grows m n

/-- The tree `ds` has a node wherever the tree `cs` has one. -/
def Grows (cs ds : List Class) : Prop :=
  ∀ (ci : Nat) (c : Class), cs[ci]? = some c → ∃ d, ds[ci]? = some d ∧ Class.grows c d

/-- Example input: a header, a class line, a comment line at depth 1 and a
    comment line at depth 0. -/
def commentReader : Scanner :=
  ⟨[str "tiny\t1\t0\tnsA\tnsB", str "c\tA1\tB1", str "\t# about A", str "# top"], none, []⟩

/-- Example state: the parser when the header phase has ended on
    `commentReader`, the class line being consumed and the two comment lines
    still to be read. -/
def classOpenBeforeComment : Parser :=
  { lexer := { reader := ⟨[str "\t# about A", str "# top"], none, []⟩,
               lineNumber := 2, state := stateInBody, namespaces := 1 },
    currentTok := { Typ := TokenClass, Indent := 0,
                    Parts := [str "c", str "A1", str "B1"], Line := 2 },
    errors := [],
    metadata := { MajorVersion := 1, MinorVersion := 0, Namespaces := [str "nsA", str "nsB"],
                  Properties := [], GlobalComments := [] },
    classes := [{ Names := [str "A1", str "B1"], Comments := [], Fields := [], Methods := [] }],
    stack := [⟨0, Element.Class 0⟩] }

/-- The parser state `p` with the errors `pre` put in front of its errors
    and the versions `M` and `m` in its metadata. -/
def Parser.withVersions (pre : List ParseError) (M m : Int) (p : Parser) : Parser :=
  { p with errors := pre ++ p.errors,
           metadata := { p.metadata with MajorVersion := M, MinorVersion := m } }

/-- The outcome `o` of `Parse` with the errors `pre` put in front of its
    errors and the versions `M` and `m` in its mapping. -/
def ParseOutcome.withVersions (pre : List ParseError) (M m : Int) (o : ParseOutcome) :
    ParseOutcome :=
  { mapping := o.mapping.map
      (fun mp => { mp with Metadata := { mp.Metadata with MajorVersion := M, MinorVersion := m } }),
    errors := pre ++ o.errors,
    parser := o.parser.withVersions pre M m }

/-- Example state: the parser after the header `tiny\t1\t0\tnsA\tnsB`, the
    class line `c\tA1\tB1`, the method line `\tm\t()V\ta\tb` and the parameter
    line `\t\tp\t0\tx\ty`, with the parameter line `\t\tp\tzz\tx\ty`, whose
    index is not a number, still to be read. -/
def parameterOpenParser : Parser :=
  { lexer := { reader := ⟨[str "\t\tp\tzz\tx\ty"], none, []⟩,
               lineNumber := 4, state := stateInBody, namespaces := 1 },
    currentTok := { Typ := TokenParameter, Indent := 2,
                    Parts := [str "p", str "0", str "x", str "y"], Line := 4 },
    errors := [],
    metadata := { MajorVersion := 1, MinorVersion := 0, Namespaces := [str "nsA", str "nsB"],
                  Properties := [], GlobalComments := [] },
    classes := [{ Names := [str "A1", str "B1"], Comments := [], Fields := [],
                  Methods := [{ Descriptor := str "()V", Names := [str "a", str "b"],
                                Parameters := [{ Index := 0, Names := [str "x", str "y"] }] }] }],
    stack := [⟨0, Element.Class 0⟩, ⟨1, Element.Method 0 0⟩, ⟨2, Element.Parameter 0 0 0⟩] }

/-- Example state: `parameterOpenParser` one iteration later, its last line
    having been rejected. -/
def parameterRejectedParser : Parser :=
  { parameterOpenParser with
    lexer := { reader := ⟨[], none, []⟩, lineNumber := 5, state := stateInBody, namespaces := 1 },
    currentTok := { Typ := TokenParameter, Indent := 2,
                    Parts := [str "p", str "zz", str "x", str "y"], Line := 5 },
    errors := [{ Line := 5, Message := str "invalid parameter index" }],
    stack := [⟨0, Element.Class 0⟩, ⟨1, Element.Method 0 0⟩] }

/-- The `Names` of the node a pointer leads to, `none` when the path of
    indices leads to no node. -/
def namesOf (classes : List Class) : Element → Option (List Str)
  | Element.Class ci => classes[ci]?.map (fun c => c.Names)
  | Element.Field ci fi => classes[ci]?.bind (fun c => c.Fields[fi]?.map (fun f => f.Names))
  | Element.Method ci mi => (methodAt classes ci mi).map (fun m => m.Names)
  | Element.Parameter ci mi pi =>
    (methodAt classes ci mi).bind (fun m => m.Parameters[pi]?.map (fun x => x.Names))
  | Element.LocalVariable ci mi vi =>
    (methodAt classes ci mi).bind (fun m => m.LocalVars[vi]?.map (fun x => x.Names))

/-- The number of fields that stand before the name fields of a line:
    `Parts[1:]` in `parseClass`, `Parts[2:]` in `parseField`, `parseMethod`
    and `parseParameter`, `Parts[4:]` in `parseLocalVariable`. -/
def nameOffset : TokenType → Nat
  | TokenClass => 1
  | TokenField => 2
  | TokenMethod => 2
  | TokenParameter => 2
  | TokenLocalVariable => 4
  | _ => 0

/-- The name list of the method and of each of its parameters and local
    variables is one that `Q` accepts for the type of line that defines the
    node. -/
def Method.namesAll (Q : TokenType → List Str → Prop) (m : Method) : Prop :=
  Q TokenMethod m.Names ∧ (∀ x ∈ m.Parameters, Q TokenParameter x.Names) ∧
    (∀ x ∈ m.LocalVars, Q TokenLocalVariable x.Names)

/-- The name list of the class and of each of its fields, methods,
    parameters and local variables is one that `Q` accepts for the type of
    line that defines the node. -/
def Class.namesAll (Q : TokenType → List Str → Prop) (c : Class) : Prop :=
  Q TokenClass c.Names ∧ (∀ f ∈ c.Fields, Q TokenField f.Names) ∧
    (∀ m ∈ c.Methods, Method.namesAll Q m)

/-- The name list of every node of the tree is one that `Q` accepts for the
    type of line that defines the node. -/
def NamesAll (Q : TokenType → List Str → Prop) (classes : List Class) : Prop :=
  ∀ c ∈ classes, Class.namesAll Q c

/-- The name list `names` is what `parseNames`, with the namespaces and
    properties of `p`, makes of the name fields of one of the lines of the
    input `r`: the line that call number `n` of `NextToken` turns into a
    token, a token of type `kind`. -/
def NamesFromLine (r : Scanner) (p : Parser) (kind : TokenType) (names : List Str) : Prop :=
  ∃ n, (Lexer.tokenAt n (NewLexer r)).Typ = kind ∧
    names = p.parseNames ((Lexer.tokenAt n (NewLexer r)).Parts.drop (nameOffset kind))

/-- The method `n` has the names of `m`, and every parameter and local
    variable of `m` is in `n` at the same place with the same names. -/
def Method.keeps (m n : Method) : Prop :=
  n.Names = m.Names ∧
  (∀ (i : Nat) (x : Parameter), m.Parameters[i]? = some x →
    ∃ y, n.Parameters[i]? = some y ∧ y.Names = x.Names) ∧
  (∀ (i : Nat) (x : LocalVariable), m.LocalVars[i]? = some x →
    ∃ y, n.LocalVars[i]? = some y ∧ y.Names = x.Names)

/-- The class `d` has the names of `c`, and every field and method of `c` is
    in `d` at the same place with the same names. -/
def Class.keeps (c d : Class) : Prop :=
  d.Names = c.Names ∧
  (∀ (i : Nat) (f : Field), c.Fields[i]? = some f →
    ∃ g, d.Fields[i]? = some g ∧ g.Names = f.Names) ∧
  (∀ (i : Nat) (m : Method), c.Methods[i]? = some m →
    ∃ n, d.Methods[i]? = some n ∧ Method.keeps m n)

/-- Every node of the tree `cs` is in the tree `ds` at the same place with
    the same names. -/
def Keeps (cs ds : List Class) : Prop :=
  ∀ (i : Nat) (c : Class), cs[i]? = some c → ∃ d, ds[i]? = some d ∧ Class.keeps c d

/-- Example state: the parser at the end of the run on `commentReader`; the
    class of line 2 carries the comment of line 3, the comment of line 4 is a
    global comment. -/
def commentRunEnd : Parser :=
  { lexer := { reader := ⟨[], none, []⟩, lineNumber := 4, state := stateInBody, namespaces := 1 },
    currentTok := { Typ := TokenComment, Indent := 0, Parts := [str "# top"], Line := 4 },
    errors := [],
    metadata := { MajorVersion := 1, MinorVersion := 0, Namespaces := [str "nsA", str "nsB"],
                  Properties := [], GlobalComments := [str "L4: # top"] },
    classes := [{ Names := [str "A1", str "B1"], Comments := [str "# about A"], Fields := [],
                  Methods := [] }],
    stack := [] }

/-! ## Lemmas on the library functions and on `parseNames` -/

open TokenType lexerState

theorem countIndent_tabs (d : Nat) (rest : Str) (h : rest.head? ≠ some '\t') :
    countIndent (List.replicate d '\t' ++ rest) = (d : Int) := by
  induction d with
  | zero =>
    cases rest with
    | nil => simp [countIndent]
    | cons c cs =>
      have hc : c ≠ '\t' := by simpa using h
      simp [countIndent, hc]
  | succ k ih =>
    simp [List.replicate_succ, countIndent, ih]

theorem TrimLeft_tabs (d : Nat) (rest : Str) (h : rest.head? ≠ some '\t') :
    TrimLeft (List.replicate d '\t' ++ rest) [Separator] = rest := by
  induction d with
  | zero =>
    cases rest with
    | nil => simp [TrimLeft]
    | cons c cs =>
      have hc : c ≠ '\t' := by simpa using h
      simp [TrimLeft, List.dropWhile, Separator, hc]
  | succ k ih =>
    simpa [List.replicate_succ, TrimLeft, List.dropWhile, Separator] using ih

theorem Split_ne_nil (s : Str) (sep : Char) : Split s sep ≠ [] := by
  cases s with
  | nil => simp [Split]
  | cons c cs =>
    simp only [Split]
    split
    · simp
    · split <;> simp

theorem Split_length_pos (s : Str) (sep : Char) : 0 < (Split s sep).length :=
  List.length_pos.mpr (Split_ne_nil s sep)

theorem parseBodyLine_tabs (l : Lexer) (d : Nat) (rest : Str)
    (hne : rest ≠ []) (hhead : rest.head? ≠ some '\t') :
    l.parseBodyLine (List.replicate d '\t' ++ rest) =
      if identifierType ((Split rest '\t').headD []) d = TokenError then
        l.errorToken (ErrInvalidIdentifier ((Split rest '\t').headD []) d)
      else { Typ := identifierType ((Split rest '\t').headD []) d, Indent := d,
             Parts := Split rest '\t', Line := l.lineNumber } := by
  have hlen : (Split rest '\t').length ≠ 0 := by
    have := Split_length_pos rest '\t'; omega
  unfold Lexer.parseBodyLine
  simp only [countIndent_tabs d rest hhead, TrimLeft_tabs d rest hhead, hne, if_false]
  simp only [Separator, hlen, if_false]

theorem NextToken_body (l : Lexer) (line : Str) (ls : List Str)
    (hstate : l.state = stateInBody) (hlines : l.reader.lines = line :: ls) :
    l.NextToken =
      (Lexer.parseBodyLine { l with reader := { l.reader with lines := ls },
                                    lineNumber := l.lineNumber + 1 } line,
       { l with reader := { l.reader with lines := ls }, lineNumber := l.lineNumber + 1 }) := by
  simp [Lexer.NextToken, Scanner.Scan, hlines, hstate]

theorem parseNames_fold (n : Nat) (parts : List Str) (u : Str → Str) (k : Nat) (hk : k ≤ n) :
    (List.range k).foldl
      (fun names i => if i < parts.length then names.set i (u (parts.getD i [])) else names)
      (List.replicate n []) =
    (List.range n).map (fun i => if i < k ∧ i < parts.length then u (parts.getD i []) else []) := by
  induction k with
  | zero =>
    apply List.ext_getElem <;> simp
  | succ k ih =>
    rw [List.range_succ, List.foldl_append, ih (by omega)]
    simp only [List.foldl_cons, List.foldl_nil]
    apply List.ext_getElem
    · split <;> simp
    · intro j h1 h2
      have hj : j < n := by simpa using h2
      split
      · rename_i hkp
        simp only [List.getElem_set, List.getElem_map, List.getElem_range]
        by_cases hjk : k = j
        · subst hjk; simp [hkp]
        · have : (j < k + 1 ∧ j < parts.length) ↔ (j < k ∧ j < parts.length) := by omega
          simp [hjk, this]
      · rename_i hkp
        simp only [List.getElem_map, List.getElem_range]
        have : (j < k + 1 ∧ j < parts.length) ↔ (j < k ∧ j < parts.length) := by omega
        simp [this]

theorem parseNames_eq (p : Parser) (parts : List Str) :
    p.parseNames parts =
      (List.range p.metadata.Namespaces.length).map
        (fun i => if i < parts.length then p.unescape (parts.getD i []) else []) := by
  unfold Parser.parseNames
  rw [parseNames_fold _ parts p.unescape _ (Nat.le_refl _)]
  apply List.map_congr_left
  intro i hi
  have : i < p.metadata.Namespaces.length := by simpa using hi
  simp [this]

theorem parseNames_length (p : Parser) (parts : List Str) :
    (p.parseNames parts).length = p.metadata.Namespaces.length := by
  simp [parseNames_eq]

theorem unescapeString_eq (s : Str) : unescapeString s = newlineUnescaped s := by
  have h1 : str "\\n" = ['\\', 'n'] := rfl
  have h2 : str "\n" = ['\n'] := rfl
  unfold unescapeString ReplaceAll
  rw [h1, h2]
  induction s using newlineUnescaped.induct with
  | case1 => simp [ReplaceAllFrom, newlineUnescaped]
  | case2 c => simp [ReplaceAllFrom, newlineUnescaped]
  | case3 c d rest h ih =>
    obtain ⟨rfl, rfl⟩ := h
    simp [ReplaceAllFrom, newlineUnescaped, ih]
  | case4 c d rest h ih =>
    have h3 : ¬ (['\\', 'n'].isPrefixOf (c :: d :: rest) = true) := by
      simp only [List.isPrefixOf, Bool.and_eq_true, beq_iff_eq, Bool.and_true]
      intro hh; exact h ⟨hh.1.symm, hh.2.symm⟩
    rw [ReplaceAllFrom, if_neg h3, ih]
    simp [newlineUnescaped, h]

theorem Split_of_not_mem (a : Str) (sep : Char) (h : sep ∉ a) : Split a sep = [a] := by
  induction a with
  | nil => simp [Split]
  | cons c cs ih =>
    have hc : c ≠ sep := fun e => h (by simp [e])
    have hcs : sep ∉ cs := fun e => h (by simp [e])
    simp [Split, hc, ih hcs]

theorem Split_append_sep (a s : Str) (sep : Char) (h : sep ∉ a) :
    Split (a ++ sep :: s) sep = a :: Split s sep := by
  induction a with
  | nil => simp [Split]
  | cons c cs ih =>
    have hc : c ≠ sep := fun e => h (by simp [e])
    have hcs : sep ∉ cs := fun e => h (by simp [e])
    simp [Split, hc, ih hcs]

theorem Split_Join (fields : List Str) (hne : fields ≠ []) (h : ∀ f ∈ fields, '\t' ∉ f) :
    Split (Join fields (str "\t")) '\t' = fields := by
  have ht : str "\t" = ['\t'] := rfl
  induction fields with
  | nil => exact absurd rfl hne
  | cons a rest ih =>
    cases rest with
    | nil => simpa [Join] using Split_of_not_mem a '\t' (h a (by simp))
    | cons b rest =>
      have h1 : '\t' ∉ a := h a (by simp)
      have h2 : ∀ f ∈ b :: rest, '\t' ∉ f := fun f hf => h f (by simp [hf])
      rw [Join, ht, List.append_assoc, List.singleton_append, Split_append_sep a _ '\t' h1,
        ← ht, ih (by simp) h2]

theorem Join_Split (s : Str) : Join (Split s '\t') (str "\t") = s := by
  have ht : str "\t" = ['\t'] := rfl
  induction s with
  | nil => simp [Split, Join]
  | cons c cs ih =>
    simp only [Split]
    split
    · rename_i hc
      have hne := Split_ne_nil cs '\t'
      cases hsp : Split cs '\t' with
      | nil => exact absurd hsp hne
      | cons f fs =>
        rw [hsp] at ih
        rw [ht] at ih ⊢
        simp [Join, ih, hc]
    · cases hsp : Split cs '\t' with
      | nil => exact absurd hsp (Split_ne_nil cs '\t')
      | cons f fs =>
        rw [hsp] at ih
        cases fs with
        | nil => simp [Join] at ih ⊢; exact ih
        | cons g gs => simp [Join] at ih ⊢; exact ih

theorem parseNames_verbatim (p : Parser) (fs : List Str)
    (hlen : fs.length = p.metadata.Namespaces.length)
    (hprops : mapGet p.metadata.Properties (str "escaped-names") = []) :
    p.parseNames fs = fs := by
  rw [parseNames_eq]
  apply List.ext_getElem
  · simp [hlen]
  · intro i h1 h2
    have : i < fs.length := h2
    simp [this, Parser.unescape, hprops, List.getD, List.getElem?_eq_getElem this]

theorem NextToken_start (l : Lexer) (line : Str) (ls : List Str)
    (hstate : l.state = stateStart) (hlines : l.reader.lines = line :: ls)
    (hpre : HasPrefix line (str "tiny\t") = true) (hlen : 5 ≤ (Split line '\t').length) :
    l.NextToken =
      ({ Typ := TokenHeader, Parts := Split line '\t', Line := l.lineNumber + 1 },
       { l with reader := { l.reader with lines := ls }, lineNumber := l.lineNumber + 1,
                namespaces := ((Split line '\t').length : Int) - 4,
                state := stateHeaderParsed }) := by
  have h5 : ¬ (Split line '\t').length < 5 := by omega
  simp [Lexer.NextToken, Scanner.Scan, hlines, hstate, Lexer.parseHeader, hpre, Separator, h5]

theorem NextToken_eof (l : Lexer) (hlines : l.reader.lines = []) (herr : l.reader.err = none) :
    l.NextToken = ({ Typ := TokenEOF }, l) := by
  simp [Lexer.NextToken, Scanner.Scan, hlines, Scanner.Err, herr]

theorem NextToken_body_line (l : Lexer) (line : Str) (ls : List Str)
    (hstate : l.state ≠ stateStart) (hlines : l.reader.lines = line :: ls)
    (hind : countIndent line ≠ 1) :
    l.NextToken =
      (Lexer.parseBodyLine { l with reader := { l.reader with lines := ls },
                                    lineNumber := l.lineNumber + 1, state := stateInBody } line,
       { l with reader := { l.reader with lines := ls }, lineNumber := l.lineNumber + 1,
                state := stateInBody }) := by
  cases hs : l.state with
  | stateStart => exact absurd hs hstate
  | stateHeaderParsed =>
    simp [Lexer.NextToken, Scanner.Scan, hlines, hs, Lexer.parsePossibleProperty, hind,
      Lexer.parseBodyLine, Lexer.errorToken]
  | stateInBody =>
    simp [Lexer.NextToken, Scanner.Scan, hlines, hs, Lexer.parseBodyLine, Lexer.errorToken]

theorem classLine_cons (names : List Str) :
    ∃ t, Join (str "c" :: names) (str "\t") = 'c' :: t := by
  cases names with
  | nil => exact ⟨[], rfl⟩
  | cons b r => exact ⟨str "\t" ++ Join (b :: r) (str "\t"), rfl⟩

theorem parseBodyLine_class (l : Lexer) (names : List Str) (h : ∀ f ∈ names, '\t' ∉ f) :
    l.parseBodyLine (Join (str "c" :: names) (str "\t")) =
      { Typ := TokenClass, Indent := 0, Parts := str "c" :: names, Line := l.lineNumber } := by
  obtain ⟨t, ht⟩ := classLine_cons names
  have hsp : Split (Join (str "c" :: names) (str "\t")) '\t' = str "c" :: names := by
    apply Split_Join _ (by simp)
    intro f hf
    rcases List.mem_cons.mp hf with rfl | hf
    · decide
    · exact h f hf
  have := parseBodyLine_tabs l 0 (Join (str "c" :: names) (str "\t")) (by simp [ht]) (by simp [ht])
  simp only [List.replicate_zero, List.nil_append] at this
  rw [this, hsp]
  have hc : str "c" = ['c'] := rfl
  simp [identifierType, hc]

theorem countIndent_classLine (names : List Str) :
    countIndent (Join (str "c" :: names) (str "\t")) = 0 := by
  obtain ⟨t, ht⟩ := classLine_cons names
  simp [ht, countIndent]

theorem length_ge_five {α : Type} (l : List α) (h : 5 ≤ l.length) :
    ∃ a b c d e tl, l = a :: b :: c :: d :: e :: tl := by
  match l, h with
  | a :: b :: c :: d :: e :: tl, _ => exact ⟨a, b, c, d, e, tl, rfl⟩

theorem Parse_header_eq (fuel : Nat) (line : Str) (rest : List Str) (err : Option Str) (buf : List Str)
    (hpre : HasPrefix line (str "tiny\t") = true) (hlen : 5 ≤ (Split line '\t').length) :
    Parser.Parse fuel (NewParser ⟨line :: rest, err, buf⟩) =
      (match Parser.parseHeaderLoop fuel (headerParser line rest err buf) with
       | .error e => .error e
       | .ok p1 =>
         match Parser.parseLoop fuel p1 with
         | .error e => .error e
         | .ok p => .ok { mapping := some { Metadata := p.metadata, Classes := p.classes },
                          errors := p.errors, parser := p }) := by
  obtain ⟨a, b, c, d, e, tl, hparts⟩ := length_ge_five _ hlen
  unfold Parser.Parse
  rw [NextToken_start (NewParser ⟨line :: rest, err, buf⟩).lexer line rest rfl rfl hpre hlen]
  simp only [Parser.parseHeader, headerParser, hparts, NewParser, NewLexer]
  simp only [bind, Except.bind, pure, Except.pure, index, sliceFrom, Parser.addError]
  have h5 : ¬ (tl.length + 1 + 1 + 1 + 1 + 1 < 5) := by omega
  simp only [List.length_cons, h5, if_false]
  cases hM : (Atoi b).ok <;> cases hm : (Atoi c).ok <;> simp [hM, hm] <;>
    (generalize Parser.parseHeaderLoop fuel _ = r; cases r <;> simp; (generalize Parser.parseLoop fuel _ = r2; cases r2 <;> rfl))

theorem parseBodyLine_indent_zero (l : Lexer) (line : Str) (hind : countIndent line = 0) :
    (l.parseBodyLine line).Indent = 0 := by
  unfold Lexer.parseBodyLine
  simp only [hind]
  split
  · rfl
  · split
    · rfl
    · split <;> rfl

theorem parseHeaderLoop_depth0 (fuel : Nat) (p : Parser) (line : Str) (ls : List Str)
    (hstate : p.lexer.state = stateHeaderParsed) (hlines : p.lexer.reader.lines = line :: ls)
    (hind : countIndent line = 0) :
    Parser.parseHeaderLoop (fuel + 1) p =
      Parser.parseBody
        { p with
          lexer := { p.lexer with reader := { p.lexer.reader with lines := ls },
                                  lineNumber := p.lexer.lineNumber + 1, state := stateInBody },
          currentTok := Lexer.parseBodyLine
            { p.lexer with reader := { p.lexer.reader with lines := ls },
                           lineNumber := p.lexer.lineNumber + 1, state := stateInBody } line }
        (Lexer.parseBodyLine
            { p.lexer with reader := { p.lexer.reader with lines := ls },
                           lineNumber := p.lexer.lineNumber + 1, state := stateInBody } line) := by
  have hNT := NextToken_body_line p.lexer line ls (by simp [hstate]) hlines (by simp [hind])
  have hz := parseBodyLine_indent_zero
    { p.lexer with reader := { p.lexer.reader with lines := ls },
                   lineNumber := p.lexer.lineNumber + 1, state := stateInBody } line hind
  rw [Parser.parseHeaderLoop]
  simp only [hNT, hz, if_true]

theorem parseHeaderLoop_eof (fuel : Nat) (p : Parser)
    (hlines : p.lexer.reader.lines = []) (herr : p.lexer.reader.err = none) :
    Parser.parseHeaderLoop (fuel + 1) p = .ok { p with currentTok := { Typ := TokenEOF } } := by
  rw [Parser.parseHeaderLoop]
  simp [NextToken_eof p.lexer hlines herr, Parser.parseBody]

theorem parseLoop_eof (fuel : Nat) (p : Parser)
    (hlines : p.lexer.reader.lines = []) (herr : p.lexer.reader.err = none) :
    Parser.parseLoop (fuel + 1) p = .ok p := by
  rw [Parser.parseLoop]
  simp [NextToken_eof p.lexer hlines herr]

theorem parseLoop_step (fuel : Nat) (p : Parser) (h : p.lexer.NextToken.1.Typ ≠ TokenEOF) :
    Parser.parseLoop (fuel + 1) p =
      (match Parser.loopBody { p with lexer := p.lexer.NextToken.2 } p.lexer.NextToken.1 with
       | .error e => .error e
       | .ok q => Parser.parseLoop fuel q) := by
  rw [Parser.parseLoop]
  simp only [h, if_false, bind, Except.bind]
  cases Parser.loopBody { p with lexer := p.lexer.NextToken.2 } p.lexer.NextToken.1 <;> rfl

theorem parseBody_class (p : Parser) (tok : Token) (c : Str) (names : List Str)
    (htyp : tok.Typ = TokenClass) (hind : p.currentTok.Indent = 0)
    (hparts : p.currentTok.Parts = c :: names) :
    Parser.parseBody p tok =
      .ok { p with classes := p.classes ++ [{ Names := p.parseNames names, Comments := [] }],
                   stack := p.stack ++ [{ indent := 0, element := Element.Class p.classes.length }] } := by
  simp [Parser.parseBody, htyp, Parser.parseClass, hind, hparts, sliceFrom, bind, Except.bind,
    pure, Except.pure, Parser.pushStack]

theorem adjustStack_zero_small (p : Parser) (h : p.stack = [] ∨ ∃ e, p.stack = [⟨0, e⟩]) :
    p.adjustStack 0 = { p with stack := [] } := by
  rcases h with h | ⟨e, h⟩ <;> simp [Parser.adjustStack, h, Parser.adjustStackLoop]

theorem parseLoop_classLines (cls : List (List Str)) :
    ∀ (fuel : Nat) (p : Parser),
      p.lexer.state ≠ stateStart →
      p.lexer.reader = ⟨cls.map (fun fs => Join (str "c" :: fs) (str "\t")), none, []⟩ →
      (p.stack = [] ∨ ∃ e, p.stack = [⟨0, e⟩]) →
      mapGet p.metadata.Properties (str "escaped-names") = [] →
      (∀ fs ∈ cls, fs.length = p.metadata.Namespaces.length ∧ ∀ f ∈ fs, '\t' ∉ f) →
      cls.length + 1 ≤ fuel →
      ∃ q, Parser.parseLoop fuel p = .ok q ∧ q.errors = p.errors ∧ q.metadata = p.metadata ∧
        q.classes = p.classes ++
          cls.map (fun fs => { Names := fs, Comments := [], Fields := [], Methods := [] }) := by
  induction cls with
  | nil =>
    intro fuel p _ hr _ _ _ hfuel
    obtain ⟨f, rfl⟩ : ∃ f, fuel = f + 1 := ⟨fuel - 1, by simp at hfuel; omega⟩
    refine ⟨p, parseLoop_eof f p (by simp [hr]) (by simp [hr]), rfl, rfl, by simp⟩
  | cons fs rest ih =>
    intro fuel p hstate hr hstack hprops hcls hfuel
    obtain ⟨f, rfl⟩ : ∃ f, fuel = f + 1 := ⟨fuel - 1, by simp at hfuel; omega⟩
    have hfs := hcls fs (by simp)
    have hlines : p.lexer.reader.lines = Join (str "c" :: fs) (str "\t") ::
        rest.map (fun fs => Join (str "c" :: fs) (str "\t")) := by simp [hr]
    have hNT := NextToken_body_line p.lexer _ _ hstate hlines
      (by simp [countIndent_classLine])
    rw [parseBodyLine_class _ fs hfs.2] at hNT
    have step : Parser.parseLoop (f + 1) p = Parser.parseLoop f
        { p with lexer := p.lexer.NextToken.2, currentTok := p.lexer.NextToken.1,
                 classes := p.classes ++ [{ Names := fs, Comments := [] }],
                 stack := [⟨0, Element.Class p.classes.length⟩] } := by
      rw [parseLoop_step f p (by simp [hNT])]
      simp only [hNT, Parser.loopBody]
      rw [adjustStack_zero_small _ (by simpa using hstack)]
      rw [parseBody_class _ _ (str "c") fs rfl rfl rfl]
      simp only []
      rw [parseNames_verbatim _ fs (by simpa using hfs.1) (by simpa using hprops)]
      simp
    obtain ⟨q, hq, he, hm, hc⟩ := ih f
      { p with lexer := p.lexer.NextToken.2, currentTok := p.lexer.NextToken.1,
               classes := p.classes ++ [{ Names := fs, Comments := [] }],
               stack := [⟨0, Element.Class p.classes.length⟩] }
      (by simp [hNT]) (by simp [hNT, hr]) (Or.inr ⟨_, rfl⟩)
      (by simpa using hprops) (fun gs hgs => by simpa using hcls gs (by simp [hgs]))
      (by simp at hfuel ⊢; omega)
    refine ⟨q, by rw [step]; exact hq, by simpa using he, by simpa using hm, ?_⟩
    simpa using hc

theorem digitsVal_chars (cs : Str) :
    ∀ (acc n : Nat), digitsVal cs acc = some n → ∀ c ∈ cs, (digitVal c).isSome = true := by
  induction cs with
  | nil => intro _ _ _ c hc; simp at hc
  | cons c cs ih =>
    intro acc n h x hx
    simp only [digitsVal] at h
    cases hd : digitVal c with
    | none => simp [hd] at h
    | some d =>
      simp only [hd] at h
      simp only [List.mem_cons] at hx
      rcases hx with rfl | hx
      · simp [hd]
      · exact ih _ _ h x hx

theorem scanUint_value (cs : Str) :
    ∀ (acc n : Nat), scanUint cs acc = .value n → digitsVal cs acc = some n := by
  induction cs with
  | nil => intro acc n h; simpa [scanUint, digitsVal] using h
  | cons c cs ih =>
    intro acc n h
    simp only [scanUint] at h
    simp only [digitsVal]
    cases hd : digitVal c with
    | none => simp [hd] at h
    | some d =>
      simp only [hd] at h ⊢
      split at h
      · cases h
      · exact ih _ _ h

theorem digitsVal_ge (cs : Str) : ∀ (acc n : Nat), digitsVal cs acc = some n → acc ≤ n := by
  induction cs with
  | nil => intro acc n h; simp [digitsVal] at h; omega
  | cons c cs ih =>
    intro acc n h
    simp only [digitsVal] at h
    cases hd : digitVal c with
    | none => simp [hd] at h
    | some d =>
      simp only [hd] at h
      have := ih _ _ h
      omega

theorem scanUint_of_digitsVal (cs : Str) :
    ∀ (acc n : Nat), digitsVal cs acc = some n → n < 2 ^ 64 → scanUint cs acc = .value n := by
  induction cs with
  | nil => intro acc n h _; simpa [scanUint, digitsVal] using h
  | cons c cs ih =>
    intro acc n h hn
    simp only [digitsVal] at h
    simp only [scanUint]
    cases hd : digitVal c with
    | none => simp [hd] at h
    | some d =>
      simp only [hd] at h ⊢
      have hge := digitsVal_ge _ _ _ h
      have hlt : ¬ (2 ^ 64 ≤ acc * 10 + d) := by omega
      simp only [hlt, if_false]
      exact ih _ _ h hn

theorem Atoi_ok_digits (s : Str) (v : Int) (h : Atoi s = ⟨v, true⟩) :
    ∀ c ∈ s, c = '-' ∨ c = '+' ∨ (digitVal c).isSome = true := by
  unfold Atoi at h
  simp only at h
  have key : ∀ body : Str, (match scanUint body 0 with
      | .syntaxError => (⟨0, false⟩ : AtoiResult)
      | .rangeError => if (decide (s.head? = some '-')) = true then ⟨-(2 ^ 63 : Int), false⟩
          else ⟨(2 ^ 63 - 1 : Int), false⟩
      | .value n =>
        if (decide (s.head? = some '-')) = true then
          (if n ≤ 2 ^ 63 then ⟨-(n : Int), true⟩ else ⟨-(2 ^ 63 : Int), false⟩)
        else
          (if n < 2 ^ 63 then ⟨(n : Int), true⟩ else ⟨(2 ^ 63 - 1 : Int), false⟩)) = ⟨v, true⟩ →
      ∀ c ∈ body, (digitVal c).isSome = true := by
    intro body hb
    cases hsc : scanUint body 0 with
    | syntaxError => simp [hsc] at hb
    | rangeError =>
      simp only [hsc] at hb
      split at hb <;> simp at hb
    | value n => exact digitsVal_chars _ _ _ (scanUint_value _ _ _ hsc)
  by_cases hs : s.head? = some '-' ∨ s.head? = some '+'
  · simp only [hs, if_true] at h
    by_cases hbn : s.tail = []
    · simp [hbn] at h
    · simp only [hbn, if_false] at h
      have hb := key _ h
      cases s with
      | nil => intro c hc; simp at hc
      | cons c cs =>
        simp only [List.tail_cons] at hb
        intro x hx
        simp only [List.mem_cons] at hx
        rcases hx with rfl | hx
        · rcases hs with hs | hs
          · left; simpa using hs
          · right; left; simpa using hs
        · exact Or.inr (Or.inr (hb x hx))
  · simp only [hs, if_false] at h
    by_cases hbn : s = []
    · intro c hc; simp [hbn] at hc
    · simp only [hbn, if_false] at h
      intro x hx
      exact Or.inr (Or.inr (key _ h x hx))

theorem Atoi_ok_clean (s : Str) (v : Int) (h : Atoi s = ⟨v, true⟩) :
    '\t' ∉ s ∧ '\n' ∉ s ∧ '\r' ∉ s := by
  have hd := Atoi_ok_digits s v h
  refine ⟨?_, ?_, ?_⟩ <;>
    (intro hmem
     rcases hd _ hmem with h1 | h1 | h1 <;> revert h1 <;> decide)

theorem Atoi_ok_no_tab (s : Str) (v : Int) (h : Atoi s = ⟨v, true⟩) : '\t' ∉ s :=
  (Atoi_ok_clean s v h).1

theorem HasPrefix_tiny (fields : List Str) (f : Str) :
    HasPrefix (Join (str "tiny" :: f :: fields) (str "\t")) (str "tiny\t") = true := by
  have : Join (str "tiny" :: f :: fields) (str "\t") = str "tiny\t" ++ Join (f :: fields) (str "\t") := rfl
  rw [this]
  simp [HasPrefix]

theorem adjustStack_unchanged (p : Parser) (d : Int) (top : parseNode) (st : List parseNode)
    (hst : p.stack = st ++ [top]) (hlt : top.indent < d) : p.adjustStack d = p := by
  have h : ¬ (d ≤ top.indent) := by omega
  simp [Parser.adjustStack, hst, Parser.adjustStackLoop, h]
  rw [← hst]

theorem parseNames_congr (p q : Parser) (h : p.metadata = q.metadata) (parts : List Str) :
    p.parseNames parts = q.parseNames parts := by
  simp [Parser.parseNames, Parser.unescape, h]

theorem adjustStack_congr (p q : Parser) (d : Int) (h : p.stack = q.stack) :
    (p.adjustStack d).stack = (q.adjustStack d).stack := by
  simp [Parser.adjustStack, h]

theorem getCurrentParent_congr (p q : Parser) (h : p.stack = q.stack) :
    p.getCurrentParent = q.getCurrentParent := by
  simp [Parser.getCurrentParent, h]

theorem parseBodyLine_localVariable (l : Lexer) (fields : List Str) (h : ∀ f ∈ fields, '\t' ∉ f) :
    l.parseBodyLine (str "\t\t" ++ Join (str "v" :: fields) (str "\t")) =
      { Typ := TokenLocalVariable, Indent := 2, Parts := str "v" :: fields,
        Line := l.lineNumber } := by
  have hcons : ∃ t, Join (str "v" :: fields) (str "\t") = 'v' :: t := by
    cases fields with
    | nil => exact ⟨[], rfl⟩
    | cons b r => exact ⟨str "\t" ++ Join (b :: r) (str "\t"), rfl⟩
  obtain ⟨t, ht⟩ := hcons
  have hsp : Split (Join (str "v" :: fields) (str "\t")) '\t' = str "v" :: fields := by
    apply Split_Join _ (by simp)
    intro f hf
    rcases List.mem_cons.mp hf with rfl | hf
    · decide
    · exact h f hf
  have h2 : str "\t\t" = List.replicate 2 '\t' := rfl
  rw [h2, parseBodyLine_tabs l 2 _ (by simp [ht]) (by simp [ht]), hsp]
  have hv : str "v" = ['v'] := rfl
  simp [identifierType, hv]

theorem parseLoop_comment_step (f : Nat) (p : Parser) (rest : Str) (more : List Str) (e : Element)
    (hstate : p.lexer.state = stateInBody)
    (hlines : p.lexer.reader.lines = ('\t' :: rest) :: more)
    (hstack : p.stack = [⟨0, e⟩])
    (hne : rest ≠ []) (hhead : rest.head? ≠ some '\t')
    (hx : (Split rest '\t').headD [] ∉ [str "f", str "m", str "p", str "v"]) :
    Parser.parseLoop (f + 1) p = Parser.parseLoop f
      { p with
        lexer := { p.lexer with reader := { p.lexer.reader with lines := more },
                                lineNumber := p.lexer.lineNumber + 1 },
        currentTok := { Typ := TokenComment, Indent := 1, Parts := Split rest '\t',
                        Line := p.lexer.lineNumber + 1 },
        classes := Parser.appendComment p.classes rest e } := by
  have hlines' : p.lexer.reader.lines = (List.replicate 1 '\t' ++ rest) :: more := by
    simp [hlines]
  have hNT := NextToken_body p.lexer _ _ hstate hlines'
  rw [parseBodyLine_tabs _ 1 rest hne hhead] at hNT
  have hty : identifierType ((Split rest '\t').headD []) ((1 : Nat) : Int) = TokenComment := by
    have h4 : (Split rest '\t').headD [] ≠ str "f" ∧ (Split rest '\t').headD [] ≠ str "m" ∧
        (Split rest '\t').headD [] ≠ str "p" ∧ (Split rest '\t').headD [] ≠ str "v" := by
      simpa using hx
    have e1 : str "f" = ['f'] := rfl
    have e2 : str "m" = ['m'] := rfl
    have e3 : str "p" = ['p'] := rfl
    have e4 : str "v" = ['v'] := rfl
    rw [e1, e2, e3, e4] at h4
    generalize (Split rest '\t').headD [] = x at h4
    unfold identifierType
    simp [h4.1, h4.2.1, h4.2.2.1, h4.2.2.2]
  rw [hty] at hNT
  simp only [reduceCtorEq, if_false, Nat.cast_one] at hNT
  rw [parseLoop_step f p (by simp [hNT])]
  simp only [hNT, Parser.loopBody]
  rw [adjustStack_unchanged _ 1 ⟨0, e⟩ [] (by simp [hstack]) (by simp)]
  simp only [Parser.parseBody, Parser.handleComment, hstack]
  simp only [List.reverse_cons, List.reverse_nil, List.nil_append, List.find?, Join_Split]
  simp only [Nat.cast_one, sub_self, decide_True]

theorem parseHeaderLoop_classLine_eq (fuel : Nat) (p : Parser) (names : List Str) (ls : List Str)
    (hstate : p.lexer.state = stateHeaderParsed)
    (hlines : p.lexer.reader.lines = Join (str "c" :: names) (str "\t") :: ls)
    (hnames : ∀ f ∈ names, '\t' ∉ f) :
    Parser.parseHeaderLoop (fuel + 1) p = .ok
      { p with
        lexer := { p.lexer with reader := { p.lexer.reader with lines := ls },
                                lineNumber := p.lexer.lineNumber + 1, state := stateInBody },
        currentTok := { Typ := TokenClass, Indent := 0, Parts := str "c" :: names,
                        Line := p.lexer.lineNumber + 1 },
        classes := p.classes ++ [{ Names := p.parseNames names, Comments := [] }],
        stack := p.stack ++ [⟨0, Element.Class p.classes.length⟩] } := by
  rw [parseHeaderLoop_depth0 fuel p _ ls hstate hlines (countIndent_classLine names)]
  rw [parseBodyLine_class _ names hnames]
  rw [parseBody_class _ _ (str "c") names rfl rfl rfl]
  rfl

theorem digitVal_digitChar (m : Nat) (h : m < 10) : digitVal (Nat.digitChar m) = some m := by
  interval_cases m <;> decide

theorem digitChar_not_sign (m : Nat) (h : m < 10) :
    Nat.digitChar m ≠ '-' ∧ Nat.digitChar m ≠ '+' := by
  interval_cases m <;> decide

theorem digitsVal_toDigitsCore (f : Nat) :
    ∀ (n : Nat) (ds : Str), n < f →
      digitsVal (Nat.toDigitsCore 10 f n ds) 0 = digitsVal ds n ∧
      ∃ m t, m < 10 ∧ Nat.toDigitsCore 10 f n ds = Nat.digitChar m :: t := by
  induction f with
  | zero => intro n ds h; omega
  | succ k ih =>
    intro n ds h
    have hmod : n % 10 < 10 := Nat.mod_lt _ (by decide)
    simp only [Nat.toDigitsCore]
    split
    · rename_i h0
      refine ⟨?_, n % 10, ds, hmod, rfl⟩
      simp only [digitsVal, digitVal_digitChar _ hmod]
      congr 1
      omega
    · rename_i h0
      have hlt : n / 10 < k := by omega
      obtain ⟨h1, h2⟩ := ih (n / 10) (Nat.digitChar (n % 10) :: ds) hlt
      refine ⟨?_, h2⟩
      rw [h1]
      simp only [digitsVal, digitVal_digitChar _ hmod]
      congr 1
      omega

theorem Atoi_toDigits (n : Nat) (h : n < 2 ^ 63) : Atoi (Nat.toDigits 10 n) = ⟨(n : Int), true⟩ := by
  obtain ⟨h1, m, t, hm, h2⟩ := digitsVal_toDigitsCore (n + 1) n [] (by omega)
  have hs := digitChar_not_sign m hm
  have hsc : scanUint (Nat.toDigitsCore 10 (n + 1) n []) 0 = .value n :=
    scanUint_of_digitsVal _ _ _ (by rw [h1]; rfl) (by omega)
  unfold Atoi Nat.toDigits
  rw [h2] at hsc ⊢
  simp only [List.head?_cons, Option.some.injEq, hs.1, hs.2, or_self, if_false, hsc]
  have h' : n < 9223372036854775808 := by simpa using h
  simp [h']

theorem sliceFrom_ok (parts : List Str) (i : Nat) (v : List Str)
    (h : sliceFrom parts i = .ok v) : v = parts.drop i ∧ i ≤ parts.length := by
  unfold sliceFrom at h
  split at h
  · rename_i hle
    exact ⟨(Except.ok.inj h).symm, hle⟩
  · cases h

theorem index_ok (parts : List Str) (i : Nat) (s : Str)
    (h : index parts i = .ok s) : parts[i]? = some s := by
  unfold index at h
  split at h
  · rename_i v hv
    rw [hv, Except.ok.inj h]
  · cases h

theorem parseClass_cases (p q : Parser) (h : p.parseClass = .ok q) :
    (∃ msg, q = p.addError msg) ∨
    (p.currentTok.Indent = 0 ∧
      q = { p with classes := p.classes ++
                     [{ Names := p.parseNames (p.currentTok.Parts.drop 1), Comments := [] }],
                   stack := p.stack ++ [⟨0, Element.Class p.classes.length⟩] }) := by
  unfold Parser.parseClass at h
  split at h
  · left; exact ⟨_, (Except.ok.inj h).symm⟩
  · rename_i hind
    simp only [ne_eq, not_not] at hind
    right
    refine ⟨hind, ?_⟩
    simp only [bind, Except.bind, pure, Except.pure] at h
    split at h
    · cases h
    · rename_i v hv
      obtain ⟨rfl, _⟩ := sliceFrom_ok _ _ _ hv
      have := (Except.ok.inj h).symm
      simp only [Parser.pushStack, hind] at this
      exact this

theorem parseMethod_cases (p q : Parser) (h : p.parseMethod = .ok q) :
    (∃ msg, q = p.addError msg) ∨
    (p.currentTok.Indent = 1 ∧ ∃ ci d,
      p.getCurrentParent = some (Element.Class ci) ∧ p.currentTok.Parts[1]? = some d ∧
      q = { p with
            classes := updateClass p.classes ci (fun c => { c with Methods := c.Methods ++
              [{ Descriptor := p.unescape d, Names := p.parseNames (p.currentTok.Parts.drop 2),
                 Comments := [] }] }),
            stack := p.stack ++ [⟨1, Element.Method ci (methodCount p.classes ci)⟩] }) := by
  unfold Parser.parseMethod at h
  split at h
  · left; exact ⟨_, (Except.ok.inj h).symm⟩
  · rename_i parent hpar
    split at h
    · left; exact ⟨_, (Except.ok.inj h).symm⟩
    · rename_i hind
      simp only [ne_eq, not_not] at hind
      simp only [bind, Except.bind, pure, Except.pure] at h
      split at h
      · cases h
      · rename_i d hd
        split at h
        · cases h
        · rename_i names hn
          obtain ⟨rfl, _⟩ := sliceFrom_ok _ _ _ hn
          split at h
          · rename_i ci
            right
            refine ⟨hind, ci, d, hpar, index_ok _ _ _ hd, ?_⟩
            have := (Except.ok.inj h).symm
            simp only [Parser.pushStack, hind] at this
            exact this
          · left; exact ⟨_, (Except.ok.inj h).symm⟩

theorem parseField_cases (p q : Parser) (h : p.parseField = .ok q) :
    (∃ msg, q = p.addError msg) ∨
    (p.currentTok.Indent = 1 ∧ ∃ ci d,
      p.getCurrentParent = some (Element.Class ci) ∧ p.currentTok.Parts[1]? = some d ∧
      q = { p with
            classes := updateClass p.classes ci (fun c => { c with Fields := c.Fields ++
              [{ Descriptor := p.unescape d, Names := p.parseNames (p.currentTok.Parts.drop 2),
                 Comments := [] }] }),
            stack := p.stack ++ [⟨1, Element.Field ci (fieldCount p.classes ci)⟩] }) := by
  unfold Parser.parseField at h
  split at h
  · left; exact ⟨_, (Except.ok.inj h).symm⟩
  · rename_i parent hpar
    split at h
    · left; exact ⟨_, (Except.ok.inj h).symm⟩
    · rename_i hind
      simp only [ne_eq, not_not] at hind
      simp only [bind, Except.bind, pure, Except.pure] at h
      split at h
      · cases h
      · rename_i d hd
        split at h
        · cases h
        · rename_i names hn
          obtain ⟨rfl, _⟩ := sliceFrom_ok _ _ _ hn
          split at h
          · rename_i ci
            right
            refine ⟨hind, ci, d, hpar, index_ok _ _ _ hd, ?_⟩
            have := (Except.ok.inj h).symm
            simp only [Parser.pushStack, hind] at this
            exact this
          · left; exact ⟨_, (Except.ok.inj h).symm⟩

theorem parseParameter_cases (p q : Parser) (h : p.parseParameter = .ok q) :
    (∃ msg, q = p.addError msg) ∨
    (p.currentTok.Indent = 2 ∧ ∃ ci mi d,
      p.getCurrentParent = some (Element.Method ci mi) ∧ p.currentTok.Parts[1]? = some d ∧
      (Atoi d).ok = true ∧
      q = { p with
            classes := updateMethod p.classes ci mi (fun m => { m with Parameters := m.Parameters ++
              [{ Index := (Atoi d).value, Names := p.parseNames (p.currentTok.Parts.drop 2),
                 Comments := [] }] }),
            stack := p.stack ++ [⟨2, Element.Parameter ci mi
              (match methodAt p.classes ci mi with
               | some m => m.Parameters.length
               | none => 0)⟩] }) := by
  unfold Parser.parseParameter at h
  split at h
  · left; exact ⟨_, (Except.ok.inj h).symm⟩
  · rename_i parent hpar
    split at h
    · left; exact ⟨_, (Except.ok.inj h).symm⟩
    · rename_i hind
      simp only [ne_eq, not_not] at hind
      simp only [bind, Except.bind, pure, Except.pure] at h
      split at h
      · cases h
      · rename_i d hd
        split at h
        · left; exact ⟨_, (Except.ok.inj h).symm⟩
        · rename_i hok
          split at h
          · cases h
          · rename_i names hn
            obtain ⟨rfl, _⟩ := sliceFrom_ok _ _ _ hn
            split at h
            · rename_i ci mi
              right
              refine ⟨hind, ci, mi, d, hpar, index_ok _ _ _ hd, by simpa using hok, ?_⟩
              have := (Except.ok.inj h).symm
              simp only [Parser.pushStack, hind] at this
              exact this
            · left; exact ⟨_, (Except.ok.inj h).symm⟩

theorem parseLocalVariable_cases (p q : Parser) (h : p.parseLocalVariable = .ok q) :
    (∃ msg, q = p.addError msg) ∨
    (p.currentTok.Indent = 2 ∧ 4 ≤ p.currentTok.Parts.length ∧ ∃ ci mi i1 i2 i3,
      p.getCurrentParent = some (Element.Method ci mi) ∧
      q = { p with
            classes := updateMethod p.classes ci mi (fun m => { m with LocalVars := m.LocalVars ++
              [{ Index := i1, StartOffset := i2, LvtIndex := i3,
                 Names := p.parseNames (p.currentTok.Parts.drop 4), Comments := [] }] }),
            stack := p.stack ++ [⟨2, Element.LocalVariable ci mi
              (match methodAt p.classes ci mi with
               | some m => m.LocalVars.length
               | none => 0)⟩] }) := by
  unfold Parser.parseLocalVariable at h
  split at h
  · left; exact ⟨_, (Except.ok.inj h).symm⟩
  · rename_i parent hpar
    split at h
    · left; exact ⟨_, (Except.ok.inj h).symm⟩
    · rename_i hind
      simp only [ne_eq, not_not] at hind
      split at h
      · left; exact ⟨_, (Except.ok.inj h).symm⟩
      · rename_i hlen
        simp only [bind, Except.bind, pure, Except.pure] at h
        split at h
        · cases h
        · rename_i d1 hd1
          split at h
          · cases h
          · rename_i d2 hd2
            split at h
            · cases h
            · rename_i d3 hd3
              split at h
              · left; exact ⟨_, (Except.ok.inj h).symm⟩
              · split at h
                · cases h
                · rename_i names hn
                  obtain ⟨rfl, _⟩ := sliceFrom_ok _ _ _ hn
                  split at h
                  · rename_i ci mi
                    right
                    refine ⟨hind, by omega, ci, mi, (Atoi d1).value, (Atoi d2).value, (Atoi d3).value,
                      hpar, ?_⟩
                    have := (Except.ok.inj h).symm
                    simp only [Parser.pushStack, hind] at this
                    exact this
                  · left; exact ⟨_, (Except.ok.inj h).symm⟩

theorem handleComment_cases (p : Parser) :
    (∃ node, node ∈ p.stack ∧ node.indent = p.currentTok.Indent - 1 ∧
      p.handleComment =
        { p with classes := Parser.appendComment p.classes (Join p.currentTok.Parts (str "\t"))
                              node.element }) ∨
    ((∀ node ∈ p.stack, node.indent ≠ p.currentTok.Indent - 1) ∧
      p.handleComment =
        { p with metadata :=
            { p.metadata with GlobalComments := p.metadata.GlobalComments ++
                [str "L" ++ Nat.toDigits 10 p.currentTok.Line ++ str ": " ++
                  Join p.currentTok.Parts (str "\t")] } }) := by
  unfold Parser.handleComment
  cases hf : p.stack.reverse.find? (fun n => n.indent = p.currentTok.Indent - 1) with
  | some node =>
    left
    refine ⟨node, ?_, ?_, rfl⟩
    · have := List.mem_of_find?_eq_some hf
      simpa using this
    · have := List.find?_some hf
      simpa using this
  | none =>
    right
    refine ⟨?_, rfl⟩
    intro node hn
    have := List.find?_eq_none.mp hf node (by simpa using hn)
    simpa using this

theorem adjustStackLoop_shape (st : List parseNode) (d : Int) (h : StackShape st) :
    StackShape (Parser.adjustStackLoop d st.length st) ∧
      ∀ f ∈ Parser.adjustStackLoop d st.length st, f.indent < d := by
  cases h
  · simp [Parser.adjustStackLoop]; exact StackShape.empty
  all_goals
    simp only [Parser.adjustStackLoop, List.length_cons, List.length_nil, List.getLast?_cons_cons,
      List.getLast?_singleton, List.dropLast_cons₂, List.dropLast_single, ge_iff_le, zero_add]
    split_ifs <;> refine ⟨by constructor, ?_⟩ <;> simp <;> omega

theorem adjustStack_shape (p : Parser) (d : Int) (h : StackShape p.stack) :
    StackShape (p.adjustStack d).stack ∧ ∀ f ∈ (p.adjustStack d).stack, f.indent < d :=
  adjustStackLoop_shape p.stack d h

theorem addError_errors_ne (p : Parser) (msg : Str) : (p.addError msg).errors ≠ p.errors := by
  intro h
  have := congrArg List.length h
  simp [Parser.addError] at this

theorem parseBody_shape (q : Parser) (tok : Token) (q' : Parser)
    (hs : StackShape q.stack) (hlt : ∀ f ∈ q.stack, f.indent < q.currentTok.Indent)
    (h : Parser.parseBody q tok = .ok q') : StackShape q'.stack := by
  unfold Parser.parseBody at h
  split at h
  · rcases parseClass_cases q q' h with ⟨msg, rfl⟩ | ⟨hind, rfl⟩
    · exact hs
    · rw [hind] at hlt
      generalize hst : q.stack = st at hs hlt
      cases hs <;> simp [hst] at hlt ⊢
      exact StackShape.cls _
  · rcases parseField_cases q q' h with ⟨msg, rfl⟩ | ⟨hind, ci, d, hpar, hd, rfl⟩
    · exact hs
    · rw [hind] at hlt
      generalize hst : q.stack = st at hs hlt
      cases hs <;> simp [Parser.getCurrentParent, hst] at hlt hpar ⊢
      exact StackShape.field _ _ _
  · rcases parseMethod_cases q q' h with ⟨msg, rfl⟩ | ⟨hind, ci, d, hpar, hd, rfl⟩
    · exact hs
    · rw [hind] at hlt
      generalize hst : q.stack = st at hs hlt
      cases hs <;> simp [Parser.getCurrentParent, hst] at hlt hpar ⊢
      exact StackShape.method _ _ _
  · rcases parseParameter_cases q q' h with ⟨msg, rfl⟩ | ⟨hind, ci, mi, d, hpar, hd, hdok, rfl⟩
    · exact hs
    · rw [hind] at hlt
      generalize hst : q.stack = st at hs hlt
      cases hs <;> simp [Parser.getCurrentParent, hst] at hlt hpar ⊢
      exact StackShape.parameter _ _ _ _ _ _
  · rcases parseLocalVariable_cases q q' h with
      ⟨msg, rfl⟩ | ⟨hind, hlen, ci, mi, i1, i2, i3, hpar, rfl⟩
    · exact hs
    · rw [hind] at hlt
      generalize hst : q.stack = st at hs hlt
      cases hs <;> simp [Parser.getCurrentParent, hst] at hlt hpar ⊢
      exact StackShape.localVariable _ _ _ _ _ _
  · cases (Except.ok.inj h)
    rcases handleComment_cases q with ⟨node, _, _, he⟩ | ⟨_, he⟩ <;> (rw [he]; exact hs)
  · cases (Except.ok.inj h); exact hs
  · cases (Except.ok.inj h); exact hs

theorem parseBody_attach (q : Parser) (tok : Token) (q' : Parser)
    (hs : StackShape q.stack) (hlt : ∀ f ∈ q.stack, f.indent < q.currentTok.Indent)
    (h : Parser.parseBody q tok = .ok q') (hok : q'.errors = q.errors) :
    (tok.Typ = TokenField → q.currentTok.Indent = 1 ∧ ∃ ci fld,
      q.stack = [⟨0, Element.Class ci⟩] ∧
      q'.classes = updateClass q.classes ci (fun c => { c with Fields := c.Fields ++ [fld] })) ∧
    (tok.Typ = TokenMethod → q.currentTok.Indent = 1 ∧ ∃ ci mth,
      q.stack = [⟨0, Element.Class ci⟩] ∧
      q'.classes = updateClass q.classes ci (fun c => { c with Methods := c.Methods ++ [mth] })) ∧
    (tok.Typ = TokenParameter → q.currentTok.Indent = 2 ∧ ∃ ci cj mi prm,
      q.stack = [⟨0, Element.Class ci⟩, ⟨1, Element.Method cj mi⟩] ∧
      q'.classes = updateMethod q.classes cj mi
        (fun m => { m with Parameters := m.Parameters ++ [prm] })) ∧
    (tok.Typ = TokenLocalVariable → q.currentTok.Indent = 2 ∧ ∃ ci cj mi lv,
      q.stack = [⟨0, Element.Class ci⟩, ⟨1, Element.Method cj mi⟩] ∧
      q'.classes = updateMethod q.classes cj mi
        (fun m => { m with LocalVars := m.LocalVars ++ [lv] })) := by
  refine ⟨?_, ?_, ?_, ?_⟩ <;> intro hty <;> simp only [Parser.parseBody, hty] at h
  · rcases parseField_cases q q' h with ⟨msg, rfl⟩ | ⟨hind, ci, d, hpar, hd, rfl⟩
    · exact absurd hok (addError_errors_ne q msg)
    · refine ⟨hind, ?_⟩
      rw [hind] at hlt
      generalize hst : q.stack = st at hs hlt
      cases hs <;> simp [Parser.getCurrentParent, hst] at hlt hpar ⊢
      subst hpar
      exact ⟨_, rfl⟩
  · rcases parseMethod_cases q q' h with ⟨msg, rfl⟩ | ⟨hind, ci, d, hpar, hd, rfl⟩
    · exact absurd hok (addError_errors_ne q msg)
    · refine ⟨hind, ?_⟩
      rw [hind] at hlt
      generalize hst : q.stack = st at hs hlt
      cases hs <;> simp [Parser.getCurrentParent, hst] at hlt hpar ⊢
      subst hpar
      exact ⟨_, rfl⟩
  · rcases parseParameter_cases q q' h with ⟨msg, rfl⟩ | ⟨hind, ci, mi, d, hpar, hd, hdok, rfl⟩
    · exact absurd hok (addError_errors_ne q msg)
    · refine ⟨hind, ?_⟩
      rw [hind] at hlt
      generalize hst : q.stack = st at hs hlt
      cases hs <;> simp [Parser.getCurrentParent, hst] at hlt hpar ⊢
      obtain ⟨rfl, rfl⟩ := hpar
      exact ⟨_, _, _, ⟨rfl, rfl, rfl⟩, _, rfl⟩
  · rcases parseLocalVariable_cases q q' h with
      ⟨msg, rfl⟩ | ⟨hind, hlen, ci, mi, i1, i2, i3, hpar, rfl⟩
    · exact absurd hok (addError_errors_ne q msg)
    · refine ⟨hind, ?_⟩
      rw [hind] at hlt
      generalize hst : q.stack = st at hs hlt
      cases hs <;> simp [Parser.getCurrentParent, hst] at hlt hpar ⊢
      obtain ⟨rfl, rfl⟩ := hpar
      exact ⟨_, _, _, ⟨rfl, rfl, rfl⟩, _, rfl⟩

theorem loopBody_shape (p : Parser) (tok : Token) (q : Parser)
    (hs : StackShape p.stack) (h : Parser.loopBody p tok = .ok q) : StackShape q.stack := by
  unfold Parser.loopBody at h
  have ha := adjustStack_shape { p with currentTok := tok } tok.Indent hs
  exact parseBody_shape _ tok q ha.1 ha.2 h

theorem parseHeaderLoop_dispatch (fuel : Nat) :
    ∀ (p q : Parser), p.stack = [] → Parser.parseHeaderLoop fuel p = .ok q →
      ∃ q0 t, q0.stack = [] ∧ q0.currentTok = t ∧ t.Indent = 0 ∧ Parser.parseBody q0 t = .ok q := by
  induction fuel with
  | zero => intro p q _ h; simp [Parser.parseHeaderLoop] at h
  | succ n ih =>
    intro p q hst h
    rw [Parser.parseHeaderLoop] at h
    simp only at h
    split at h
    · rename_i hind
      exact ⟨{ p with lexer := p.lexer.NextToken.2, currentTok := p.lexer.NextToken.1 },
        p.lexer.NextToken.1, hst, rfl, hind, h⟩
    · split at h
      · exact ih _ _ (by simpa [Parser.addError] using hst) h
      · simp only [bind, Except.bind, pure, Except.pure] at h
        split at h
        · cases h
        · split at h
          · cases h
          · exact ih _ _ (by simpa using hst) h

theorem parseHeader_dispatch (fuel : Nat) (p0 : Parser) (tok : Token) (p : Parser)
    (hst : p0.stack = []) (h : Parser.parseHeader fuel p0 tok = .ok (p, false)) :
    ∃ q0 t, q0.stack = [] ∧ q0.currentTok = t ∧ t.Indent = 0 ∧ Parser.parseBody q0 t = .ok p := by
  unfold Parser.parseHeader at h
  split at h
  · simp at h
  · dsimp only at h
    split at h
    · simp at h
    · simp only [bind, Except.bind, pure, Except.pure] at h
      split at h
      · cases h
      · split at h
        · cases h
        · split at h
          · cases h
          · split at h
            · cases h
            · rename_i q hq
              simp only [Except.ok.injEq, Prod.mk.injEq, and_true] at h
              subst h
              refine parseHeaderLoop_dispatch fuel _ _ ?_ hq
              split <;> split <;> simp [Parser.addError, hst]

theorem Reachable_shape (r : Scanner) (p : Parser) (h : Reachable r p) : StackShape p.stack := by
  induction h with
  | header fuel p hp =>
    obtain ⟨q0, t, hst, hcur, hind, hb⟩ := parseHeader_dispatch fuel _ _ p rfl hp
    exact parseBody_shape q0 t p (by rw [hst]; exact StackShape.empty) (by simp [hst]) hb
  | step p q _ _ hq ih => exact loopBody_shape { p with lexer := p.lexer.NextToken.2 } _ q ih hq

theorem forall_mem_updateAt {α : Type} (P : α → Prop) (f : α → α) (hf : ∀ a, P a → P (f a)) :
    ∀ (i : Nat) (l : List α), (∀ a ∈ l, P a) → ∀ a ∈ updateAt f i l, P a := by
  intro i l
  induction l generalizing i with
  | nil => intro _ a ha; simp [updateAt] at ha
  | cons x xs ih =>
    intro h a ha
    cases i with
    | zero =>
      simp only [updateAt, List.mem_cons] at ha
      rcases ha with rfl | ha
      · exact hf x (h x (by simp))
      · exact h a (by simp [ha])
    | succ n =>
      simp only [updateAt, List.mem_cons] at ha
      rcases ha with rfl | ha
      · exact h a (by simp)
      · exact ih n (fun b hb => h b (by simp [hb])) a ha

theorem WellSized_updateClass (n : Nat) (classes : List Class) (ci : Nat) (f : Class → Class)
    (hf : ∀ c, Class.wellSized n c → Class.wellSized n (f c)) (h : WellSized n classes) :
    WellSized n (updateClass classes ci f) :=
  forall_mem_updateAt (Class.wellSized n) f hf ci classes h

theorem WellSized_updateMethod (n : Nat) (classes : List Class) (ci mi : Nat) (f : Method → Method)
    (hf : ∀ m, Method.wellSized n m → Method.wellSized n (f m)) (h : WellSized n classes) :
    WellSized n (updateMethod classes ci mi f) := by
  apply WellSized_updateClass n classes ci _ _ h
  intro c hc
  exact ⟨hc.1, hc.2.1, forall_mem_updateAt (Method.wellSized n) f hf mi c.Methods hc.2.2⟩

theorem WellSized_appendComment (n : Nat) (classes : List Class) (text : Str) (e : Element)
    (h : WellSized n classes) : WellSized n (Parser.appendComment classes text e) := by
  cases e with
  | Class ci =>
    exact WellSized_updateClass n classes ci _ (fun c hc => ⟨hc.1, hc.2.1, hc.2.2⟩) h
  | Field ci fi =>
    apply WellSized_updateClass n classes ci _ _ h
    intro c hc
    refine ⟨hc.1, forall_mem_updateAt (fun f : Field => f.Names.length = n) _ ?_ fi c.Fields
      hc.2.1, hc.2.2⟩
    exact fun f hf => hf
  | Method ci mi =>
    exact WellSized_updateMethod n classes ci mi _ (fun m hm => ⟨hm.1, hm.2.1, hm.2.2⟩) h
  | Parameter ci mi pi =>
    apply WellSized_updateMethod n classes ci mi _ _ h
    intro m hm
    refine ⟨hm.1, forall_mem_updateAt (fun x : Parameter => x.Names.length = n) _ ?_ pi
      m.Parameters hm.2.1, hm.2.2⟩
    exact fun x hx => hx
  | LocalVariable ci mi vi =>
    apply WellSized_updateMethod n classes ci mi _ _ h
    intro m hm
    refine ⟨hm.1, hm.2.1, forall_mem_updateAt (fun x : LocalVariable => x.Names.length = n) _ ?_
      vi m.LocalVars hm.2.2⟩
    exact fun x hx => hx

theorem parseBody_wellSized (p : Parser) (tok : Token) (q : Parser)
    (hw : WellSized p.metadata.Namespaces.length p.classes)
    (h : Parser.parseBody p tok = .ok q) :
    WellSized q.metadata.Namespaces.length q.classes := by
  unfold Parser.parseBody at h
  split at h
  · rcases parseClass_cases p q h with ⟨msg, rfl⟩ | ⟨hind, rfl⟩
    · exact hw
    · intro c hc
      simp only [List.mem_append, List.mem_singleton] at hc
      rcases hc with hc | rfl
      · exact hw c hc
      · exact ⟨parseNames_length _ _, by simp, by simp⟩
  · rcases parseField_cases p q h with ⟨msg, rfl⟩ | ⟨hind, ci, d, hpar, hd, rfl⟩
    · exact hw
    · apply WellSized_updateClass _ p.classes ci _ _ hw
      intro c hc
      refine ⟨hc.1, ?_, hc.2.2⟩
      intro f hf
      simp only [List.mem_append, List.mem_singleton] at hf
      rcases hf with hf | rfl
      · exact hc.2.1 f hf
      · exact parseNames_length _ _
  · rcases parseMethod_cases p q h with ⟨msg, rfl⟩ | ⟨hind, ci, d, hpar, hd, rfl⟩
    · exact hw
    · apply WellSized_updateClass _ p.classes ci _ _ hw
      intro c hc
      refine ⟨hc.1, hc.2.1, ?_⟩
      intro m hm
      simp only [List.mem_append, List.mem_singleton] at hm
      rcases hm with hm | rfl
      · exact hc.2.2 m hm
      · exact ⟨parseNames_length _ _, by simp, by simp⟩
  · rcases parseParameter_cases p q h with ⟨msg, rfl⟩ | ⟨hind, ci, mi, d, hpar, hd, hdok, rfl⟩
    · exact hw
    · apply WellSized_updateMethod _ p.classes ci mi _ _ hw
      intro m hm
      refine ⟨hm.1, ?_, hm.2.2⟩
      intro x hx
      simp only [List.mem_append, List.mem_singleton] at hx
      rcases hx with hx | rfl
      · exact hm.2.1 x hx
      · exact parseNames_length _ _
  · rcases parseLocalVariable_cases p q h with
      ⟨msg, rfl⟩ | ⟨hind, hlen, ci, mi, i1, i2, i3, hpar, rfl⟩
    · exact hw
    · apply WellSized_updateMethod _ p.classes ci mi _ _ hw
      intro m hm
      refine ⟨hm.1, hm.2.1, ?_⟩
      intro x hx
      simp only [List.mem_append, List.mem_singleton] at hx
      rcases hx with hx | rfl
      · exact hm.2.2 x hx
      · exact parseNames_length _ _
  · cases (Except.ok.inj h)
    rcases handleComment_cases p with ⟨node, _, _, he⟩ | ⟨_, he⟩
    · rw [he]; exact WellSized_appendComment _ _ _ _ hw
    · rw [he]; exact hw
  · cases (Except.ok.inj h); exact hw
  · cases (Except.ok.inj h); exact hw

theorem parseBodyLine_not_eof (l : Lexer) (line : Str) : (l.parseBodyLine line).Typ ≠ TokenEOF := by
  unfold Lexer.parseBodyLine
  simp only
  split
  · simp [Lexer.errorToken]
  · split
    · simp [Lexer.errorToken]
    · split
      · simp [Lexer.errorToken]
      · simp only
        unfold identifierType
        split_ifs <;> simp

theorem NextToken_eof_lexer (l : Lexer) (h : l.NextToken.1.Typ = TokenEOF) : l.NextToken.2 = l := by
  cases hl : l.reader.lines with
  | nil =>
    cases he : l.reader.err with
    | none => simp [Lexer.NextToken, Scanner.Scan, hl, he, Scanner.Err]
    | some e => simp [Lexer.NextToken, Scanner.Scan, hl, he, Scanner.Err, Lexer.errorToken] at h
  | cons line ls =>
    exfalso
    revert h
    unfold Lexer.NextToken
    simp only [Scanner.Scan, hl]
    split
    · unfold Lexer.parseHeader
      simp only
      split_ifs <;> simp [Lexer.errorToken]
    · unfold Lexer.parsePossibleProperty
      simp only
      split_ifs <;> simp [Lexer.errorToken, parseBodyLine_not_eof]
    · exact parseBodyLine_not_eof _ _

theorem parseLoop_reachable (r : Scanner) (fuel : Nat) :
    ∀ (p q : Parser), Reachable r p → Parser.parseLoop fuel p = .ok q → Reachable r q := by
  induction fuel with
  | zero => intro p q _ h; simp [Parser.parseLoop] at h
  | succ n ih =>
    intro p q hp h
    rw [Parser.parseLoop] at h
    split at h
    · rename_i heof
      cases (Except.ok.inj h)
      rw [NextToken_eof_lexer _ heof]
      exact hp
    · rename_i hne
      simp only [bind, Except.bind] at h
      split at h
      · cases h
      · rename_i p1 hp1
        exact ih p1 q (Reachable.step p p1 hp hne hp1) h

theorem Parse_reachable (r : Scanner) (fuel : Nat) (out : ParseOutcome) (m : Mapping)
    (h : Parser.Parse fuel (NewParser r) = .ok out) (hm : out.mapping = some m) :
    Reachable r out.parser ∧ m = { Metadata := out.parser.metadata, Classes := out.parser.classes } ∧
      out.errors = out.parser.errors := by
  unfold Parser.Parse at h
  simp only [bind, Except.bind, pure, Except.pure] at h
  split at h
  · cases h
  · rename_i hp hhp
    split at h
    · cases (Except.ok.inj h)
      simp at hm
    · rename_i hfalse
      split at h
      · cases h
      · rename_i q hq
        cases (Except.ok.inj h)
        simp only [Option.some.injEq] at hm
        refine ⟨?_, hm.symm, rfl⟩
        have hh : hp = (hp.1, false) := by
          cases hp with
          | mk a b => simp at hfalse; simp [hfalse]
        rw [hh] at hhp
        exact parseLoop_reachable r fuel _ q (Reachable.header fuel hp.1 hhp) hq

theorem parseHeaderLoop_dispatch_classes (fuel : Nat) :
    ∀ (p q : Parser), Parser.parseHeaderLoop fuel p = .ok q →
      ∃ q0 t, q0.classes = p.classes ∧ q0.currentTok = t ∧ Parser.parseBody q0 t = .ok q := by
  induction fuel with
  | zero => intro p q h; simp [Parser.parseHeaderLoop] at h
  | succ n ih =>
    intro p q h
    rw [Parser.parseHeaderLoop] at h
    simp only at h
    split at h
    · exact ⟨{ p with lexer := p.lexer.NextToken.2, currentTok := p.lexer.NextToken.1 },
        p.lexer.NextToken.1, rfl, rfl, h⟩
    · split at h
      · obtain ⟨q0, t, hc, hcur, hb⟩ := ih _ _ h
        exact ⟨q0, t, hc.trans rfl, hcur, hb⟩
      · simp only [bind, Except.bind, pure, Except.pure] at h
        split at h
        · cases h
        · split at h
          · cases h
          · obtain ⟨q0, t, hc, hcur, hb⟩ := ih _ _ h
            exact ⟨q0, t, hc.trans rfl, hcur, hb⟩

theorem parseHeader_dispatch_classes (fuel : Nat) (p0 : Parser) (tok : Token) (p : Parser)
    (h : Parser.parseHeader fuel p0 tok = .ok (p, false)) :
    ∃ q0 t, q0.classes = p0.classes ∧ q0.currentTok = t ∧ Parser.parseBody q0 t = .ok p := by
  unfold Parser.parseHeader at h
  split at h
  · simp at h
  · dsimp only at h
    split at h
    · simp at h
    · simp only [bind, Except.bind, pure, Except.pure] at h
      split at h
      · cases h
      · split at h
        · cases h
        · split at h
          · cases h
          · split at h
            · cases h
            · rename_i q hq
              simp only [Except.ok.injEq, Prod.mk.injEq, and_true] at h
              subst h
              obtain ⟨q0, t, hc, hcur, hb⟩ := parseHeaderLoop_dispatch_classes fuel _ _ hq
              refine ⟨q0, t, ?_, hcur, hb⟩
              rw [hc]
              split <;> split <;> rfl

theorem Reachable_wellSized (r : Scanner) (p : Parser) (h : Reachable r p) :
    WellSized p.metadata.Namespaces.length p.classes := by
  induction h with
  | header fuel p hp =>
    obtain ⟨q0, t, hc, _, hb⟩ := parseHeader_dispatch_classes fuel _ _ p hp
    refine parseBody_wellSized q0 t p ?_ hb
    rw [hc]
    intro c hc
    simp [NewParser] at hc
  | step p q _ _ hq ih =>
    exact parseBody_wellSized
      (Parser.adjustStack { p with lexer := p.lexer.NextToken.2, currentTok := p.lexer.NextToken.1 }
        p.lexer.NextToken.1.Indent) p.lexer.NextToken.1 q ih hq

theorem parseBody_created (p : Parser) (tok : Token) (q : Parser)
    (h : Parser.parseBody p tok = .ok q) (hok : q.errors = p.errors) :
    (tok.Typ = TokenClass → q.classes = p.classes ++
      [{ Names := p.parseNames (p.currentTok.Parts.drop 1), Comments := [] }]) ∧
    (tok.Typ = TokenField → ∃ ci d, q.classes = updateClass p.classes ci
      (fun c => { c with Fields := c.Fields ++
        [{ Descriptor := d, Names := p.parseNames (p.currentTok.Parts.drop 2), Comments := [] }] })) ∧
    (tok.Typ = TokenMethod → ∃ ci d, q.classes = updateClass p.classes ci
      (fun c => { c with Methods := c.Methods ++
        [{ Descriptor := d, Names := p.parseNames (p.currentTok.Parts.drop 2), Comments := [] }] })) ∧
    (tok.Typ = TokenParameter → ∃ ci mi idx, q.classes = updateMethod p.classes ci mi
      (fun m => { m with Parameters := m.Parameters ++
        [{ Index := idx, Names := p.parseNames (p.currentTok.Parts.drop 2), Comments := [] }] })) ∧
    (tok.Typ = TokenLocalVariable → ∃ ci mi i1 i2 i3, q.classes = updateMethod p.classes ci mi
      (fun m => { m with LocalVars := m.LocalVars ++
        [{ Index := i1, StartOffset := i2, LvtIndex := i3,
           Names := p.parseNames (p.currentTok.Parts.drop 4), Comments := [] }] })) := by
  refine ⟨?_, ?_, ?_, ?_, ?_⟩ <;> intro hty <;> simp only [Parser.parseBody, hty] at h
  · rcases parseClass_cases p q h with ⟨msg, rfl⟩ | ⟨_, rfl⟩
    · exact absurd hok (addError_errors_ne p msg)
    · rfl
  · rcases parseField_cases p q h with ⟨msg, rfl⟩ | ⟨_, ci, d, _, _, rfl⟩
    · exact absurd hok (addError_errors_ne p msg)
    · exact ⟨ci, _, rfl⟩
  · rcases parseMethod_cases p q h with ⟨msg, rfl⟩ | ⟨_, ci, d, _, _, rfl⟩
    · exact absurd hok (addError_errors_ne p msg)
    · exact ⟨ci, _, rfl⟩
  · rcases parseParameter_cases p q h with ⟨msg, rfl⟩ | ⟨_, ci, mi, d, _, _, _, rfl⟩
    · exact absurd hok (addError_errors_ne p msg)
    · exact ⟨ci, mi, _, rfl⟩
  · rcases parseLocalVariable_cases p q h with ⟨msg, rfl⟩ | ⟨_, _, ci, mi, i1, i2, i3, _, rfl⟩
    · exact absurd hok (addError_errors_ne p msg)
    · exact ⟨ci, mi, i1, i2, i3, rfl⟩


theorem str_ne_nil_of (s : Str) (c : Char) (t : Str) (h : s = c :: t) : s ≠ [] := by
  rw [h]; simp

theorem parseBodyLine_error_iff (l : Lexer) (line : Str) :
    ((l.parseBodyLine line).Error ≠ [] ↔ (l.parseBodyLine line).Typ = TokenError) ∧
    ((l.parseBodyLine line).Typ = TokenError → (l.parseBodyLine line).Indent = 0) := by
  have h1 : ErrEmptyLine ≠ [] := by decide
  have h2 : ErrEmptyLineIndent ≠ [] := by decide
  have h3 : ∀ (x : Str) (d : Int), ErrInvalidIdentifier x d ≠ [] := by
    intro x d
    have : ErrInvalidIdentifier x d = 'i' :: (str "nvalid identifier " ++ fmtQuote x ++
        str " at indent " ++ fmtInt d) := rfl
    rw [this]; simp
  unfold Lexer.parseBodyLine
  simp only
  split
  · simp [Lexer.errorToken, h1]
  · split
    · simp [Lexer.errorToken, h2]
    · split
      · simp [Lexer.errorToken, h3]
      · rename_i hne
        generalize (Split (TrimLeft line [Separator]) Separator).headD [] = x at hne ⊢
        simp [hne]

theorem parseBodyLine_not_header (l : Lexer) (line : Str) :
    (l.parseBodyLine line).Typ ≠ TokenHeader := by
  unfold Lexer.parseBodyLine
  simp only
  split
  · simp [Lexer.errorToken]
  · split
    · simp [Lexer.errorToken]
    · split
      · simp [Lexer.errorToken]
      · simp only
        unfold identifierType
        split_ifs <;> simp

theorem NextToken_state_step (l : Lexer) :
    l.state.rank ≤ l.NextToken.2.state.rank ∧
    (l.NextToken.1.Typ = TokenHeader ↔ (l.state = stateStart ∧ l.NextToken.2.state ≠ stateStart)) ∧
    (l.NextToken.1.Typ = TokenHeader → l.NextToken.2.state = stateHeaderParsed) := by
  unfold Lexer.NextToken
  split
  · split <;> simp [Lexer.errorToken]
  · simp only
    split
    · rename_i hs
      unfold Lexer.parseHeader
      simp only
      split_ifs <;> simp [Lexer.errorToken, hs, lexerState.rank]
    · rename_i hs
      unfold Lexer.parsePossibleProperty
      simp only
      split_ifs <;> simp [Lexer.errorToken, hs, lexerState.rank, parseBodyLine_not_header]
    · rename_i hs
      simp [hs, parseBodyLine_not_header]

theorem after_succ (n : Nat) (l : Lexer) :
    Lexer.after (n + 1) l = (Lexer.after n l).NextToken.2 := by
  induction n generalizing l with
  | zero => rfl
  | succ k ih => rw [Lexer.after, ih l.NextToken.2]; rfl

theorem after_rank_mono (l : Lexer) (n m : Nat) (h : n ≤ m) :
    (Lexer.after n l).state.rank ≤ (Lexer.after m l).state.rank := by
  induction m with
  | zero =>
    have : n = 0 := by omega
    subst this; exact Nat.le_refl _
  | succ k ih =>
    by_cases hk : n = k + 1
    · subst hk; exact Nat.le_refl _
    · have := ih (by omega)
      rw [after_succ]
      exact Nat.le_trans this (NextToken_state_step _).1

theorem NextToken_start_rejected (l : Lexer) (line : Str) (ls : List Str)
    (hs : l.state = stateStart) (hlines : l.reader.lines = line :: ls)
    (hbad : HasPrefix line (str "tiny\t") = false ∨ (Split line '\t').length < 5) :
    l.NextToken.1.Typ = TokenError ∧
    (l.NextToken.1.Error = str "invalid header" ∨ l.NextToken.1.Error = str "header too short") ∧
    l.NextToken.2.state = stateStart ∧
    ∀ line2 ls2, ls = line2 :: ls2 →
      l.NextToken.2.NextToken =
        Lexer.parseHeader { l with reader := { l.reader with lines := ls2 },
                                   lineNumber := l.lineNumber + 1 + 1 } line2 := by
  have e1 : ErrInvalidHeader = str "invalid header" := rfl
  have e2 : ErrHeaderTooShort = str "header too short" := rfl
  by_cases hp : HasPrefix line (str "tiny\t") = false
  · refine ⟨?_, ?_, ?_, ?_⟩
    · simp [Lexer.NextToken, Scanner.Scan, hlines, hs, Lexer.parseHeader, hp, Lexer.errorToken]
    · left
      simp [Lexer.NextToken, Scanner.Scan, hlines, hs, Lexer.parseHeader, hp, Lexer.errorToken, e1]
    · simp [Lexer.NextToken, Scanner.Scan, hlines, hs, Lexer.parseHeader, hp, Lexer.errorToken]
    · intro line2 ls2 hls
      subst hls
      simp [Lexer.NextToken, Scanner.Scan, hlines, hs, Lexer.parseHeader, hp, Lexer.errorToken]
  · have hp' : HasPrefix line (str "tiny\t") = true := by simpa using hp
    have hl : (Split line '\t').length < 5 := by
      rcases hbad with h | h
      · exact absurd h hp
      · exact h
    refine ⟨?_, ?_, ?_, ?_⟩
    · simp [Lexer.NextToken, Scanner.Scan, hlines, hs, Lexer.parseHeader, hp', hl, Separator,
        Lexer.errorToken]
    · right
      simp [Lexer.NextToken, Scanner.Scan, hlines, hs, Lexer.parseHeader, hp', hl, Separator,
        Lexer.errorToken, e2]
    · simp [Lexer.NextToken, Scanner.Scan, hlines, hs, Lexer.parseHeader, hp', hl, Separator,
        Lexer.errorToken]
    · intro line2 ls2 hls
      subst hls
      simp [Lexer.NextToken, Scanner.Scan, hlines, hs, Lexer.parseHeader, hp', hl, Separator,
        Lexer.errorToken]

theorem NextToken_failed (l : Lexer) (e : Str) (hlines : l.reader.lines = [])
    (herr : l.reader.err = some e) :
    l.NextToken = (l.errorToken (ErrIo e),
      { l with reader := { l.reader with lines := l.reader.buffered, buffered := [] } }) := by
  simp [Lexer.NextToken, Scanner.Scan, hlines, Scanner.Err, herr]

theorem parseLoop_failed_reader (e : Str) (fuel : Nat) :
    ∀ (p : Parser), p.lexer.reader.lines = [] → p.lexer.reader.buffered = [] →
      p.lexer.reader.err = some e →
      Parser.parseLoop fuel p = .error Fault.outOfFuel := by
  induction fuel with
  | zero => intro p _ _ _; rfl
  | succ n ih =>
    intro p hl hb he
    have hNT := NextToken_failed p.lexer e hl he
    rw [parseLoop_step n p (by simp [hNT, Lexer.errorToken])]
    simp only [hNT, Parser.loopBody, Parser.parseBody, Lexer.errorToken]
    exact ih _ (by simpa [Parser.adjustStack, Parser.addError] using hb)
      (by simp [Parser.adjustStack, Parser.addError])
      (by simpa [Parser.adjustStack, Parser.addError] using he)

theorem byteLen_replicate (n : Nat) (c : Char) :
    byteLen (List.replicate n c) = n * c.utf8Size := by
  induction n with
  | zero => simp [byteLen]
  | succ k ih =>
    simp only [byteLen] at ih ⊢
    simp [List.replicate_succ, ih]
    ring

theorem parseBody_failed (p : Parser) (tok : Token) (q : Parser)
    (hty : tok.Typ = TokenField ∨ tok.Typ = TokenMethod ∨ tok.Typ = TokenParameter ∨
      tok.Typ = TokenLocalVariable)
    (h : Parser.parseBody p tok = .ok q) (hfail : q.errors ≠ p.errors) :
    ∃ msg, q = p.addError msg := by
  rcases hty with hty | hty | hty | hty <;> simp only [Parser.parseBody, hty] at h
  · rcases parseField_cases p q h with hm | ⟨_, ci, d, _, _, rfl⟩
    · exact hm
    · exact absurd rfl hfail
  · rcases parseMethod_cases p q h with hm | ⟨_, ci, d, _, _, rfl⟩
    · exact hm
    · exact absurd rfl hfail
  · rcases parseParameter_cases p q h with hm | ⟨_, ci, mi, d, _, _, _, rfl⟩
    · exact hm
    · exact absurd rfl hfail
  · rcases parseLocalVariable_cases p q h with hm | ⟨_, _, ci, mi, i1, i2, i3, _, rfl⟩
    · exact hm
    · exact absurd rfl hfail

theorem parseBodyLine_error_form (l : Lexer) (line : Str)
    (h : (l.parseBodyLine line).Typ = TokenError) :
    l.parseBodyLine line = l.errorToken (l.parseBodyLine line).Error := by
  revert h
  unfold Lexer.parseBodyLine
  simp only
  split
  · intro _; rfl
  · split
    · intro _; rfl
    · split
      · intro _; rfl
      · rename_i hne
        intro h
        exact absurd h hne

theorem NextToken_error_indent (l : Lexer) (h : l.NextToken.1.Typ = TokenError) :
    l.NextToken.1.Indent = 0 := by
  revert h
  unfold Lexer.NextToken
  split
  · split <;> simp [Lexer.errorToken]
  · simp only
    split
    · unfold Lexer.parseHeader
      simp only
      split_ifs <;> simp [Lexer.errorToken]
    · unfold Lexer.parsePossibleProperty
      simp only
      split_ifs
      · simp [Lexer.errorToken]
      · simp
      · exact (parseBodyLine_error_iff _ _).2
    · exact (parseBodyLine_error_iff _ _).2

theorem adjustStackLoop_zero (st : List parseNode) (h : StackShape st) :
    Parser.adjustStackLoop 0 st.length st = [] := by
  cases h <;> simp [Parser.adjustStackLoop]

theorem parseBodyLine_depth1 (l : Lexer) (code : Str) (fields : List Str)
    (hcode : code = str "f" ∨ code = str "m") (h : ∀ f ∈ fields, '\t' ∉ f) :
    l.parseBodyLine ('\t' :: Join (code :: fields) (str "\t")) =
      { Typ := if code = str "f" then TokenField else TokenMethod, Indent := 1,
        Parts := code :: fields, Line := l.lineNumber } := by
  have hf : str "f" = ['f'] := rfl
  have hm : str "m" = ['m'] := rfl
  have hcons : ∃ c t, Join (code :: fields) (str "\t") = c :: t ∧ c ≠ '\t' := by
    rcases hcode with rfl | rfl
    · cases fields with
      | nil => exact ⟨'f', [], rfl, by decide⟩
      | cons b r => exact ⟨'f', str "\t" ++ Join (b :: r) (str "\t"), rfl, by decide⟩
    · cases fields with
      | nil => exact ⟨'m', [], rfl, by decide⟩
      | cons b r => exact ⟨'m', str "\t" ++ Join (b :: r) (str "\t"), rfl, by decide⟩
  obtain ⟨c, t, ht, hc⟩ := hcons
  have hsp : Split (Join (code :: fields) (str "\t")) '\t' = code :: fields := by
    apply Split_Join _ (by simp)
    intro f hfm
    rcases List.mem_cons.mp hfm with rfl | hfm
    · rcases hcode with rfl | rfl <;> decide
    · exact h f hfm
  have h1 : ('\t' :: Join (code :: fields) (str "\t")) =
      List.replicate 1 '\t' ++ Join (code :: fields) (str "\t") := rfl
  rw [h1, parseBodyLine_tabs l 1 _ (by simp [ht]) (by simp [ht, hc]), hsp]
  rcases hcode with rfl | rfl
  · simp [identifierType, hf]
  · have hne : str "m" ≠ str "f" := by decide
    simp only [hne, if_false]
    simp [identifierType, hm]

theorem parseLoop_error_line (fuel : Nat) (p : Parser) (bad : Str) (ls : List Str)
    (hshape : StackShape p.stack) (hstate : p.lexer.state = stateInBody)
    (hlines : p.lexer.reader.lines = bad :: ls)
    (hbad : p.lexer.NextToken.1.Typ = TokenError) :
    Parser.parseLoop (fuel + 1) p = Parser.parseLoop fuel
      { p with
        lexer := { p.lexer with reader := { p.lexer.reader with lines := ls },
                                lineNumber := p.lexer.lineNumber + 1 },
        currentTok := p.lexer.NextToken.1,
        errors := p.errors ++
          [{ Line := p.lexer.lineNumber + 1, Message := p.lexer.NextToken.1.Error }],
        stack := [] } := by
  have hNT := NextToken_body p.lexer bad ls hstate hlines
  have hind := NextToken_error_indent p.lexer hbad
  have h1 := congrArg Prod.fst hNT
  have h2 := congrArg Prod.snd hNT
  simp only at h1 h2
  have hline : p.lexer.NextToken.1.Line = p.lexer.lineNumber + 1 := by
    have hb := hbad
    rw [h1] at hb
    rw [h1, parseBodyLine_error_form _ _ hb]
    rfl
  rw [parseLoop_step fuel p (by rw [hbad]; decide)]
  simp only [Parser.loopBody, Parser.parseBody, hbad, hind, Parser.adjustStack,
    adjustStackLoop_zero p.stack hshape, Parser.addError, hline, h2]

theorem parseLoop_orphan_depth1 (fuel : Nat) (p : Parser) (code : Str) (fields : List Str)
    (ls : List Str) (hstate : p.lexer.state = stateInBody)
    (hlines : p.lexer.reader.lines = ('\t' :: Join (code :: fields) (str "\t")) :: ls)
    (hstack : p.stack = [])
    (hcode : code = str "f" ∨ code = str "m") (htab : ∀ f ∈ fields, '\t' ∉ f) :
    Parser.parseLoop (fuel + 1) p = Parser.parseLoop fuel
      { p with
        lexer := { p.lexer with reader := { p.lexer.reader with lines := ls },
                                lineNumber := p.lexer.lineNumber + 1 },
        currentTok := { Typ := if code = str "f" then TokenField else TokenMethod, Indent := 1,
                        Parts := code :: fields, Line := p.lexer.lineNumber + 1 },
        errors := p.errors ++
          [{ Line := p.lexer.lineNumber + 1,
             Message := if code = str "f" then str "field must be inside a class"
                        else str "method must be inside a class" }] } := by
  have hNT := NextToken_body p.lexer _ ls hstate hlines
  rw [parseBodyLine_depth1 _ code fields hcode htab] at hNT
  have hne : str "m" ≠ str "f" := by decide
  rcases hcode with rfl | rfl
  · simp only [if_true] at hNT ⊢
    rw [parseLoop_step fuel p (by simp [hNT])]
    simp [hNT, Parser.loopBody, Parser.parseBody, Parser.parseField, Parser.adjustStack, hstack,
      Parser.adjustStackLoop, Parser.getCurrentParent, Parser.addError]
  · simp only [hne, if_false] at hNT ⊢
    rw [parseLoop_step fuel p (by simp [hNT])]
    simp [hNT, Parser.loopBody, Parser.parseBody, Parser.parseMethod, Parser.adjustStack, hstack,
      Parser.adjustStackLoop, Parser.getCurrentParent, Parser.addError]

theorem parseBodyLine_empty (l : Lexer) (line : Str) (h : TrimLeft line [Separator] = []) :
    l.parseBodyLine line = l.errorToken ErrEmptyLine := by
  simp [Lexer.parseBodyLine, h]

theorem parseBody_frame (p : Parser) (tok : Token) (q : Parser)
    (h : Parser.parseBody p tok = .ok q) :
    q.lexer = p.lexer ∧ q.currentTok = p.currentTok ∧
    q.metadata.Namespaces = p.metadata.Namespaces ∧
    q.metadata.Properties = p.metadata.Properties ∧
    q.metadata.MajorVersion = p.metadata.MajorVersion ∧
    q.metadata.MinorVersion = p.metadata.MinorVersion ∧
    (q.errors = p.errors ∨ ∃ msg, q.errors = p.errors ++ [{ Line := p.currentTok.Line, Message := msg }]) := by
  unfold Parser.parseBody at h
  split at h
  · rcases parseClass_cases p q h with ⟨msg, rfl⟩ | ⟨_, rfl⟩
    · exact ⟨rfl, rfl, rfl, rfl, rfl, rfl, Or.inr ⟨msg, rfl⟩⟩
    · exact ⟨rfl, rfl, rfl, rfl, rfl, rfl, Or.inl rfl⟩
  · rcases parseField_cases p q h with ⟨msg, rfl⟩ | ⟨_, ci, d, _, _, rfl⟩
    · exact ⟨rfl, rfl, rfl, rfl, rfl, rfl, Or.inr ⟨msg, rfl⟩⟩
    · exact ⟨rfl, rfl, rfl, rfl, rfl, rfl, Or.inl rfl⟩
  · rcases parseMethod_cases p q h with ⟨msg, rfl⟩ | ⟨_, ci, d, _, _, rfl⟩
    · exact ⟨rfl, rfl, rfl, rfl, rfl, rfl, Or.inr ⟨msg, rfl⟩⟩
    · exact ⟨rfl, rfl, rfl, rfl, rfl, rfl, Or.inl rfl⟩
  · rcases parseParameter_cases p q h with ⟨msg, rfl⟩ | ⟨_, ci, mi, d, _, _, _, rfl⟩
    · exact ⟨rfl, rfl, rfl, rfl, rfl, rfl, Or.inr ⟨msg, rfl⟩⟩
    · exact ⟨rfl, rfl, rfl, rfl, rfl, rfl, Or.inl rfl⟩
  · rcases parseLocalVariable_cases p q h with ⟨msg, rfl⟩ | ⟨_, _, ci, mi, i1, i2, i3, _, rfl⟩
    · exact ⟨rfl, rfl, rfl, rfl, rfl, rfl, Or.inr ⟨msg, rfl⟩⟩
    · exact ⟨rfl, rfl, rfl, rfl, rfl, rfl, Or.inl rfl⟩
  · cases (Except.ok.inj h)
    rcases handleComment_cases p with ⟨node, _, _, he⟩ | ⟨_, he⟩ <;>
      (rw [he]; exact ⟨rfl, rfl, rfl, rfl, rfl, rfl, Or.inl rfl⟩)
  · cases (Except.ok.inj h)
    exact ⟨rfl, rfl, rfl, rfl, rfl, rfl, Or.inr ⟨_, rfl⟩⟩
  · cases (Except.ok.inj h)
    exact ⟨rfl, rfl, rfl, rfl, rfl, rfl, Or.inl rfl⟩

theorem parseHeaderLoop_last (I : Parser → Prop)
    (herr : ∀ p, I p → p.lexer.NextToken.1.Indent ≠ 0 → p.lexer.NextToken.1.Parts.length < 2 →
      I (Parser.addError { p with lexer := p.lexer.NextToken.2 } p.lexer.NextToken.1.Error))
    (hprop : ∀ p k v, I p → p.lexer.NextToken.1.Indent ≠ 0 →
      I { p with lexer := p.lexer.NextToken.2,
                 metadata := { p.metadata with Properties := mapSet p.metadata.Properties k v } })
    (fuel : Nat) :
    ∀ (p q : Parser), I p → Parser.parseHeaderLoop fuel p = .ok q →
      ∃ p1, I p1 ∧ p1.lexer.NextToken.1.Indent = 0 ∧
        Parser.parseBody { p1 with lexer := p1.lexer.NextToken.2,
                                   currentTok := p1.lexer.NextToken.1 }
          p1.lexer.NextToken.1 = .ok q := by
  induction fuel with
  | zero => intro p q _ h; simp [Parser.parseHeaderLoop] at h
  | succ n ih =>
    intro p q hI h
    rw [Parser.parseHeaderLoop] at h
    simp only at h
    split at h
    · rename_i hind
      exact ⟨p, hI, hind, h⟩
    · rename_i hind
      split at h
      · rename_i hlen
        exact ih _ _ (herr p hI hind hlen) h
      · simp only [bind, Except.bind, pure, Except.pure] at h
        split at h
        · cases h
        · split at h
          · cases h
          · exact ih _ _ (hprop p _ _ hI hind) h

theorem parseHeader_init (fuel : Nat) (p0 : Parser) (tok : Token) (p : Parser)
    (h : Parser.parseHeader fuel p0 tok = .ok (p, false)) :
    tok.Typ = TokenHeader ∧ 5 ≤ tok.Parts.length ∧
      Parser.parseHeaderLoop fuel (headerInit p0 tok) = .ok p := by
  unfold Parser.parseHeader at h
  split at h
  · simp at h
  · rename_i hty
    dsimp only at h
    split at h
    · simp at h
    · rename_i hlen
      obtain ⟨a, b, c, d, e, tl, hparts⟩ := length_ge_five tok.Parts (by omega)
      refine ⟨by simpa using hty, by omega, ?_⟩
      simp only [bind, Except.bind, pure, Except.pure, hparts, index, sliceFrom] at h
      simp only [List.getElem?_cons_succ, List.getElem?_cons_zero, List.length_cons,
        List.drop_succ_cons, List.drop_zero] at h
      have h3 : 3 ≤ tl.length + 1 + 1 + 1 + 1 + 1 := by omega
      simp only [h3, if_true] at h
      have hI : headerInit p0 tok =
          { p0 with
            errors := p0.errors ++
              (if (Atoi b).ok then []
               else [{ Line := p0.currentTok.Line, Message := str "invalid major version" }]) ++
              (if (Atoi c).ok then []
               else [{ Line := p0.currentTok.Line, Message := str "invalid minor version" }]),
            metadata := { p0.metadata with
              MajorVersion := (Atoi b).value,
              MinorVersion := (Atoi c).value,
              Namespaces := d :: e :: tl,
              Properties := [] } } := by
        simp [headerInit, hparts]
      rw [hI]
      cases hM : (Atoi b).ok <;> cases hm : (Atoi c).ok <;>
        simp only [hM, hm, Bool.not_false, Bool.not_true, if_true, if_false, Parser.addError,
          Bool.false_eq_true] at h ⊢ <;>
        (split at h
         · cases h
         · rename_i q hq
           simp only [Except.ok.injEq, Prod.mk.injEq, and_true] at h
           subst h
           simpa using hq)

theorem parseBodyLine_line (l : Lexer) (line : Str) :
    (l.parseBodyLine line).Line = l.lineNumber := by
  unfold Lexer.parseBodyLine
  simp only [Lexer.errorToken]
  split
  · rfl
  · split
    · rfl
    · split <;> rfl

theorem NextToken_line (l : Lexer) (line : Str) (ls : List Str)
    (hlines : l.reader.lines = line :: ls) :
    l.NextToken.2.reader = { l.reader with lines := ls } ∧
    l.NextToken.2.lineNumber = l.lineNumber + 1 ∧
    l.NextToken.1.Line = l.lineNumber + 1 := by
  unfold Lexer.NextToken
  simp only [Scanner.Scan, hlines]
  cases hs : l.state
  · simp only [Lexer.parseHeader, Lexer.errorToken]
    split
    · exact ⟨rfl, rfl, rfl⟩
    · split <;> exact ⟨rfl, rfl, rfl⟩
  · simp only [Lexer.parsePossibleProperty, Lexer.errorToken]
    split
    · split <;> exact ⟨rfl, rfl, rfl⟩
    · exact ⟨rfl, rfl, parseBodyLine_line _ _⟩
  · exact ⟨rfl, rfl, parseBodyLine_line _ _⟩

theorem NextToken_no_line (l : Lexer) (hlines : l.reader.lines = []) :
    l.NextToken.2.lineNumber = l.lineNumber ∧ l.NextToken.2.state = l.state ∧
    l.NextToken.2.namespaces = l.namespaces ∧ l.NextToken.2.reader.err = l.reader.err ∧
    l.NextToken.2.reader.lines ++ l.NextToken.2.reader.buffered = l.reader.buffered ∧
    (l.NextToken.1.Typ = TokenEOF ∨ l.NextToken.1.Line = l.lineNumber) := by
  cases he : l.reader.err <;>
    simp [Lexer.NextToken, Scanner.Scan, hlines, he, Scanner.Err, Lexer.errorToken]

theorem LexerAt_new (r : Scanner) : LexerAt r (NewLexer r) := by
  simp [LexerAt, NewLexer]

theorem LexerAt_line (r : Scanner) (l : Lexer) (line : Str) (ls : List Str)
    (h : LexerAt r l) (hlines : l.reader.lines = line :: ls) :
    (r.lines ++ r.buffered)[l.lineNumber]? = some line := by
  obtain ⟨_, _, hd⟩ := h
  rw [hlines] at hd
  have := congrArg List.head? hd
  simp only [List.cons_append, List.head?_cons, List.head?_drop] at this
  exact this.symm

theorem LexerAt_next (r : Scanner) (l : Lexer) (h : LexerAt r l) : LexerAt r l.NextToken.2 := by
  cases hl : l.reader.lines with
  | nil =>
    obtain ⟨h1, _, _, h4, h5, _⟩ := NextToken_no_line l hl
    obtain ⟨he, hn, hd⟩ := h
    rw [hl] at hd
    exact ⟨by rw [h4]; exact he, by rw [h1]; exact hn, by rw [h5, h1]; simpa using hd⟩
  | cons line ls =>
    obtain ⟨h1, h2, h3⟩ := NextToken_line l line ls hl
    obtain ⟨he, hn, hd⟩ := h
    rw [hl] at hd
    have hlt : l.lineNumber < (r.lines ++ r.buffered).length := by
      by_contra hc
      rw [List.drop_eq_nil_of_le (by omega)] at hd
      cases hd
    refine ⟨by rw [h1]; exact he, by omega, ?_⟩
    rw [h1, h2]
    show ls ++ l.reader.buffered = _
    have := congrArg List.tail hd
    simp only [List.cons_append, List.tail_cons, List.tail_drop] at this
    exact this

theorem StackShape_indent_unique (st : List parseNode) (hs : StackShape st) (a b : parseNode)
    (ha : a ∈ st) (hb : b ∈ st) (hab : a.indent = b.indent) : a = b := by
  cases hs <;> simp at ha hb <;>
    (try rcases ha with rfl | rfl | rfl) <;>
    (try rcases hb with rfl | rfl | rfl) <;>
    first | rfl | (simp at hab)

theorem StackShape_sorted (st : List parseNode) (hs : StackShape st) :
    st.length ≤ 3 ∧ (st.map (fun n => n.indent)).Pairwise (fun a b => a < b) := by
  cases hs <;> simp

theorem parseBodyLine_error_head (l : Lexer) (line : Str) (c : Char)
    (h : (l.parseBodyLine line).Error.head? = some c) : c = 'e' ∨ c = 'i' := by
  revert h
  unfold Lexer.parseBodyLine
  simp only [Lexer.errorToken]
  split
  · simp [ErrEmptyLine, str]; intro h; exact Or.inl h.symm
  · split
    · simp [ErrEmptyLineIndent, str]; intro h; exact Or.inl h.symm
    · split
      · simp [ErrInvalidIdentifier, str]; intro h; exact Or.inr h.symm
      · simp

theorem NextToken_error_head (l : Lexer) (c : Char)
    (h : l.NextToken.1.Error.head? = some c) : c = 'e' ∨ c = 'i' ∨ c = 'h' ∨ c = 'I' := by
  revert h
  unfold Lexer.NextToken
  split
  · split
    · simp [Lexer.errorToken, ErrIo, str]; intro h; exact Or.inr (Or.inr (Or.inr h.symm))
    · simp
  · simp only
    split
    · unfold Lexer.parseHeader
      simp only [Lexer.errorToken]
      split
      · simp [ErrInvalidHeader, str]; intro h; exact Or.inr (Or.inl h.symm)
      · split
        · simp [ErrHeaderTooShort, str]; intro h; exact Or.inr (Or.inr (Or.inl h.symm))
        · simp
    · unfold Lexer.parsePossibleProperty
      simp only [Lexer.errorToken]
      split
      · split
        · simp [ErrInvalidProperty, str]; intro h; exact Or.inr (Or.inl h.symm)
        · simp
      · intro h
        rcases parseBodyLine_error_head _ _ _ h with h | h
        · exact Or.inl h
        · exact Or.inr (Or.inl h)
    · intro h
      rcases parseBodyLine_error_head _ _ _ h with h | h
      · exact Or.inl h
      · exact Or.inr (Or.inl h)

theorem NextToken_error_not_parent (l : Lexer) :
    l.NextToken.1.Error ≠ str "field parent must be a class" ∧
    l.NextToken.1.Error ≠ str "method parent must be a class" := by
  constructor <;> intro h <;>
    (have h2 := NextToken_error_head l _ (by rw [h]; rfl)
     revert h2; decide)

theorem NextToken_error_iff (l : Lexer) :
    l.NextToken.1.Error ≠ [] ↔ l.NextToken.1.Typ = TokenError := by
  have h1 : ErrInvalidHeader ≠ [] := by decide
  have h2 : ErrHeaderTooShort ≠ [] := by decide
  have h3 : ErrInvalidProperty ≠ [] := by decide
  have h4 : ∀ e : Str, ErrIo e ≠ [] := by
    intro e
    have : ErrIo e = 'I' :: (str "O error: " ++ e) := rfl
    rw [this]; simp
  unfold Lexer.NextToken
  split
  · split
    · simp [Lexer.errorToken, h4]
    · simp
  · simp only
    split
    · unfold Lexer.parseHeader
      simp only
      split_ifs <;> simp [Lexer.errorToken, h1, h2]
    · unfold Lexer.parsePossibleProperty
      simp only
      split_ifs
      · simp [Lexer.errorToken, h3]
      · simp
      · exact (parseBodyLine_error_iff _ _).1
    · exact (parseBodyLine_error_iff _ _).1

theorem NextToken_indent_error (l : Lexer) (h : l.NextToken.1.Indent ≠ 0) :
    l.NextToken.1.Error = [] := by
  by_contra hne
  exact h (NextToken_error_indent l ((NextToken_error_iff l).mp hne))

theorem HeaderPhase_init (r : Scanner) :
    HeaderPhase r (headerInit { NewParser r with lexer := (NewParser r).lexer.NextToken.2 }
      (NewParser r).lexer.NextToken.1) := by
  refine ⟨LexerAt_next r _ (LexerAt_new r), rfl, rfl, rfl, rfl, rfl, rfl, rfl, ?_⟩
  intro e he
  simp only [headerInit, NewParser, List.nil_append, List.mem_append] at he
  rcases he with he | he
  · split at he
    · simp at he
    · simp only [List.mem_singleton] at he
      subst he
      exact ⟨rfl, Or.inl rfl⟩
  · split at he
    · simp at he
    · simp only [List.mem_singleton] at he
      subst he
      exact ⟨rfl, Or.inr (Or.inl rfl)⟩

theorem header_phase_end (r : Scanner) (fuel : Nat) (p : Parser)
    (h : Parser.parseHeader fuel { NewParser r with lexer := (NewParser r).lexer.NextToken.2 }
      (NewParser r).lexer.NextToken.1 = .ok (p, false)) :
    (NewLexer r).NextToken.1.Typ = TokenHeader ∧ 5 ≤ (NewLexer r).NextToken.1.Parts.length ∧
    ∃ p1, HeaderPhase r p1 ∧ p1.lexer.NextToken.1.Indent = 0 ∧
      Parser.parseBody { p1 with lexer := p1.lexer.NextToken.2,
                                 currentTok := p1.lexer.NextToken.1 }
        p1.lexer.NextToken.1 = .ok p := by
  obtain ⟨hty, hlen, hloop⟩ := parseHeader_init fuel _ _ p h
  refine ⟨hty, hlen, ?_⟩
  refine parseHeaderLoop_last (HeaderPhase r) ?_ ?_ fuel _ p (HeaderPhase_init r) hloop
  · intro q hq hind _
    obtain ⟨h1, h2, h3, h4, h5, h6, h7, h8, h9⟩ := hq
    refine ⟨LexerAt_next r _ h1, h2, h3, h4, h5, h6, h7, h8, ?_⟩
    intro e he
    simp only [Parser.addError, List.mem_append, List.mem_singleton] at he
    rcases he with he | he
    · exact h9 e he
    · subst he
      simp [h2, NextToken_indent_error _ hind]
  · intro q k v hq _
    obtain ⟨h1, h2, h3, h4, h5, h6, h7, h8, h9⟩ := hq
    exact ⟨LexerAt_next r _ h1, h2, h3, h4, h5, h6, h7, h8, h9⟩

theorem Reachable_lexerAt (r : Scanner) (p : Parser) (h : Reachable r p) : LexerAt r p.lexer := by
  induction h with
  | header fuel p hp =>
    obtain ⟨_, _, p1, hph, _, hb⟩ := header_phase_end r fuel p hp
    rw [(parseBody_frame _ _ _ hb).1]
    exact LexerAt_next r _ hph.1
  | step p q _ _ hq ih =>
    unfold Parser.loopBody at hq
    rw [(parseBody_frame _ _ _ hq).1]
    exact LexerAt_next r _ ih

theorem Reachable_header (r : Scanner) (p : Parser) (h : Reachable r p) :
    (NewLexer r).NextToken.1.Typ = TokenHeader ∧ 5 ≤ (NewLexer r).NextToken.1.Parts.length ∧
    p.metadata.Namespaces = (NewLexer r).NextToken.1.Parts.drop 3 ∧
    p.metadata.MajorVersion = (Atoi ((NewLexer r).NextToken.1.Parts.getD 1 [])).value ∧
    p.metadata.MinorVersion = (Atoi ((NewLexer r).NextToken.1.Parts.getD 2 [])).value := by
  induction h with
  | header fuel p hp =>
    obtain ⟨h1, h2, p1, hph, _, hb⟩ := header_phase_end r fuel p hp
    obtain ⟨_, _, f3, _, f5, f6, _⟩ := parseBody_frame _ _ _ hb
    obtain ⟨_, _, _, _, _, g6, g7, g8, _⟩ := hph
    exact ⟨h1, h2, by rw [f3]; exact g6, by rw [f5]; exact g7, by rw [f6]; exact g8⟩
  | step p q _ _ hq ih =>
    unfold Parser.loopBody at hq
    obtain ⟨_, _, f3, _, f5, f6, _⟩ := parseBody_frame _ _ _ hq
    obtain ⟨h1, h2, h3, h4, h5⟩ := ih
    exact ⟨h1, h2, by rw [f3]; exact h3, by rw [f5]; exact h4, by rw [f6]; exact h5⟩

theorem parseField_parent (p q : Parser) (hs : StackShape p.stack)
    (hlt : ∀ f ∈ p.stack, f.indent < p.currentTok.Indent) (h : p.parseField = .ok q) :
    q.errors = p.errors ∨ q = p.addError (str "field must be inside a class") := by
  unfold Parser.parseField at h
  split at h
  · right; exact (Except.ok.inj h).symm
  · rename_i parent hpar
    split at h
    · right; exact (Except.ok.inj h).symm
    · rename_i hind
      simp only [ne_eq, not_not] at hind
      rw [hind] at hlt
      generalize hst : p.stack = st at hs hlt
      have hc : ∃ ci, parent = Element.Class ci := by
        cases hs <;> simp [Parser.getCurrentParent, hst] at hlt hpar
        exact ⟨_, hpar.symm⟩
      obtain ⟨ci, rfl⟩ := hc
      simp only [bind, Except.bind, pure, Except.pure] at h
      split at h
      · cases h
      · split at h
        · cases h
        · left
          cases (Except.ok.inj h)
          rfl

theorem parseMethod_parent (p q : Parser) (hs : StackShape p.stack)
    (hlt : ∀ f ∈ p.stack, f.indent < p.currentTok.Indent) (h : p.parseMethod = .ok q) :
    q.errors = p.errors ∨ q = p.addError (str "method must be inside a class") := by
  unfold Parser.parseMethod at h
  split at h
  · right; exact (Except.ok.inj h).symm
  · rename_i parent hpar
    split at h
    · right; exact (Except.ok.inj h).symm
    · rename_i hind
      simp only [ne_eq, not_not] at hind
      rw [hind] at hlt
      generalize hst : p.stack = st at hs hlt
      have hc : ∃ ci, parent = Element.Class ci := by
        cases hs <;> simp [Parser.getCurrentParent, hst] at hlt hpar
        exact ⟨_, hpar.symm⟩
      obtain ⟨ci, rfl⟩ := hc
      simp only [bind, Except.bind, pure, Except.pure] at h
      split at h
      · cases h
      · split at h
        · cases h
        · left
          cases (Except.ok.inj h)
          rfl

theorem parseParameter_msgs (p q : Parser) (h : p.parseParameter = .ok q) :
    q.errors = p.errors ∨ q = p.addError (str "parameter must be inside a method") ∨
      q = p.addError (str "invalid parameter index") ∨
      q = p.addError (str "parameter parent must be a method") := by
  unfold Parser.parseParameter at h
  split at h
  · right; left; exact (Except.ok.inj h).symm
  · split at h
    · right; left; exact (Except.ok.inj h).symm
    · simp only [bind, Except.bind, pure, Except.pure] at h
      split at h
      · cases h
      · split at h
        · right; right; left; exact (Except.ok.inj h).symm
        · split at h
          · cases h
          · split at h
            · left; cases (Except.ok.inj h); rfl
            · right; right; right; exact (Except.ok.inj h).symm

theorem parseLocalVariable_msgs (p q : Parser) (h : p.parseLocalVariable = .ok q) :
    q.errors = p.errors ∨ q = p.addError (str "local variable must be inside a method") ∨
      q = p.addError (str "invalid local variable format") ∨
      q = p.addError (str "invalid local variable numbers") ∨
      q = p.addError (str "local variable parent must be a method") := by
  unfold Parser.parseLocalVariable at h
  split at h
  · right; left; exact (Except.ok.inj h).symm
  · split at h
    · right; left; exact (Except.ok.inj h).symm
    · split at h
      · right; right; left; exact (Except.ok.inj h).symm
      · simp only [bind, Except.bind, pure, Except.pure] at h
        split at h
        · cases h
        · split at h
          · cases h
          · split at h
            · cases h
            · split at h
              · right; right; right; left; exact (Except.ok.inj h).symm
              · split at h
                · cases h
                · split at h
                  · left; cases (Except.ok.inj h); rfl
                  · right; right; right; right; exact (Except.ok.inj h).symm

theorem NextToken_header_parts (l : Lexer) (h : l.NextToken.1.Typ = TokenHeader) :
    5 ≤ l.NextToken.1.Parts.length := by
  revert h
  unfold Lexer.NextToken
  split
  · split <;> simp [Lexer.errorToken]
  · simp only
    split
    · unfold Lexer.parseHeader
      simp only
      split_ifs <;> simp [Lexer.errorToken]
      omega
    · unfold Lexer.parsePossibleProperty
      simp only
      split_ifs
      · simp [Lexer.errorToken]
      · simp
      · intro h
        exact absurd h (parseBodyLine_not_header _ _)
    · intro h
      exact absurd h (parseBodyLine_not_header _ _)

theorem parseHeader_fatal_cases (fuel : Nat) (p0 : Parser) (tok : Token) (p : Parser)
    (h : Parser.parseHeader fuel p0 tok = .ok (p, true)) :
    (tok.Typ ≠ TokenHeader ∧ p = p0.addError (str "missing header")) ∨
    (tok.Parts.length < 5 ∧ p = p0.addError (str "invalid header format")) := by
  unfold Parser.parseHeader at h
  split at h
  · rename_i hty
    left; exact ⟨hty, by simpa using h.symm⟩
  · dsimp only at h
    split at h
    · rename_i hlen
      right; exact ⟨hlen, by simpa using h.symm⟩
    · simp only [bind, Except.bind, pure, Except.pure] at h
      repeat' (split at h <;> try cases h)

theorem Parse_cases (r : Scanner) (fuel : Nat) (out : ParseOutcome)
    (h : Parser.Parse fuel (NewParser r) = .ok out) :
    (out.mapping = none ∧ out.errors = [{ Line := 0, Message := str "missing header" }]) ∨
    (Reachable r out.parser ∧ out.errors = out.parser.errors ∧
      out.mapping = some { Metadata := out.parser.metadata, Classes := out.parser.classes }) := by
  cases hm : out.mapping with
  | some m =>
    right
    obtain ⟨h1, h2, h3⟩ := Parse_reachable r fuel out m h hm
    exact ⟨h1, h3, by rw [h2]⟩
  | none =>
    left
    refine ⟨rfl, ?_⟩
    unfold Parser.Parse at h
    simp only [bind, Except.bind, pure, Except.pure] at h
    split at h
    · cases h
    · rename_i hp hhp
      split at h
      · rename_i hb
        cases (Except.ok.inj h)
        obtain ⟨q, b⟩ := hp
        simp only at hb
        subst hb
        rcases parseHeader_fatal_cases fuel _ _ q hhp with ⟨_, rfl⟩ | ⟨hlen, rfl⟩
        · rfl
        · exfalso
          by_cases hty : (NewParser r).lexer.NextToken.1.Typ = TokenHeader
          · have := NextToken_header_parts _ hty
            omega
          · unfold Parser.parseHeader at hhp
            simp [hty] at hhp
            have := congrArg (fun x => x.errors) hhp
            simp [Parser.addError, str] at this
      · split at h
        · cases h
        · cases (Except.ok.inj h)
          simp at hm

theorem parseClass_msg (p q : Parser) (h : p.parseClass = .ok q) :
    q.errors = p.errors ∨ q = p.addError (str "class must be at root level") := by
  unfold Parser.parseClass at h
  split at h
  · right; exact (Except.ok.inj h).symm
  · simp only [bind, Except.bind, pure, Except.pure] at h
    split at h
    · cases h
    · left; cases (Except.ok.inj h); rfl

theorem parseBody_no_parent_error (q : Parser) (tok : Token) (q' : Parser)
    (hs : StackShape q.stack) (hlt : ∀ f ∈ q.stack, f.indent < q.currentTok.Indent)
    (htok : tok.Error ≠ str "field parent must be a class" ∧
      tok.Error ≠ str "method parent must be a class")
    (h : Parser.parseBody q tok = .ok q') :
    q'.errors = q.errors ∨ ∃ msg, q'.errors = q.errors ++ [{ Line := q.currentTok.Line, Message := msg }] ∧
      msg ≠ str "field parent must be a class" ∧ msg ≠ str "method parent must be a class" := by
  unfold Parser.parseBody at h
  split at h
  · rcases parseClass_msg q q' h with h1 | rfl
    · exact Or.inl h1
    · exact Or.inr ⟨_, rfl, by decide, by decide⟩
  · rcases parseField_parent q q' hs hlt h with h1 | rfl
    · exact Or.inl h1
    · exact Or.inr ⟨_, rfl, by decide, by decide⟩
  · rcases parseMethod_parent q q' hs hlt h with h1 | rfl
    · exact Or.inl h1
    · exact Or.inr ⟨_, rfl, by decide, by decide⟩
  · rcases parseParameter_msgs q q' h with h1 | rfl | rfl | rfl
    · exact Or.inl h1
    all_goals exact Or.inr ⟨_, rfl, by decide, by decide⟩
  · rcases parseLocalVariable_msgs q q' h with h1 | rfl | rfl | rfl | rfl
    · exact Or.inl h1
    all_goals exact Or.inr ⟨_, rfl, by decide, by decide⟩
  · cases (Except.ok.inj h)
    rcases handleComment_cases q with ⟨node, _, _, he⟩ | ⟨_, he⟩ <;>
      (rw [he]; exact Or.inl rfl)
  · cases (Except.ok.inj h)
    exact Or.inr ⟨_, rfl, htok⟩
  · cases (Except.ok.inj h)
    exact Or.inl rfl

theorem Reachable_no_parent_error (r : Scanner) (p : Parser) (h : Reachable r p) :
    ∀ e ∈ p.errors, e.Message ≠ str "field parent must be a class" ∧
      e.Message ≠ str "method parent must be a class" := by
  induction h with
  | header fuel p hp =>
    obtain ⟨_, _, p1, hph, hind, hb⟩ := header_phase_end r fuel p hp
    obtain ⟨_, _, h3, _, _, _, _, _, h9⟩ := hph
    intro e he
    rcases parseBody_no_parent_error _ _ _ (by simp only [h3]; exact StackShape.empty)
        (by simp [h3]) (NextToken_error_not_parent _) hb with h1 | ⟨msg, h1, h2⟩
    · rw [h1] at he
      rcases (h9 e he).2 with hm | hm | hm <;> rw [hm] <;> decide
    · rw [h1] at he
      simp only [List.mem_append, List.mem_singleton] at he
      rcases he with he | rfl
      · rcases (h9 e he).2 with hm | hm | hm <;> rw [hm] <;> decide
      · exact h2
  | step p q hp _ hq ih =>
    unfold Parser.loopBody at hq
    have ha := adjustStack_shape { p with lexer := p.lexer.NextToken.2, currentTok := p.lexer.NextToken.1 } p.lexer.NextToken.1.Indent (Reachable_shape r p hp)
    intro e he
    rcases parseBody_no_parent_error _ _ _ ha.1 ha.2 (NextToken_error_not_parent _) hq
      with h1 | ⟨msg, h1, h2⟩
    · rw [h1] at he
      exact ih e he
    · rw [h1] at he
      simp only [List.mem_append, List.mem_singleton] at he
      rcases he with he | rfl
      · exact ih e he
      · exact h2

theorem parseHeader_fatal_lexer (r : Scanner) (fuel : Nat) (p : Parser)
    (h : Parser.parseHeader fuel { NewParser r with lexer := (NewParser r).lexer.NextToken.2 }
      (NewParser r).lexer.NextToken.1 = .ok (p, true)) :
    p.errors = [{ Line := 0, Message := str "missing header" }] := by
  rcases parseHeader_fatal_cases fuel _ _ p h with ⟨_, rfl⟩ | ⟨hlen, rfl⟩
  · rfl
  · exfalso
    by_cases hty : (NewParser r).lexer.NextToken.1.Typ = TokenHeader
    · have := NextToken_header_parts _ hty
      omega
    · unfold Parser.parseHeader at h
      simp [hty] at h
      have := congrArg (fun x => x.errors) h
      simp [Parser.addError, str] at this

theorem NextToken_lineNumber (r : Scanner) (l : Lexer) (h : LexerAt r l) (line : Str)
    (ls : List Str) (hlines : l.reader.lines = line :: ls) :
    l.NextToken.1.Line = l.lineNumber + 1 ∧
      (r.lines ++ r.buffered)[l.NextToken.1.Line - 1]? = some line := by
  have h1 := (NextToken_line l line ls hlines).2.2
  refine ⟨h1, ?_⟩
  rw [h1]
  exact LexerAt_line r l line ls h hlines

theorem getElem?_updateAt {α : Type} (f : α → α) :
    ∀ (i : Nat) (l : List α) (j : Nat),
      (updateAt f i l)[j]? = if j = i then l[j]?.map f else l[j]? := by
  intro i l
  induction l generalizing i with
  | nil => intro j; simp [updateAt]
  | cons a as ih =>
    intro j
    cases i with
    | zero =>
      cases j with
      | zero => simp [updateAt]
      | succ k => simp [updateAt]
    | succ n =>
      cases j with
      | zero => simp [updateAt]
      | succ k => simp [updateAt, ih n k]

theorem Method_grows_refl (m : Method) : Method.grows m m := ⟨Nat.le_refl _, Nat.le_refl _⟩

theorem Class_grows_refl (c : Class) : Class.grows c c :=
  ⟨Nat.le_refl _, fun _ m h => ⟨m, h, Method_grows_refl m⟩⟩

theorem Grows_refl (cs : List Class) : Grows cs cs :=
  fun _ c h => ⟨c, h, Class_grows_refl c⟩

theorem Grows_updateClass (cs : List Class) (ci : Nat) (f : Class → Class)
    (hf : ∀ c, Class.grows c (f c)) : Grows cs (updateClass cs ci f) := by
  intro cj c hc
  simp only [updateClass, getElem?_updateAt, hc]
  split
  · exact ⟨f c, rfl, hf c⟩
  · exact ⟨c, rfl, Class_grows_refl c⟩

theorem Class_grows_updateMethods (c : Class) (mi : Nat) (g : Method → Method)
    (hg : ∀ m, Method.grows m (g m)) :
    Class.grows c { c with Methods := updateAt g mi c.Methods } := by
  refine ⟨Nat.le_refl _, ?_⟩
  intro mj m hm
  simp only [getElem?_updateAt, hm]
  split
  · exact ⟨g m, rfl, hg m⟩
  · exact ⟨m, rfl, Method_grows_refl m⟩

theorem Class_grows_updateFields (c : Class) (fi : Nat) (g : Field → Field) :
    Class.grows c { c with Fields := updateAt g fi c.Fields } := by
  refine ⟨?_, fun _ m h => ⟨m, h, Method_grows_refl m⟩⟩
  have : ∀ (l : List Field) (i : Nat), (updateAt g i l).length = l.length := by
    intro l
    induction l with
    | nil => intro i; simp [updateAt]
    | cons a as ih => intro i; cases i <;> simp [updateAt, ih]
  simp [this]

theorem Grows_updateMethod (cs : List Class) (ci mi : Nat) (g : Method → Method)
    (hg : ∀ m, Method.grows m (g m)) : Grows cs (updateMethod cs ci mi g) :=
  Grows_updateClass cs ci _ (fun c => Class_grows_updateMethods c mi g hg)

theorem Grows_append (cs : List Class) (c : Class) : Grows cs (cs ++ [c]) := by
  intro ci d hd
  have hlt : ci < cs.length := by
    by_contra hc
    rw [List.getElem?_eq_none (by omega)] at hd
    cases hd
  exact ⟨d, by rw [List.getElem?_append_left hlt]; exact hd, Class_grows_refl d⟩

theorem getElem?_isSome_of_le {α β : Type} (l : List α) (l2 : List β) (i : Nat)
    (h : l.length ≤ l2.length) (hi : l[i]?.isSome = true) : l2[i]?.isSome = true := by
  have hlt : i < l.length := by
    by_contra hc
    rw [List.getElem?_eq_none (by omega)] at hi
    cases hi
  rw [List.getElem?_eq_getElem (by omega)]
  rfl

theorem valid_of_grows (cs ds : List Class) (e : Element) (hg : Grows cs ds)
    (hv : validElement cs e) : validElement ds e := by
  unfold validElement at hv ⊢
  cases e with
  | Class ci =>
    simp only [commentsOf, Option.isSome_map] at hv ⊢
    cases hc : cs[ci]? with
    | none => simp [hc] at hv
    | some c =>
      obtain ⟨d, hd, _⟩ := hg ci c hc
      simp [hd]
  | Field ci fi =>
    simp only [commentsOf] at hv ⊢
    cases hc : cs[ci]? with
    | none => simp [hc] at hv
    | some c =>
      obtain ⟨d, hd, hcd⟩ := hg ci c hc
      simp only [hc, hd, Option.some_bind, Option.isSome_map] at hv ⊢
      simpa using getElem?_isSome_of_le _ _ fi hcd.1 (by simpa using hv)
  | Method ci mi =>
    simp only [commentsOf, methodAt, Option.isSome_map] at hv ⊢
    cases hc : cs[ci]? with
    | none => simp [hc] at hv
    | some c =>
      obtain ⟨d, hd, hcd⟩ := hg ci c hc
      simp only [hc, hd] at hv ⊢
      cases hm : c.Methods[mi]? with
      | none => simp [hm] at hv
      | some m =>
        obtain ⟨n, hn, _⟩ := hcd.2 mi m hm
        simp [hn]
  | Parameter ci mi pi =>
    simp only [commentsOf, methodAt] at hv ⊢
    cases hc : cs[ci]? with
    | none => simp [hc] at hv
    | some c =>
      obtain ⟨d, hd, hcd⟩ := hg ci c hc
      simp only [hc, hd] at hv ⊢
      cases hm : c.Methods[mi]? with
      | none => simp [hm] at hv
      | some m =>
        obtain ⟨n, hn, hmn⟩ := hcd.2 mi m hm
        simp only [hm, hn, Option.some_bind, Option.isSome_map] at hv ⊢
        simpa using getElem?_isSome_of_le _ _ pi hmn.1 (by simpa using hv)
  | LocalVariable ci mi vi =>
    simp only [commentsOf, methodAt] at hv ⊢
    cases hc : cs[ci]? with
    | none => simp [hc] at hv
    | some c =>
      obtain ⟨d, hd, hcd⟩ := hg ci c hc
      simp only [hc, hd] at hv ⊢
      cases hm : c.Methods[mi]? with
      | none => simp [hm] at hv
      | some m =>
        obtain ⟨n, hn, hmn⟩ := hcd.2 mi m hm
        simp only [hm, hn, Option.some_bind, Option.isSome_map] at hv ⊢
        simpa using getElem?_isSome_of_le _ _ vi hmn.2 (by simpa using hv)

theorem length_updateAt {α : Type} (g : α → α) :
    ∀ (l : List α) (i : Nat), (updateAt g i l).length = l.length := by
  intro l
  induction l with
  | nil => intro i; simp [updateAt]
  | cons a as ih => intro i; cases i <;> simp [updateAt, ih]

theorem Grows_appendComment (cs : List Class) (text : Str) (e : Element) :
    Grows cs (Parser.appendComment cs text e) := by
  cases e with
  | Class ci =>
    exact Grows_updateClass cs ci _ (fun c => ⟨Nat.le_refl _, fun _ m h => ⟨m, h, Method_grows_refl m⟩⟩)
  | Field ci fi => exact Grows_updateClass cs ci _ (fun c => Class_grows_updateFields c fi _)
  | Method ci mi => exact Grows_updateMethod cs ci mi _ (fun m => ⟨Nat.le_refl _, Nat.le_refl _⟩)
  | Parameter ci mi pi =>
    refine Grows_updateMethod cs ci mi _ (fun m => ⟨?_, Nat.le_refl _⟩)
    simp [length_updateAt]
  | LocalVariable ci mi vi =>
    refine Grows_updateMethod cs ci mi _ (fun m => ⟨Nat.le_refl _, ?_⟩)
    simp [length_updateAt]

theorem commentsOf_appendComment (cs : List Class) (text : Str) (e : Element) :
    commentsOf (Parser.appendComment cs text e) e =
      (commentsOf cs e).map (fun old => old ++ [text]) := by
  cases e with
  | Class ci =>
    simp only [commentsOf, Parser.appendComment, updateClass, getElem?_updateAt, if_true]
    cases cs[ci]? <;> simp
  | Field ci fi =>
    simp only [commentsOf, Parser.appendComment, updateField, updateClass, getElem?_updateAt, if_true]
    cases cs[ci]? with
    | none => simp
    | some c =>
      simp only [Option.map_some', Option.some_bind, getElem?_updateAt, if_true]
      cases c.Fields[fi]? <;> simp
  | Method ci mi =>
    simp only [commentsOf, Parser.appendComment, updateMethod, updateClass, methodAt,
      getElem?_updateAt, if_true]
    cases cs[ci]? with
    | none => simp
    | some c =>
      simp only [Option.map_some', getElem?_updateAt, if_true]
      cases c.Methods[mi]? <;> simp
  | Parameter ci mi pi =>
    simp only [commentsOf, Parser.appendComment, updateParameter, updateMethod, updateClass,
      methodAt, getElem?_updateAt, if_true]
    cases cs[ci]? with
    | none => simp
    | some c =>
      simp only [Option.map_some', getElem?_updateAt, if_true]
      cases c.Methods[mi]? with
      | none => simp
      | some m =>
        simp only [Option.map_some', Option.some_bind, getElem?_updateAt, if_true]
        cases m.Parameters[pi]? <;> simp
  | LocalVariable ci mi vi =>
    simp only [commentsOf, Parser.appendComment, updateLocalVariable, updateMethod, updateClass,
      methodAt, getElem?_updateAt, if_true]
    cases cs[ci]? with
    | none => simp
    | some c =>
      simp only [Option.map_some', getElem?_updateAt, if_true]
      cases c.Methods[mi]? with
      | none => simp
      | some m =>
        simp only [Option.map_some', Option.some_bind, getElem?_updateAt, if_true]
        cases m.LocalVars[vi]? <;> simp

theorem getCurrentParent_mem (p : Parser) (e : Element) (h : p.getCurrentParent = some e) :
    ∃ n ∈ p.stack, n.element = e := by
  unfold Parser.getCurrentParent at h
  split at h
  · cases h
  · cases hl : p.stack.getLast? with
    | none => simp [hl] at h
    | some n =>
      simp only [hl, Option.map_some', Option.some.injEq] at h
      exact ⟨n, List.mem_of_getLast?_eq_some hl, h⟩

theorem mem_adjustStackLoop (d : Int) :
    ∀ (k : Nat) (st : List parseNode) (n : parseNode),
      n ∈ Parser.adjustStackLoop d k st → n ∈ st := by
  intro k
  induction k with
  | zero => intro st n h; simpa [Parser.adjustStackLoop] using h
  | succ k ih =>
    intro st n h
    simp only [Parser.adjustStackLoop] at h
    split at h
    · split at h
      · exact List.mem_of_mem_dropLast (ih _ _ h)
      · exact h
    · exact h

theorem validElement_class (cs : List Class) (ci : Nat) (h : validElement cs (Element.Class ci)) :
    ∃ c, cs[ci]? = some c := by
  unfold validElement at h
  simp only [commentsOf] at h
  cases hc : cs[ci]? with
  | none => simp [hc] at h
  | some c => exact ⟨c, rfl⟩

theorem validElement_method (cs : List Class) (ci mi : Nat)
    (h : validElement cs (Element.Method ci mi)) :
    ∃ m, methodAt cs ci mi = some m := by
  unfold validElement at h
  simp only [commentsOf] at h
  cases hc : methodAt cs ci mi with
  | none => simp [hc] at h
  | some c => exact ⟨c, rfl⟩

theorem Class_grows_addField (c : Class) (f : Field) :
    Class.grows c { c with Fields := c.Fields ++ [f] } :=
  ⟨by simp, fun _ m h => ⟨m, h, Method_grows_refl m⟩⟩

theorem Class_grows_addMethod (c : Class) (x : Method) :
    Class.grows c { c with Methods := c.Methods ++ [x] } := by
  refine ⟨Nat.le_refl _, ?_⟩
  intro mi m hm
  have hlt : mi < c.Methods.length := by
    by_contra hc
    rw [List.getElem?_eq_none (by omega)] at hm
    cases hm
  exact ⟨m, by simp only [List.getElem?_append_left hlt]; exact hm, Method_grows_refl m⟩

theorem parseBody_valid (p : Parser) (tok : Token) (q : Parser)
    (hv : ∀ n ∈ p.stack, validElement p.classes n.element)
    (h : Parser.parseBody p tok = .ok q) :
    ∀ n ∈ q.stack, validElement q.classes n.element := by
  unfold Parser.parseBody at h
  split at h
  · rcases parseClass_cases p q h with ⟨msg, rfl⟩ | ⟨_, rfl⟩
    · exact hv
    · intro n hn
      simp only [List.mem_append, List.mem_singleton] at hn
      rcases hn with hn | rfl
      · exact valid_of_grows _ _ _ (Grows_append _ _) (hv n hn)
      · simp [validElement, commentsOf]
  · rcases parseField_cases p q h with ⟨msg, rfl⟩ | ⟨_, ci, d, hpar, _, rfl⟩
    · exact hv
    · obtain ⟨n0, hn0, he⟩ := getCurrentParent_mem p _ hpar
      have hv0 := hv n0 hn0
      rw [he] at hv0
      obtain ⟨c, hc⟩ := validElement_class _ _ hv0
      intro n hn
      simp only [List.mem_append, List.mem_singleton] at hn
      rcases hn with hn | rfl
      · exact valid_of_grows _ _ _ (Grows_updateClass _ _ _ (fun c => Class_grows_addField c _))
          (hv n hn)
      · simp [validElement, commentsOf, updateClass, getElem?_updateAt, hc, fieldCount]
  · rcases parseMethod_cases p q h with ⟨msg, rfl⟩ | ⟨_, ci, d, hpar, _, rfl⟩
    · exact hv
    · obtain ⟨n0, hn0, he⟩ := getCurrentParent_mem p _ hpar
      have hv0 := hv n0 hn0
      rw [he] at hv0
      obtain ⟨c, hc⟩ := validElement_class _ _ hv0
      intro n hn
      simp only [List.mem_append, List.mem_singleton] at hn
      rcases hn with hn | rfl
      · exact valid_of_grows _ _ _ (Grows_updateClass _ _ _ (fun c => Class_grows_addMethod c _))
          (hv n hn)
      · simp [validElement, commentsOf, updateClass, getElem?_updateAt, hc, methodCount, methodAt]
  · rcases parseParameter_cases p q h with ⟨msg, rfl⟩ | ⟨_, ci, mi, d, hpar, _, _, rfl⟩
    · exact hv
    · obtain ⟨n0, hn0, he⟩ := getCurrentParent_mem p _ hpar
      have hv0 := hv n0 hn0
      rw [he] at hv0
      obtain ⟨m, hm⟩ := validElement_method _ _ _ hv0
      intro n hn
      simp only [List.mem_append, List.mem_singleton] at hn
      rcases hn with hn | rfl
      · exact valid_of_grows _ _ _
          (Grows_updateMethod _ _ _ _ (fun m => ⟨by simp, Nat.le_refl _⟩)) (hv n hn)
      · simp only [hm]
        unfold methodAt at hm
        cases hc : p.classes[ci]? with
        | none => simp [hc] at hm
        | some c =>
          simp only [hc] at hm
          simp [validElement, commentsOf, updateMethod, updateClass, getElem?_updateAt, hc, hm,
            methodAt]
  · rcases parseLocalVariable_cases p q h with ⟨msg, rfl⟩ | ⟨_, _, ci, mi, i1, i2, i3, hpar, rfl⟩
    · exact hv
    · obtain ⟨n0, hn0, he⟩ := getCurrentParent_mem p _ hpar
      have hv0 := hv n0 hn0
      rw [he] at hv0
      obtain ⟨m, hm⟩ := validElement_method _ _ _ hv0
      intro n hn
      simp only [List.mem_append, List.mem_singleton] at hn
      rcases hn with hn | rfl
      · exact valid_of_grows _ _ _
          (Grows_updateMethod _ _ _ _ (fun m => ⟨Nat.le_refl _, by simp⟩)) (hv n hn)
      · simp only [hm]
        unfold methodAt at hm
        cases hc : p.classes[ci]? with
        | none => simp [hc] at hm
        | some c =>
          simp only [hc] at hm
          simp [validElement, commentsOf, updateMethod, updateClass, getElem?_updateAt, hc, hm,
            methodAt]
  · cases (Except.ok.inj h)
    rcases handleComment_cases p with ⟨node, _, _, he⟩ | ⟨_, he⟩
    · rw [he]
      intro n hn
      exact valid_of_grows _ _ _ (Grows_appendComment _ _ _) (hv n hn)
    · rw [he]; exact hv
  · cases (Except.ok.inj h); exact hv
  · cases (Except.ok.inj h); exact hv

theorem Reachable_valid (r : Scanner) (p : Parser) (h : Reachable r p) :
    ∀ n ∈ p.stack, validElement p.classes n.element := by
  induction h with
  | header fuel p hp =>
    obtain ⟨_, _, p1, hph, _, hb⟩ := header_phase_end r fuel p hp
    refine parseBody_valid _ _ _ ?_ hb
    intro n hn
    simp [hph.2.2.1] at hn
  | step p q _ _ hq ih =>
    unfold Parser.loopBody at hq
    refine parseBody_valid _ _ _ ?_ hq
    intro n hn
    exact ih n (mem_adjustStackLoop _ _ _ n hn)

theorem parseBodyLine_comment (l : Lexer) (line : Str)
    (h : (l.parseBodyLine line).Typ = TokenComment) :
    l.parseBodyLine line =
      { Typ := TokenComment, Indent := countIndent line,
        Parts := Split (TrimLeft line [Separator]) Separator, Line := l.lineNumber } := by
  revert h
  unfold Lexer.parseBodyLine
  simp only
  split
  · simp [Lexer.errorToken]
  · split
    · simp [Lexer.errorToken]
    · split
      · simp [Lexer.errorToken]
      · intro h
        simp only at h
        simp only [h]

theorem NextToken_comment (l : Lexer) (h : l.NextToken.1.Typ = TokenComment) :
    ∃ line ls, l.reader.lines = line :: ls ∧
      l.NextToken.1 = { Typ := TokenComment, Indent := countIndent line,
                        Parts := Split (TrimLeft line [Separator]) Separator,
                        Line := l.lineNumber + 1 } := by
  cases hl : l.reader.lines with
  | nil =>
    exfalso
    cases he : l.reader.err <;>
      simp [Lexer.NextToken, Scanner.Scan, hl, he, Scanner.Err, Lexer.errorToken] at h
  | cons line ls =>
    refine ⟨line, ls, rfl, ?_⟩
    revert h
    unfold Lexer.NextToken
    simp only [Scanner.Scan, hl]
    cases hs : l.state
    · simp only [Lexer.parseHeader, Lexer.errorToken]
      split
      · simp
      · split <;> simp
    · simp only [Lexer.parsePossibleProperty, Lexer.errorToken]
      split
      · split <;> simp
      · intro h
        exact parseBodyLine_comment _ _ h
    · intro h
      exact parseBodyLine_comment _ _ h

theorem StackShape_indent_nonneg (st : List parseNode) (hs : StackShape st) :
    ∀ n ∈ st, 0 ≤ n.indent := by
  cases hs <;> simp

theorem Parse_header_mapping (fuel : Nat) (line : Str) (rest : List Str) (err : Option Str) (buf : List Str)
    (out : ParseOutcome)
    (hpre : HasPrefix line (str "tiny\t") = true) (hlen : 5 ≤ (Split line '\t').length)
    (h : Parser.Parse fuel (NewParser ⟨line :: rest, err, buf⟩) = .ok out) :
    Reachable ⟨line :: rest, err, buf⟩ out.parser ∧ out.errors = out.parser.errors ∧
      out.mapping = some { Metadata := out.parser.metadata, Classes := out.parser.classes } ∧
      out.parser.metadata.Namespaces = (Split line '\t').drop 3 ∧
      out.parser.metadata.MajorVersion = (Atoi ((Split line '\t').getD 1 [])).value ∧
      out.parser.metadata.MinorVersion = (Atoi ((Split line '\t').getD 2 [])).value := by
  have hsome : out.mapping ≠ none := by
    rw [Parse_header_eq fuel line rest err buf hpre hlen] at h
    split at h
    · cases h
    · split at h
      · cases h
      · cases (Except.ok.inj h)
        simp
  rcases Parse_cases _ fuel out h with ⟨h1, _⟩ | ⟨h1, h2, h3⟩
  · exact absurd h1 hsome
  · obtain ⟨_, _, g3, g4, g5⟩ := Reachable_header _ _ h1
    have htok : (NewLexer ⟨line :: rest, err, buf⟩).NextToken.1.Parts = Split line '\t' := by
      rw [NextToken_start (NewLexer ⟨line :: rest, err, buf⟩) line rest rfl rfl hpre hlen]
    rw [htok] at g3 g4 g5
    exact ⟨h1, h2, h3, g3, g4, g5⟩

theorem addError_withVersions (pre : List ParseError) (M m : Int) (p : Parser) (msg : Str) :
    (p.withVersions pre M m).addError msg = (p.addError msg).withVersions pre M m := by
  simp [Parser.withVersions, Parser.addError]

theorem parseClass_withVersions (pre : List ParseError) (M m : Int) (p : Parser) :
    (p.withVersions pre M m).parseClass = (p.parseClass).map (Parser.withVersions pre M m) := by
  unfold Parser.parseClass
  have h2 : (p.withVersions pre M m).currentTok = p.currentTok := rfl
  rw [h2]
  split
  · simp [Except.map, addError_withVersions]
  · simp only [bind, Except.bind, pure, Except.pure]
    cases sliceFrom p.currentTok.Parts 1 <;> rfl

theorem parseField_withVersions (pre : List ParseError) (M m : Int) (p : Parser) :
    (p.withVersions pre M m).parseField = (p.parseField).map (Parser.withVersions pre M m) := by
  unfold Parser.parseField
  have h1 : (p.withVersions pre M m).getCurrentParent = p.getCurrentParent := rfl
  have h2 : (p.withVersions pre M m).currentTok = p.currentTok := rfl
  rw [h1, h2]
  cases p.getCurrentParent with
  | none => simp [Except.map, addError_withVersions]
  | some parent =>
    simp only
    split
    · simp [Except.map, addError_withVersions]
    · simp only [bind, Except.bind, pure, Except.pure]
      cases index p.currentTok.Parts 1 with
      | error e => rfl
      | ok d =>
        simp only
        cases sliceFrom p.currentTok.Parts 2 with
        | error e => rfl
        | ok np =>
          cases parent <;> first | rfl | simp [Except.map, addError_withVersions]

theorem parseMethod_withVersions (pre : List ParseError) (M m : Int) (p : Parser) :
    (p.withVersions pre M m).parseMethod = (p.parseMethod).map (Parser.withVersions pre M m) := by
  unfold Parser.parseMethod
  have h1 : (p.withVersions pre M m).getCurrentParent = p.getCurrentParent := rfl
  have h2 : (p.withVersions pre M m).currentTok = p.currentTok := rfl
  rw [h1, h2]
  cases p.getCurrentParent with
  | none => simp [Except.map, addError_withVersions]
  | some parent =>
    simp only
    split
    · simp [Except.map, addError_withVersions]
    · simp only [bind, Except.bind, pure, Except.pure]
      cases index p.currentTok.Parts 1 with
      | error e => rfl
      | ok d =>
        simp only
        cases sliceFrom p.currentTok.Parts 2 with
        | error e => rfl
        | ok np =>
          cases parent <;> first | rfl | simp [Except.map, addError_withVersions]

theorem parseParameter_withVersions (pre : List ParseError) (M m : Int) (p : Parser) :
    (p.withVersions pre M m).parseParameter =
      (p.parseParameter).map (Parser.withVersions pre M m) := by
  unfold Parser.parseParameter
  have h1 : (p.withVersions pre M m).getCurrentParent = p.getCurrentParent := rfl
  have h2 : (p.withVersions pre M m).currentTok = p.currentTok := rfl
  rw [h1, h2]
  cases p.getCurrentParent with
  | none => simp [Except.map, addError_withVersions]
  | some parent =>
    simp only
    split
    · simp [Except.map, addError_withVersions]
    · simp only [bind, Except.bind, pure, Except.pure]
      cases index p.currentTok.Parts 1 with
      | error e => rfl
      | ok d =>
        simp only
        split
        · simp [Except.map, addError_withVersions]
        · cases sliceFrom p.currentTok.Parts 2 with
          | error e => rfl
          | ok np =>
            cases parent <;> first | rfl | simp [Except.map, addError_withVersions]

theorem parseLocalVariable_withVersions (pre : List ParseError) (M m : Int) (p : Parser) :
    (p.withVersions pre M m).parseLocalVariable =
      (p.parseLocalVariable).map (Parser.withVersions pre M m) := by
  unfold Parser.parseLocalVariable
  have h1 : (p.withVersions pre M m).getCurrentParent = p.getCurrentParent := rfl
  have h2 : (p.withVersions pre M m).currentTok = p.currentTok := rfl
  rw [h1, h2]
  cases p.getCurrentParent with
  | none => simp [Except.map, addError_withVersions]
  | some parent =>
    simp only
    split
    · simp [Except.map, addError_withVersions]
    · split
      · simp [Except.map, addError_withVersions]
      · simp only [bind, Except.bind, pure, Except.pure]
        cases index p.currentTok.Parts 1 with
        | error e => rfl
        | ok d1 =>
          simp only
          cases index p.currentTok.Parts 2 with
          | error e => rfl
          | ok d2 =>
            simp only
            cases index p.currentTok.Parts 3 with
            | error e => rfl
            | ok d3 =>
              simp only
              split
              · simp [Except.map, addError_withVersions]
              · cases sliceFrom p.currentTok.Parts 4 with
                | error e => rfl
                | ok np =>
                  cases parent <;> first | rfl | simp [Except.map, addError_withVersions]

theorem handleComment_withVersions (pre : List ParseError) (M m : Int) (p : Parser) :
    (p.withVersions pre M m).handleComment = p.handleComment.withVersions pre M m := by
  unfold Parser.handleComment
  have h1 : (p.withVersions pre M m).stack = p.stack := rfl
  have h2 : (p.withVersions pre M m).currentTok = p.currentTok := rfl
  rw [h1, h2]
  cases List.find? (fun n => decide (n.indent = p.currentTok.Indent - 1)) p.stack.reverse <;> rfl

theorem parseBody_withVersions (pre : List ParseError) (M m : Int) (p : Parser) (tok : Token) :
    Parser.parseBody (p.withVersions pre M m) tok =
      (Parser.parseBody p tok).map (Parser.withVersions pre M m) := by
  unfold Parser.parseBody
  split
  · exact parseClass_withVersions pre M m p
  · exact parseField_withVersions pre M m p
  · exact parseMethod_withVersions pre M m p
  · exact parseParameter_withVersions pre M m p
  · exact parseLocalVariable_withVersions pre M m p
  · simp [Except.map, handleComment_withVersions]
  · simp [Except.map, addError_withVersions]
  · rfl

theorem loopBody_withVersions (pre : List ParseError) (M m : Int) (p : Parser) (tok : Token) :
    Parser.loopBody (p.withVersions pre M m) tok =
      (Parser.loopBody p tok).map (Parser.withVersions pre M m) := by
  unfold Parser.loopBody
  exact parseBody_withVersions pre M m (Parser.adjustStack { p with currentTok := tok } tok.Indent) tok

theorem parseLoop_withVersions (pre : List ParseError) (M m : Int) (fuel : Nat) :
    ∀ p : Parser, Parser.parseLoop fuel (p.withVersions pre M m) =
      (Parser.parseLoop fuel p).map (Parser.withVersions pre M m) := by
  induction fuel with
  | zero => intro p; rfl
  | succ n ih =>
    intro p
    rw [Parser.parseLoop, Parser.parseLoop]
    have h1 : (p.withVersions pre M m).lexer = p.lexer := rfl
    simp only [h1]
    split
    · rfl
    · simp only [bind, Except.bind]
      have := loopBody_withVersions pre M m { p with lexer := p.lexer.NextToken.2 } p.lexer.NextToken.1
      simp only [Parser.withVersions] at this ih ⊢
      rw [this]
      cases Parser.loopBody { p with lexer := p.lexer.NextToken.2 } p.lexer.NextToken.1 with
      | error e => rfl
      | ok q => exact ih q

theorem parseHeaderLoop_withVersions (pre : List ParseError) (M m : Int) (fuel : Nat) :
    ∀ p : Parser, Parser.parseHeaderLoop fuel (p.withVersions pre M m) =
      (Parser.parseHeaderLoop fuel p).map (Parser.withVersions pre M m) := by
  induction fuel with
  | zero => intro p; rfl
  | succ n ih =>
    intro p
    rw [Parser.parseHeaderLoop, Parser.parseHeaderLoop]
    have h1 : (p.withVersions pre M m).lexer = p.lexer := rfl
    simp only [h1]
    split
    · exact parseBody_withVersions pre M m { p with lexer := p.lexer.NextToken.2, currentTok := p.lexer.NextToken.1 } _
    · split
      · have := ih (Parser.addError { p with lexer := p.lexer.NextToken.2 } p.lexer.NextToken.1.Error)
        rw [← this]
        congr 1
        simp [Parser.withVersions, Parser.addError]
      · simp only [bind, Except.bind, pure, Except.pure]
        split
        · rfl
        · split
          · rfl
          · rename_i v _ _ k _
            have := ih { p with lexer := p.lexer.NextToken.2, metadata := { p.metadata with Properties := mapSet p.metadata.Properties k v } }
            rw [← this]
            rfl

theorem headerParser_withVersions (line line2 : Str) (rest : List Str) (err : Option Str) (buf : List Str)
    (hlen : 5 ≤ (Split line '\t').length) (hlen2 : 5 ≤ (Split line2 '\t').length)
    (hsame : (Split line2 '\t').drop 3 = (Split line '\t').drop 3)
    (hM2 : (Atoi ((Split line2 '\t').getD 1 [])).ok = true)
    (hm2 : (Atoi ((Split line2 '\t').getD 2 [])).ok = true) :
    headerParser line rest err buf =
      (headerParser line2 rest err buf).withVersions (headerParser line [] none []).errors
        (Atoi ((Split line '\t').getD 1 [])).value (Atoi ((Split line '\t').getD 2 [])).value := by
  have hl : (Split line2 '\t').length = (Split line '\t').length := by
    have := congrArg List.length hsame
    simp only [List.length_drop] at this
    omega
  simp [headerParser, Parser.withVersions, hsame, hl]
  exact ⟨by simpa using hM2, by simpa using hm2⟩

theorem NextToken_err (l : Lexer) : l.NextToken.2.reader.err = l.reader.err := by
  cases hl : l.reader.lines with
  | nil => exact (NextToken_no_line l hl).2.2.2.1
  | cons line ls => rw [(NextToken_line l line ls hl).1]

theorem NextToken_err_not_eof (l : Lexer) (e : Str) (he : l.reader.err = some e) :
    l.NextToken.1.Typ ≠ TokenEOF := by
  intro h
  cases hl : l.reader.lines with
  | nil => simp [Lexer.NextToken, Scanner.Scan, hl, he, Scanner.Err, Lexer.errorToken] at h
  | cons line ls =>
    have h1 := NextToken_eof_lexer l h
    have h2 := (NextToken_line l line ls hl).2.1
    rw [h1] at h2
    omega

theorem parseLoop_never_returns (e : Str) (fuel : Nat) :
    ∀ (p q : Parser), p.lexer.reader.err = some e → Parser.parseLoop fuel p ≠ .ok q := by
  induction fuel with
  | zero => intro p q _ h; simp [Parser.parseLoop] at h
  | succ n ih =>
    intro p q he h
    rw [parseLoop_step n p (NextToken_err_not_eof _ e he)] at h
    split at h
    · cases h
    · rename_i p2 hp2
      unfold Parser.loopBody at hp2
      refine ih p2 q ?_ h
      rw [(parseBody_frame _ _ _ hp2).1]
      show p.lexer.NextToken.2.reader.err = some e
      rw [NextToken_err]
      exact he

theorem parseHeaderLoop_err (e : Str) (fuel : Nat) (p q : Parser)
    (he : p.lexer.reader.err = some e) (h : Parser.parseHeaderLoop fuel p = .ok q) :
    q.lexer.reader.err = some e := by
  obtain ⟨p1, h1, _, hb⟩ := parseHeaderLoop_last (fun x => x.lexer.reader.err = some e)
    (fun x hx _ _ => by
      show x.lexer.NextToken.2.reader.err = some e
      rw [NextToken_err]; exact hx)
    (fun x _ _ hx _ => by
      show x.lexer.NextToken.2.reader.err = some e
      rw [NextToken_err]; exact hx) fuel p q he h
  rw [(parseBody_frame _ _ _ hb).1]
  show p1.lexer.NextToken.2.reader.err = some e
  rw [NextToken_err]
  exact h1

theorem Parse_never_returns (h : Str) (rest : List Str) (e : Str) (buf : List Str) (fuel : Nat)
    (out : ParseOutcome)
    (hpre : HasPrefix h (str "tiny\t") = true) (hlen : 5 ≤ (Split h '\t').length) :
    Parser.Parse fuel (NewParser ⟨h :: rest, some e, buf⟩) ≠ .ok out := by
  rw [Parse_header_eq _ _ _ _ _ hpre hlen]
  intro hout
  split at hout
  · cases hout
  · rename_i p1 hp1
    have he := parseHeaderLoop_err e fuel _ p1 rfl hp1
    split at hout
    · cases hout
    · rename_i q hq
      exact parseLoop_never_returns e fuel p1 q he hq

theorem loopBody_comment_or_class (p : Parser) (tok : Token)
    (h : tok.Typ = TokenComment ∨ (tok.Typ = TokenClass ∧ 1 ≤ tok.Parts.length)) :
    ∃ q, Parser.loopBody p tok = .ok q := by
  unfold Parser.loopBody
  rcases h with h | ⟨h, hl⟩
  · refine ⟨Parser.handleComment (Parser.adjustStack { p with currentTok := tok } tok.Indent), ?_⟩
    simp [Parser.parseBody, h]
  · simp only [Parser.parseBody, h, Parser.parseClass]
    split
    · exact ⟨_, rfl⟩
    · simp only [bind, Except.bind, pure, Except.pure, sliceFrom, Parser.adjustStack]
      simp [hl]

theorem parseLoop_one_buffered (e b : Str) (fuel : Nat) (p : Parser)
    (hl : p.lexer.reader = ⟨[b], some e, []⟩)
    (htok : p.lexer.NextToken.1.Typ = TokenComment ∨
      (p.lexer.NextToken.1.Typ = TokenClass ∧ 1 ≤ p.lexer.NextToken.1.Parts.length)) :
    Parser.parseLoop fuel p = .error Fault.outOfFuel := by
  cases fuel with
  | zero => rfl
  | succ n =>
    have he : p.lexer.reader.err = some e := by rw [hl]
    rw [parseLoop_step n p (NextToken_err_not_eof _ e he)]
    obtain ⟨q, hq⟩ := loopBody_comment_or_class { p with lexer := p.lexer.NextToken.2 } p.lexer.NextToken.1 htok
    rw [hq]
    simp only []
    unfold Parser.loopBody at hq
    have hlex := (parseBody_frame _ _ _ hq).1
    have hr := (NextToken_line p.lexer b [] (by rw [hl])).1
    refine parseLoop_failed_reader e n q ?_ ?_ ?_
    · rw [hlex]; show p.lexer.NextToken.2.reader.lines = []; rw [hr]
    · rw [hlex]; show p.lexer.NextToken.2.reader.buffered = []; rw [hr, hl]
    · rw [hlex]; show p.lexer.NextToken.2.reader.err = some e; rw [hr, hl]

theorem Parse_failed_after_header (h e b : Str) (fuel : Nat)
    (hpre : HasPrefix h (str "tiny\t") = true) (hlen : 5 ≤ (Split h '\t').length)
    (htok :
      (Lexer.NextToken { reader := ⟨[b], some e, []⟩, lineNumber := 1, state := stateHeaderParsed, namespaces := ((Split h '\t').length : Int) - 4 }).1.Typ = TokenComment ∨
      ((Lexer.NextToken { reader := ⟨[b], some e, []⟩, lineNumber := 1, state := stateHeaderParsed, namespaces := ((Split h '\t').length : Int) - 4 }).1.Typ = TokenClass ∧
        1 ≤ (Lexer.NextToken { reader := ⟨[b], some e, []⟩, lineNumber := 1, state := stateHeaderParsed, namespaces := ((Split h '\t').length : Int) - 4 }).1.Parts.length)) :
    Parser.Parse fuel (NewParser ⟨[h], some e, [b]⟩) = .error Fault.outOfFuel := by
  rw [Parse_header_eq _ _ _ _ _ hpre hlen]
  cases fuel with
  | zero => rfl
  | succ n =>
    have hNT := NextToken_failed (headerParser h [] (some e) [b]).lexer e rfl rfl
    rw [Parser.parseHeaderLoop]
    simp only [hNT, Lexer.errorToken, if_true, Parser.parseBody]
    rw [parseLoop_one_buffered e b (n + 1) _ rfl htok]

theorem byteLen_ascii (s : Str) (h : ∀ c ∈ s, c.utf8Size = 1) : byteLen s = s.length := by
  induction s with
  | nil => rfl
  | cons c cs ih =>
    have h1 := h c (by simp)
    have h2 := ih (fun x hx => h x (by simp [hx]))
    simp only [byteLen, List.map_cons, List.sum_cons, List.length_cons] at h2 ⊢
    omega

theorem takeBytes_ascii (s : Str) (h : ∀ c ∈ s, c.utf8Size = 1) :
    ∀ n, takeBytes n s = s.take n := by
  induction s with
  | nil => intro n; simp [takeBytes]
  | cons c cs ih =>
    intro n
    have h1 := h c (by simp)
    have h2 := ih (fun x hx => h x (by simp [hx]))
    cases n with
    | zero => simp [takeBytes, h1]
    | succ k => simp [takeBytes, h1, h2]

theorem readerOf_long_line (h long tail : Str) (hnl : '\n' ∉ h)
    (hshort : byteLen h < MaxScanTokenSize) (hnl2 : '\n' ∉ long)
    (hlong : MaxScanTokenSize ≤ byteLen long)
    (htail : tail = [] ∨ ∃ rest, tail = '\n' :: rest) :
    readerOf (h ++ '\n' :: (long ++ tail)) =
      ⟨[dropCR h], some (str "bufio.Scanner: token too long"),
        [dropCR (takeBytes MaxScanTokenSize long)]⟩ := by
  have hne : long ≠ [] := by
    rintro rfl
    simp [byteLen, MaxScanTokenSize] at hlong
  have hl2 : ¬ byteLen long < MaxScanTokenSize := by omega
  have key : ∀ S : List Str,
      (if (h :: long :: S).getLast? = some [] then (h :: long :: S).dropLast else h :: long :: S) =
        h :: long :: (if (h :: long :: S).getLast? = some [] then S.dropLast else S) := by
    intro S
    cases S with
    | nil => simp [hne]
    | cons a as => split <;> simp
  have hcut : ∃ S, Split (h ++ '\n' :: (long ++ tail)) '\n' = h :: long :: S := by
    rcases htail with rfl | ⟨rest, rfl⟩
    · refine ⟨[], ?_⟩
      rw [Split_append_sep h _ '\n' hnl, List.append_nil, Split_of_not_mem _ '\n' hnl2]
    · refine ⟨Split rest '\n', ?_⟩
      rw [Split_append_sep h _ '\n' hnl, Split_append_sep long _ '\n' hnl2]
  obtain ⟨S, hS⟩ := hcut
  unfold readerOf
  simp only [hS, key]
  simp [hshort, hl2]

theorem dropCR_id (s : Str) (h : '\r' ∉ s) : dropCR s = s := by
  unfold dropCR
  split
  · rename_i hl
    exact absurd (List.mem_of_getLast?_eq_some hl) h
  · rfl

theorem head_ne_of_not_mem (b : Str) (c : Char) (h : c ∉ b) : b.head? ≠ some c := by
  cases b with
  | nil => simp
  | cons a as =>
    intro hc
    simp only [List.head?_cons, Option.some.injEq] at hc
    exact h (by simp [hc])

theorem NextToken_long_comment (l : Lexer) (b : Str) (hs : l.state ≠ stateStart)
    (hl : l.reader.lines = [b]) (hhead : b.head? ≠ some '\t') (htab : '\t' ∉ b)
    (hlen : 2 ≤ b.length) :
    l.NextToken.1.Typ = TokenComment := by
  have hind : countIndent b = 0 := by
    have := countIndent_tabs 0 b hhead
    simpa using this
  have hne : b ≠ [] := by
    rintro rfl
    simp at hlen
  rw [NextToken_body_line l b [] hs hl (by rw [hind]; decide)]
  have := parseBodyLine_tabs { l with reader := { l.reader with lines := [] }, lineNumber := l.lineNumber + 1, state := stateInBody } 0 b hne hhead
  simp only [List.replicate_zero, List.nil_append, Nat.cast_zero] at this
  simp only [this, Split_of_not_mem b '\t' htab, List.headD_cons]
  have hid : identifierType b 0 = TokenComment := by
    have h1 : ∀ c : Char, b ≠ [c] := by
      intro c hc
      rw [hc] at hlen
      simp at hlen
    simp [identifierType, h1]
  simp [hid]

theorem replicate_x_facts (n : Nat) :
    (∀ c ∈ List.replicate n 'x', c.utf8Size = 1) ∧ '\n' ∉ List.replicate n 'x' ∧
    '\t' ∉ List.replicate n 'x' ∧ '\r' ∉ List.replicate n 'x' := by
  have hx : ∀ c ∈ List.replicate n 'x', c = 'x' := fun c hc => (List.mem_replicate.mp hc).2
  refine ⟨?_, ?_, ?_, ?_⟩
  · intro c hc; rw [hx c hc]; decide
  all_goals (intro hc; have := hx _ hc; revert this; decide)

theorem long_comment_line_run (n : Nat) (hn : MaxScanTokenSize ≤ n) (fuel : Nat) :
    readerOf (str "tiny\t1\t0\tnsA\tnsB" ++ '\n' :: List.replicate n 'x') =
      ⟨[str "tiny\t1\t0\tnsA\tnsB"], some (str "bufio.Scanner: token too long"),
        [List.replicate MaxScanTokenSize 'x']⟩ ∧
    Parser.Parse fuel (NewParser
        (readerOf (str "tiny\t1\t0\tnsA\tnsB" ++ '\n' :: List.replicate n 'x'))) =
      .error Fault.outOfFuel := by
  obtain ⟨hascii, hnl, _, _⟩ := replicate_x_facts n
  obtain ⟨_, _, htab, hcr⟩ := replicate_x_facts MaxScanTokenSize
  have hbl : byteLen (List.replicate n 'x') = n := by
    rw [byteLen_ascii _ hascii]; simp
  have hr := readerOf_long_line (str "tiny\t1\t0\tnsA\tnsB") (List.replicate n 'x') []
    (by decide) (by decide) hnl (by rw [hbl]; exact hn) (Or.inl rfl)
  have htake : List.take MaxScanTokenSize (List.replicate n 'x') =
      List.replicate MaxScanTokenSize 'x' := by
    rw [List.take_replicate, Nat.min_eq_left hn]
  rw [List.append_nil, takeBytes_ascii _ hascii, htake,
    dropCR_id (str "tiny\t1\t0\tnsA\tnsB") (by decide), dropCR_id _ hcr] at hr
  refine ⟨hr, ?_⟩
  rw [hr]
  refine Parse_failed_after_header _ _ _ fuel (by decide) (by decide) (Or.inl ?_)
  refine NextToken_long_comment _ _ (by simp) rfl (head_ne_of_not_mem _ _ htab) htab ?_
  rw [List.length_replicate]
  decide

theorem Split_Join_lines (lines : List Str) (hne : lines ≠ []) (h : ∀ l ∈ lines, '\n' ∉ l) :
    Split (Join lines (str "\n")) '\n' = lines ∧
    Split (Join lines (str "\n") ++ str "\n") '\n' = lines ++ [[]] := by
  have ht : str "\n" = ['\n'] := rfl
  induction lines with
  | nil => exact absurd rfl hne
  | cons a rest ih =>
    have h1 : '\n' ∉ a := h a (by simp)
    cases rest with
    | nil =>
      constructor
      · simpa [Join] using Split_of_not_mem a '\n' h1
      · simp only [Join, ht, List.singleton_append, List.nil_append]
        rw [Split_append_sep a _ '\n' h1]
        simp [Split]
    | cons b rest =>
      have h2 : ∀ f ∈ b :: rest, '\n' ∉ f := fun f hf => h f (by simp [hf])
      obtain ⟨i1, i2⟩ := ih (by simp) h2
      constructor
      · rw [Join, ht, List.append_assoc, List.singleton_append, Split_append_sep a _ '\n' h1,
          ← ht, i1]
      · rw [Join, ht, List.append_assoc, List.append_assoc, List.singleton_append,
          Split_append_sep a _ '\n' h1, ← ht, i2]
        rfl

theorem takeWhile_all {α : Type} (p : α → Bool) (l : List α) (h : ∀ a ∈ l, p a = true) :
    l.takeWhile p = l := by
  induction l with
  | nil => rfl
  | cons a as ih =>
    simp [List.takeWhile, h a (by simp), ih (fun x hx => h x (by simp [hx]))]

theorem map_dropCR_id (lines : List Str) (h : ∀ l ∈ lines, '\r' ∉ l) :
    lines.map dropCR = lines := by
  induction lines with
  | nil => rfl
  | cons a as ih =>
    simp [dropCR_id a (h a (by simp)), ih (fun x hx => h x (by simp [hx]))]

theorem readerOf_lines (lines : List Str) (tail : Str) (hne : lines ≠ [])
    (hnl : ∀ l ∈ lines, '\n' ∉ l) (hcr : ∀ l ∈ lines, '\r' ∉ l)
    (hshort : ∀ l ∈ lines, byteLen l < MaxScanTokenSize)
    (hlast : lines.getLast? ≠ some [])
    (htail : tail = [] ∨ tail = str "\n") :
    readerOf (Join lines (str "\n") ++ tail) = ⟨lines, none, []⟩ := by
  obtain ⟨s1, s2⟩ := Split_Join_lines lines hne hnl
  have hgood : lines.takeWhile (fun l => decide (byteLen l < MaxScanTokenSize)) = lines :=
    takeWhile_all _ _ (fun l hl => by simpa using hshort l hl)
  unfold readerOf
  rcases htail with rfl | rfl
  · rw [List.append_nil, s1]
    simp only [hlast, if_false, hgood, List.drop_length, map_dropCR_id lines hcr]
  · rw [s2]
    have hl : (lines ++ [[]]).getLast? = some ([] : Str) := by simp
    simp only [hl, if_true, List.dropLast_concat, hgood, List.drop_length,
      map_dropCR_id lines hcr]

theorem mem_Join (c : Char) (sep : Str) :
    ∀ fields : List Str, c ∈ Join fields sep → c ∈ sep ∨ ∃ f ∈ fields, c ∈ f := by
  intro fields
  induction fields with
  | nil => intro h; simp [Join] at h
  | cons a rest ih =>
    cases rest with
    | nil => intro h; exact Or.inr ⟨a, by simp, by simpa [Join] using h⟩
    | cons b rest =>
      intro h
      simp only [Join, List.mem_append] at h
      rcases h with (h | h) | h
      · exact Or.inr ⟨a, by simp, h⟩
      · exact Or.inl h
      · rcases ih h with h | ⟨f, hf, hc⟩
        · exact Or.inl h
        · exact Or.inr ⟨f, by simp [hf], hc⟩

theorem Parse_header_class_lines (M m : Int) (sM sm : Str) (nss : List Str)
    (cls : List (List Str)) (fuel : Nat)
    (hM : Atoi sM = ⟨M, true⟩) (hm : Atoi sm = ⟨m, true⟩)
    (hk : 2 ≤ nss.length) (hns : ∀ ns ∈ nss, '\t' ∉ ns)
    (hcls : ∀ fs ∈ cls, fs.length = nss.length ∧ ∀ f ∈ fs, '\t' ∉ f)
    (hfuel : cls.length + 1 ≤ fuel) :
    ∃ out,
      Parser.Parse fuel (NewParser
        ⟨Join (str "tiny" :: sM :: sm :: nss) (str "\t") ::
          cls.map (fun fs => Join (str "c" :: fs) (str "\t")), none, []⟩) = .ok out ∧
      out.errors = [] ∧
      out.mapping = some
        { Metadata := { MajorVersion := M, MinorVersion := m, Namespaces := nss,
                        Properties := [], GlobalComments := [] },
          Classes := cls.map (fun fs => { Names := fs, Comments := [], Fields := [], Methods := [] }) } := by
  have hsplit : Split (Join (str "tiny" :: sM :: sm :: nss) (str "\t")) '\t' =
      str "tiny" :: sM :: sm :: nss := by
    apply Split_Join _ (by simp)
    intro f hf
    simp only [List.mem_cons] at hf
    rcases hf with rfl | rfl | rfl | hf
    · decide
    · exact Atoi_ok_no_tab _ _ hM
    · exact Atoi_ok_no_tab _ _ hm
    · exact hns f hf
  have hlen : 5 ≤ (Split (Join (str "tiny" :: sM :: sm :: nss) (str "\t")) '\t').length := by
    rw [hsplit]; simp; omega
  obtain ⟨f, rfl⟩ : ∃ f, fuel = f + 1 := ⟨fuel - 1, by omega⟩
  rw [Parse_header_eq _ _ _ _ _ (HasPrefix_tiny _ _) hlen]
  have hP0 : headerParser (Join (str "tiny" :: sM :: sm :: nss) (str "\t"))
      (cls.map (fun fs => Join (str "c" :: fs) (str "\t"))) none [] =
      { lexer := { reader := ⟨cls.map (fun fs => Join (str "c" :: fs) (str "\t")), none, []⟩,
                   lineNumber := 1, state := stateHeaderParsed,
                   namespaces := ((3 + nss.length : Nat) : Int) - 4 },
        currentTok := {}, errors := [],
        metadata := { MajorVersion := M, MinorVersion := m, Namespaces := nss,
                      Properties := [], GlobalComments := [] },
        classes := [], stack := [] } := by
    simp [headerParser, hsplit, hM, hm]
    omega
  rw [hP0]
  cases cls with
  | nil =>
    rw [parseHeaderLoop_eof f _ rfl rfl]
    simp only []
    rw [parseLoop_eof f _ rfl rfl]
    simp
  | cons fs rest =>
    have hfs := hcls fs (by simp)
    rw [parseHeaderLoop_depth0 f _ (Join (str "c" :: fs) (str "\t"))
      (rest.map (fun fs => Join (str "c" :: fs) (str "\t"))) rfl rfl (countIndent_classLine fs)]
    rw [parseBodyLine_class _ fs hfs.2]
    rw [parseBody_class _ _ (str "c") fs rfl rfl rfl]
    simp only []
    rw [parseNames_verbatim _ fs (by simpa using hfs.1) (by simp [mapGet])]
    obtain ⟨q, hq, he, hmeta, hc⟩ := parseLoop_classLines rest (f + 1)
      { lexer := { reader := ⟨rest.map (fun fs => Join (str "c" :: fs) (str "\t")), none, []⟩,
                   lineNumber := 1 + 1, state := stateInBody,
                   namespaces := ((3 + nss.length : Nat) : Int) - 4 },
        currentTok := { Typ := TokenClass, Indent := 0, Parts := str "c" :: fs, Line := 1 + 1 },
        errors := [],
        metadata := { MajorVersion := M, MinorVersion := m, Namespaces := nss,
                      Properties := [], GlobalComments := [] },
        classes := [] ++ [{ Names := fs, Comments := [] }],
        stack := [] ++ [⟨0, Element.Class 0⟩] }
      (by simp) rfl (Or.inr ⟨_, rfl⟩) (by simp [mapGet])
      (fun gs hgs => by simpa using hcls gs (by simp [hgs]))
      (by simp at hfuel ⊢; omega)
    simp only [List.length_nil] at hq ⊢
    rw [hq]
    simp only []
    refine ⟨_, rfl, by simpa using he, ?_⟩
    simp only [hmeta, hc]
    simp

theorem long_class_line_run (n : Nat) (hn : MaxScanTokenSize ≤ n) (fuel : Nat) :
    readerOf (str "tiny\t1\t0\tnsA\tnsB" ++
        '\n' :: (str "c\tA1\t" ++ List.replicate n 'x' ++ str "\n")) =
      ⟨[str "tiny\t1\t0\tnsA\tnsB"], some (str "bufio.Scanner: token too long"),
        [str "c\tA1\t" ++ List.replicate (MaxScanTokenSize - 5) 'x']⟩ ∧
    Parser.Parse fuel (NewParser
        (readerOf (str "tiny\t1\t0\tnsA\tnsB" ++
          '\n' :: (str "c\tA1\t" ++ List.replicate n 'x' ++ str "\n")))) =
      .error Fault.outOfFuel := by
  obtain ⟨hascii, hnl, _, _⟩ := replicate_x_facts n
  obtain ⟨_, _, htab, hcr⟩ := replicate_x_facts (MaxScanTokenSize - 5)
  have hascii2 : ∀ c ∈ str "c\tA1\t" ++ List.replicate n 'x', c.utf8Size = 1 := by
    intro c hc
    rcases List.mem_append.mp hc with h | h
    · have h5 : ∀ x ∈ str "c\tA1\t", x.utf8Size = 1 := by decide
      exact h5 c h
    · exact hascii c h
  have hbl : byteLen (str "c\tA1\t" ++ List.replicate n 'x') = 5 + n := by
    rw [byteLen_ascii _ hascii2]
    simp [str]
    omega
  have hnl2 : '\n' ∉ str "c\tA1\t" ++ List.replicate n 'x' := by
    intro hc
    rcases List.mem_append.mp hc with h | h
    · revert h; decide
    · exact hnl h
  have hr := readerOf_long_line (str "tiny\t1\t0\tnsA\tnsB")
    (str "c\tA1\t" ++ List.replicate n 'x') (str "\n")
    (by decide) (by decide) hnl2 (by rw [hbl]; omega) (Or.inr ⟨[], rfl⟩)
  have htake : List.take MaxScanTokenSize (str "c\tA1\t" ++ List.replicate n 'x') =
      str "c\tA1\t" ++ List.replicate (MaxScanTokenSize - 5) 'x' := by
    rw [List.take_append_eq_append_take]
    have h5 : (str "c\tA1\t").length = 5 := rfl
    have h6 : List.take MaxScanTokenSize (str "c\tA1\t") = str "c\tA1\t" :=
      List.take_of_length_le (by rw [h5]; decide)
    rw [h6, h5, List.take_replicate, Nat.min_eq_left (by omega)]
  have hcr2 : '\r' ∉ str "c\tA1\t" ++ List.replicate (MaxScanTokenSize - 5) 'x' := by
    intro hc
    rcases List.mem_append.mp hc with h | h
    · revert h; decide
    · exact hcr h
  rw [takeBytes_ascii _ hascii2, htake,
    dropCR_id (str "tiny\t1\t0\tnsA\tnsB") (by decide), dropCR_id _ hcr2] at hr
  refine ⟨hr, ?_⟩
  rw [hr]
  have hb : str "c\tA1\t" ++ List.replicate (MaxScanTokenSize - 5) 'x' =
      Join (str "c" :: [str "A1", List.replicate (MaxScanTokenSize - 5) 'x']) (str "\t") := rfl
  have hfs : ∀ f ∈ [str "A1", List.replicate (MaxScanTokenSize - 5) 'x'], '\t' ∉ f := by
    intro f hf
    simp only [List.mem_cons, List.mem_singleton, List.not_mem_nil, or_false] at hf
    rcases hf with rfl | rfl
    · decide
    · exact htab
  refine Parse_failed_after_header _ _ _ fuel (by decide) (by decide) (Or.inr ?_)
  rw [hb, NextToken_body_line _ _ [] (by simp) rfl (by rw [countIndent_classLine]; decide),
    parseBodyLine_class _ _ hfs]
  exact ⟨rfl, by simp⟩

theorem adjustStackLoop_dropWhile (d : Int) :
    ∀ (k : Nat) (st : List parseNode), st.length ≤ k →
      Parser.adjustStackLoop d k st =
        (st.reverse.dropWhile (fun n => decide (d ≤ n.indent))).reverse := by
  intro k
  induction k with
  | zero =>
    intro st h
    have : st = [] := List.eq_nil_of_length_eq_zero (by omega)
    subst this
    simp [Parser.adjustStackLoop]
  | succ k ih =>
    intro st h
    rcases List.eq_nil_or_concat st with rfl | ⟨init, top, rfl⟩
    · simp [Parser.adjustStackLoop]
    · simp only [List.concat_eq_append] at h ⊢
      have hlen : init.length ≤ k := by simp at h; omega
      have hgl : (init ++ [top]).getLast? = some top := by simp
      simp only [Parser.adjustStackLoop, hgl, List.dropLast_concat, List.reverse_append,
        List.reverse_cons, List.reverse_nil, List.nil_append, List.singleton_append,
        List.dropWhile_cons, ge_iff_le]
      by_cases hd : d ≤ top.indent
      · rw [if_pos hd, if_pos (by simpa using hd)]
        exact ih init hlen
      · rw [if_neg hd, if_neg (by simpa using hd)]
        simp

theorem adjustStackLoop_filter (st : List parseNode) (d : Int) (h : StackShape st) :
    Parser.adjustStackLoop d st.length st = st.filter (fun n => decide (n.indent < d)) := by
  cases h
  · simp [Parser.adjustStackLoop]
  all_goals
    simp only [Parser.adjustStackLoop, List.length_cons, List.length_nil, List.getLast?_cons_cons,
      List.getLast?_singleton, List.dropLast_cons₂, List.dropLast_single, ge_iff_le, zero_add,
      List.filter_cons, List.filter_nil]
    split_ifs <;> first | rfl | (exfalso; simp_all; omega) | (exfalso; simp_all)

theorem comment_dispatch_in_loop (r : Scanner) (p : Parser) (tok : Token) (mid : Parser)
    (hreach : Reachable r p) (htok : tok = p.lexer.NextToken.1)
    (hcom : tok.Typ = TokenComment)
    (hmid : mid = Parser.adjustStack { p with lexer := p.lexer.NextToken.2, currentTok := tok } tok.Indent) :
    (∃ line ls, p.lexer.reader.lines = line :: ls ∧ (r.lines ++ r.buffered)[tok.Line - 1]? = some line ∧
      tok.Line = p.lexer.lineNumber + 1 ∧ tok.Indent = countIndent line ∧
      Join tok.Parts (str "\t") = TrimLeft line [Separator]) ∧
    (tok.Indent = 0 → ∀ n ∈ mid.stack, n.indent ≠ tok.Indent - 1) ∧
    ((∀ n ∈ mid.stack, n.indent ≠ tok.Indent - 1) →
      Parser.loopBody { p with lexer := p.lexer.NextToken.2 } tok =
        .ok { mid with metadata := { mid.metadata with
                GlobalComments := mid.metadata.GlobalComments ++
                  [str "L" ++ Nat.toDigits 10 tok.Line ++ str ": " ++ Join tok.Parts (str "\t")] } }) ∧
    (∀ n ∈ mid.stack, n.indent = tok.Indent - 1 →
      Parser.loopBody { p with lexer := p.lexer.NextToken.2 } tok =
        .ok { mid with classes :=
                Parser.appendComment mid.classes (Join tok.Parts (str "\t")) n.element } ∧
      ∃ old, commentsOf mid.classes n.element = some old ∧
        commentsOf (Parser.appendComment mid.classes (Join tok.Parts (str "\t")) n.element)
          n.element = some (old ++ [Join tok.Parts (str "\t")])) := by
  have hshape := adjustStack_shape { p with lexer := p.lexer.NextToken.2, currentTok := tok } tok.Indent (Reachable_shape r p hreach)
  rw [← hmid] at hshape
  have hcur : mid.currentTok = tok := by rw [hmid]; rfl
  have hbody : Parser.loopBody { p with lexer := p.lexer.NextToken.2 } tok = .ok mid.handleComment := by
    unfold Parser.loopBody
    rw [← hmid]
    simp [Parser.parseBody, hcom]
  refine ⟨?_, ?_, ?_, ?_⟩
  · have hcom2 : p.lexer.NextToken.1.Typ = TokenComment := by rw [← htok]; exact hcom
    obtain ⟨line, ls, hl, heq⟩ := NextToken_comment p.lexer hcom2
    obtain ⟨h1, h2⟩ := NextToken_lineNumber r _ (Reachable_lexerAt r p hreach) line ls hl
    refine ⟨line, ls, hl, by rw [htok]; exact h2, by rw [htok]; exact h1, ?_, ?_⟩
    · rw [htok, heq]
    · rw [htok, heq]
      exact Join_Split _
  · intro hind n hn hc
    have := StackShape_indent_nonneg _ hshape.1 n hn
    omega
  · intro hno
    rw [hbody]
    rcases handleComment_cases mid with ⟨node, hmem, hi, _⟩ | ⟨_, he⟩
    · rw [hcur] at hi
      exact absurd hi (hno node hmem)
    · rw [he, hcur]
  · intro n hn hi
    have hval : validElement mid.classes n.element := by
      have hn2 : n ∈ p.stack := by
        rw [hmid] at hn
        exact mem_adjustStackLoop _ _ _ n hn
      have := Reachable_valid r p hreach n hn2
      rw [hmid]
      exact this
    constructor
    · rw [hbody]
      rcases handleComment_cases mid with ⟨node, hmem, hi2, he⟩ | ⟨hno, _⟩
      · rw [hcur] at hi2 he
        have : node = n := StackShape_indent_unique _ hshape.1 node n hmem hn (by rw [hi, hi2])
        rw [he, this, hcur]
      · rw [hcur] at hno
        exact absurd hi (hno n hn)
    · unfold validElement at hval
      cases hold : commentsOf mid.classes n.element with
      | none => simp [hold] at hval
      | some old =>
        refine ⟨old, rfl, ?_⟩
        rw [commentsOf_appendComment, hold]
        rfl

theorem comment_dispatch_in_header (r : Scanner) (fuel : Nat) (p2 : Parser)
    (h : Parser.parseHeader fuel { NewParser r with lexer := (NewParser r).lexer.NextToken.2 }
      (NewParser r).lexer.NextToken.1 = .ok (p2, false)) :
    ∃ p1, HeaderPhase r p1 ∧ p1.lexer.NextToken.1.Indent = 0 ∧
      Parser.parseBody { p1 with lexer := p1.lexer.NextToken.2, currentTok := p1.lexer.NextToken.1 } p1.lexer.NextToken.1 = .ok p2 ∧
      (p1.lexer.NextToken.1.Typ = TokenComment →
        (∃ line ls, p1.lexer.reader.lines = line :: ls ∧
          (r.lines ++ r.buffered)[p1.lexer.NextToken.1.Line - 1]? = some line ∧
          p1.lexer.NextToken.1.Line = p1.lexer.lineNumber + 1 ∧ countIndent line = 0 ∧
          Join p1.lexer.NextToken.1.Parts (str "\t") = TrimLeft line [Separator]) ∧
        p1.stack = [] ∧ p1.metadata.GlobalComments = [] ∧
        p2 = { p1 with
                lexer := p1.lexer.NextToken.2, currentTok := p1.lexer.NextToken.1,
                metadata := { p1.metadata with
                  GlobalComments := [str "L" ++ Nat.toDigits 10 p1.lexer.NextToken.1.Line ++
                    str ": " ++ Join p1.lexer.NextToken.1.Parts (str "\t")] } }) := by
  obtain ⟨_, _, p1, hph, hind, hb⟩ := header_phase_end r fuel p2 h
  refine ⟨p1, hph, hind, hb, ?_⟩
  intro hcom
  obtain ⟨line, ls, hl, heq⟩ := NextToken_comment p1.lexer hcom
  obtain ⟨h1, h2⟩ := NextToken_lineNumber r _ hph.1 line ls hl
  have hst : p1.stack = [] := hph.2.2.1
  have hgc : p1.metadata.GlobalComments = [] := hph.2.2.2.2.1
  refine ⟨⟨line, ls, hl, h2, h1, ?_, ?_⟩, hst, hgc, ?_⟩
  · rw [heq] at hind
    exact hind.symm ▸ rfl
  · rw [heq]
    exact Join_Split _
  · simp only [Parser.parseBody, hcom] at hb
    have hb2 := (Except.ok.inj hb).symm
    rcases handleComment_cases { p1 with lexer := p1.lexer.NextToken.2, currentTok := p1.lexer.NextToken.1 } with ⟨node, hmem, _, _⟩ | ⟨_, he⟩
    · simp [hst] at hmem
    · rw [hb2, he]
      simp [hgc]

theorem Method_keeps_refl (m : Method) : Method.keeps m m :=
  ⟨rfl, fun _ x h => ⟨x, h, rfl⟩, fun _ x h => ⟨x, h, rfl⟩⟩

theorem Class_keeps_refl (c : Class) : Class.keeps c c :=
  ⟨rfl, fun _ f h => ⟨f, h, rfl⟩, fun _ m h => ⟨m, h, Method_keeps_refl m⟩⟩

theorem Keeps_refl (cs : List Class) : Keeps cs cs :=
  fun _ c h => ⟨c, h, Class_keeps_refl c⟩

theorem Method_keeps_trans (a b c : Method) (h1 : Method.keeps a b) (h2 : Method.keeps b c) :
    Method.keeps a c := by
  refine ⟨h2.1.trans h1.1, ?_, ?_⟩
  · intro i x hx
    obtain ⟨y, hy, hyx⟩ := h1.2.1 i x hx
    obtain ⟨z, hz, hzy⟩ := h2.2.1 i y hy
    exact ⟨z, hz, hzy.trans hyx⟩
  · intro i x hx
    obtain ⟨y, hy, hyx⟩ := h1.2.2 i x hx
    obtain ⟨z, hz, hzy⟩ := h2.2.2 i y hy
    exact ⟨z, hz, hzy.trans hyx⟩

theorem Class_keeps_trans (a b c : Class) (h1 : Class.keeps a b) (h2 : Class.keeps b c) :
    Class.keeps a c := by
  refine ⟨h2.1.trans h1.1, ?_, ?_⟩
  · intro i x hx
    obtain ⟨y, hy, hyx⟩ := h1.2.1 i x hx
    obtain ⟨z, hz, hzy⟩ := h2.2.1 i y hy
    exact ⟨z, hz, hzy.trans hyx⟩
  · intro i x hx
    obtain ⟨y, hy, hyx⟩ := h1.2.2 i x hx
    obtain ⟨z, hz, hzy⟩ := h2.2.2 i y hy
    exact ⟨z, hz, Method_keeps_trans _ _ _ hyx hzy⟩

theorem Keeps_trans (a b c : List Class) (h1 : Keeps a b) (h2 : Keeps b c) : Keeps a c := by
  intro i x hx
  obtain ⟨y, hy, hyx⟩ := h1 i x hx
  obtain ⟨z, hz, hzy⟩ := h2 i y hy
  exact ⟨z, hz, Class_keeps_trans _ _ _ hyx hzy⟩

theorem kept_updateAt {α : Type} (R : α → α → Prop) (hr : ∀ a, R a a) (f : α → α)
    (hf : ∀ a, R a (f a)) (i : Nat) (l : List α) (j : Nat) (a : α) (h : l[j]? = some a) :
    ∃ b, (updateAt f i l)[j]? = some b ∧ R a b := by
  simp only [getElem?_updateAt, h]
  split
  · exact ⟨f a, rfl, hf a⟩
  · exact ⟨a, rfl, hr a⟩

theorem kept_append {α : Type} (l : List α) (x : α) (j : Nat) (a : α) (h : l[j]? = some a) :
    (l ++ [x])[j]? = some a := by
  have hlt : j < l.length := by
    by_contra hc
    rw [List.getElem?_eq_none (by omega)] at h
    cases h
  rw [List.getElem?_append_left hlt]
  exact h

theorem Keeps_updateClass (cs : List Class) (ci : Nat) (f : Class → Class)
    (hf : ∀ c, Class.keeps c (f c)) : Keeps cs (updateClass cs ci f) :=
  kept_updateAt Class.keeps Class_keeps_refl f hf ci cs

theorem Keeps_updateMethod (cs : List Class) (ci mi : Nat) (g : Method → Method)
    (hg : ∀ m, Method.keeps m (g m)) : Keeps cs (updateMethod cs ci mi g) :=
  Keeps_updateClass cs ci _ (fun c => ⟨rfl, fun _ f h => ⟨f, h, rfl⟩,
    kept_updateAt Method.keeps Method_keeps_refl g hg mi c.Methods⟩)

theorem Keeps_append (cs : List Class) (c : Class) : Keeps cs (cs ++ [c]) :=
  fun i d hd => ⟨d, kept_append cs c i d hd, Class_keeps_refl d⟩

theorem Keeps_appendComment (cs : List Class) (text : Str) (e : Element) :
    Keeps cs (Parser.appendComment cs text e) := by
  cases e with
  | Class ci =>
    exact Keeps_updateClass cs ci _
      (fun c => ⟨rfl, fun _ f h => ⟨f, h, rfl⟩, fun _ m h => ⟨m, h, Method_keeps_refl m⟩⟩)
  | Field ci fi =>
    exact Keeps_updateClass cs ci _ (fun c => ⟨rfl,
      kept_updateAt (fun f g : Field => g.Names = f.Names) (fun _ => rfl)
        (fun f : Field => { f with Comments := f.Comments ++ [text] }) (fun _ => rfl) fi
        c.Fields,
      fun _ m h => ⟨m, h, Method_keeps_refl m⟩⟩)
  | Method ci mi =>
    exact Keeps_updateMethod cs ci mi _
      (fun m => ⟨rfl, fun _ x h => ⟨x, h, rfl⟩, fun _ x h => ⟨x, h, rfl⟩⟩)
  | Parameter ci mi pi =>
    exact Keeps_updateMethod cs ci mi _ (fun m => ⟨rfl,
      kept_updateAt (fun x y : Parameter => y.Names = x.Names) (fun _ => rfl)
        (fun x : Parameter => { x with Comments := x.Comments ++ [text] }) (fun _ => rfl) pi
        m.Parameters,
      fun _ x h => ⟨x, h, rfl⟩⟩)
  | LocalVariable ci mi vi =>
    exact Keeps_updateMethod cs ci mi _ (fun m => ⟨rfl, fun _ x h => ⟨x, h, rfl⟩,
      kept_updateAt (fun x y : LocalVariable => y.Names = x.Names) (fun _ => rfl)
        (fun x : LocalVariable => { x with Comments := x.Comments ++ [text] }) (fun _ => rfl)
        vi m.LocalVars⟩)

theorem namesOf_of_keeps (cs ds : List Class) (hk : Keeps cs ds) (e : Element) (names : List Str)
    (h : namesOf cs e = some names) : namesOf ds e = some names := by
  cases e with
  | Class ci =>
    simp only [namesOf] at h ⊢
    cases hc : cs[ci]? with
    | none => simp [hc] at h
    | some c =>
      obtain ⟨d, hd, hcd⟩ := hk ci c hc
      simp only [hc, Option.map_some', Option.some.injEq] at h
      simp [hd, hcd.1, h]
  | Field ci fi =>
    simp only [namesOf] at h ⊢
    cases hc : cs[ci]? with
    | none => simp [hc] at h
    | some c =>
      obtain ⟨d, hd, hcd⟩ := hk ci c hc
      simp only [hc, Option.some_bind] at h
      cases hf : c.Fields[fi]? with
      | none => simp [hf] at h
      | some f =>
        obtain ⟨g, hg, hfg⟩ := hcd.2.1 fi f hf
        simp only [hf, Option.map_some', Option.some.injEq] at h
        simp [hd, hg, hfg, h]
  | Method ci mi =>
    simp only [namesOf, methodAt] at h ⊢
    cases hc : cs[ci]? with
    | none => simp [hc] at h
    | some c =>
      obtain ⟨d, hd, hcd⟩ := hk ci c hc
      simp only [hc] at h
      cases hm : c.Methods[mi]? with
      | none => simp [hm] at h
      | some m =>
        obtain ⟨n, hn, hmn⟩ := hcd.2.2 mi m hm
        simp only [hm, Option.map_some', Option.some.injEq] at h
        simp [hd, hn, hmn.1, h]
  | Parameter ci mi pi =>
    simp only [namesOf, methodAt] at h ⊢
    cases hc : cs[ci]? with
    | none => simp [hc] at h
    | some c =>
      obtain ⟨d, hd, hcd⟩ := hk ci c hc
      simp only [hc] at h
      cases hm : c.Methods[mi]? with
      | none => simp [hm] at h
      | some m =>
        obtain ⟨n, hn, hmn⟩ := hcd.2.2 mi m hm
        simp only [hm, Option.some_bind] at h
        cases hx : m.Parameters[pi]? with
        | none => simp [hx] at h
        | some x =>
          obtain ⟨y, hy, hxy⟩ := hmn.2.1 pi x hx
          simp only [hx, Option.map_some', Option.some.injEq] at h
          simp [hd, hn, hy, hxy, h]
  | LocalVariable ci mi vi =>
    simp only [namesOf, methodAt] at h ⊢
    cases hc : cs[ci]? with
    | none => simp [hc] at h
    | some c =>
      obtain ⟨d, hd, hcd⟩ := hk ci c hc
      simp only [hc] at h
      cases hm : c.Methods[mi]? with
      | none => simp [hm] at h
      | some m =>
        obtain ⟨n, hn, hmn⟩ := hcd.2.2 mi m hm
        simp only [hm, Option.some_bind] at h
        cases hx : m.LocalVars[vi]? with
        | none => simp [hx] at h
        | some x =>
          obtain ⟨y, hy, hxy⟩ := hmn.2.2 vi x hx
          simp only [hx, Option.map_some', Option.some.injEq] at h
          simp [hd, hn, hy, hxy, h]

theorem parseBody_keeps (p : Parser) (tok : Token) (q : Parser)
    (h : Parser.parseBody p tok = .ok q) : Keeps p.classes q.classes := by
  unfold Parser.parseBody at h
  split at h
  · rcases parseClass_cases p q h with ⟨msg, rfl⟩ | ⟨_, rfl⟩
    · exact Keeps_refl _
    · exact Keeps_append _ _
  · rcases parseField_cases p q h with ⟨msg, rfl⟩ | ⟨_, ci, d, _, _, rfl⟩
    · exact Keeps_refl _
    · exact Keeps_updateClass _ _ _ (fun c => ⟨rfl, fun i f hf => ⟨f, kept_append _ _ i f hf, rfl⟩,
        fun _ m hm => ⟨m, hm, Method_keeps_refl m⟩⟩)
  · rcases parseMethod_cases p q h with ⟨msg, rfl⟩ | ⟨_, ci, d, _, _, rfl⟩
    · exact Keeps_refl _
    · exact Keeps_updateClass _ _ _ (fun c => ⟨rfl, fun _ f hf => ⟨f, hf, rfl⟩,
        fun i m hm => ⟨m, kept_append _ _ i m hm, Method_keeps_refl m⟩⟩)
  · rcases parseParameter_cases p q h with ⟨msg, rfl⟩ | ⟨_, ci, mi, d, _, _, _, rfl⟩
    · exact Keeps_refl _
    · exact Keeps_updateMethod _ _ _ _ (fun m => ⟨rfl,
        fun i x hx => ⟨x, kept_append _ _ i x hx, rfl⟩, fun _ x hx => ⟨x, hx, rfl⟩⟩)
  · rcases parseLocalVariable_cases p q h with ⟨msg, rfl⟩ | ⟨_, _, ci, mi, i1, i2, i3, _, rfl⟩
    · exact Keeps_refl _
    · exact Keeps_updateMethod _ _ _ _ (fun m => ⟨rfl, fun _ x hx => ⟨x, hx, rfl⟩,
        fun i x hx => ⟨x, kept_append _ _ i x hx, rfl⟩⟩)
  · cases (Except.ok.inj h)
    rcases handleComment_cases p with ⟨node, _, _, he⟩ | ⟨_, he⟩
    · rw [he]; exact Keeps_appendComment _ _ _
    · rw [he]; exact Keeps_refl _
  · cases (Except.ok.inj h); exact Keeps_refl _
  · cases (Except.ok.inj h); exact Keeps_refl _

theorem loopBody_keeps (p : Parser) (tok : Token) (q : Parser)
    (h : Parser.loopBody p tok = .ok q) : Keeps p.classes q.classes :=
  parseBody_keeps (Parser.adjustStack { p with currentTok := tok } tok.Indent) tok q h

theorem parseLoop_keeps (fuel : Nat) :
    ∀ (p q : Parser), Parser.parseLoop fuel p = .ok q → Keeps p.classes q.classes := by
  induction fuel with
  | zero => intro p q h; simp [Parser.parseLoop] at h
  | succ n ih =>
    intro p q h
    rw [Parser.parseLoop] at h
    split at h
    · cases (Except.ok.inj h)
      exact Keeps_refl _
    · simp only [bind, Except.bind] at h
      split at h
      · cases h
      · rename_i p1 hp1
        exact Keeps_trans p.classes _ _ (loopBody_keeps { p with lexer := p.lexer.NextToken.2 } _ _ hp1)
          (ih p1 q h)

theorem parseNames_congr2 (p q : Parser)
    (h1 : q.metadata.Namespaces = p.metadata.Namespaces)
    (h2 : q.metadata.Properties = p.metadata.Properties) (parts : List Str) :
    q.parseNames parts = p.parseNames parts := by
  simp [parseNames_eq, Parser.unescape, h1, h2]

theorem NamesFromLine_congr (r : Scanner) (p q : Parser)
    (h1 : q.metadata.Namespaces = p.metadata.Namespaces)
    (h2 : q.metadata.Properties = p.metadata.Properties) :
    NamesFromLine r q = NamesFromLine r p := by
  funext kind names
  simp only [NamesFromLine, parseNames_congr2 p q h1 h2]

theorem NamesAll_updateClass (Q : TokenType → List Str → Prop) (classes : List Class) (ci : Nat)
    (f : Class → Class) (hf : ∀ c, Class.namesAll Q c → Class.namesAll Q (f c))
    (h : NamesAll Q classes) : NamesAll Q (updateClass classes ci f) :=
  forall_mem_updateAt (Class.namesAll Q) f hf ci classes h

theorem NamesAll_updateMethod (Q : TokenType → List Str → Prop) (classes : List Class)
    (ci mi : Nat) (f : Method → Method) (hf : ∀ m, Method.namesAll Q m → Method.namesAll Q (f m))
    (h : NamesAll Q classes) : NamesAll Q (updateMethod classes ci mi f) := by
  apply NamesAll_updateClass Q classes ci _ _ h
  intro c hc
  exact ⟨hc.1, hc.2.1, forall_mem_updateAt (Method.namesAll Q) f hf mi c.Methods hc.2.2⟩

theorem NamesAll_appendComment (Q : TokenType → List Str → Prop) (classes : List Class)
    (text : Str) (e : Element) (h : NamesAll Q classes) :
    NamesAll Q (Parser.appendComment classes text e) := by
  cases e with
  | Class ci =>
    exact NamesAll_updateClass Q classes ci _ (fun c hc => ⟨hc.1, hc.2.1, hc.2.2⟩) h
  | Field ci fi =>
    apply NamesAll_updateClass Q classes ci _ _ h
    intro c hc
    refine ⟨hc.1, forall_mem_updateAt (fun f : Field => Q TokenField f.Names) _ ?_ fi c.Fields
      hc.2.1, hc.2.2⟩
    exact fun f hf => hf
  | Method ci mi =>
    exact NamesAll_updateMethod Q classes ci mi _ (fun m hm => ⟨hm.1, hm.2.1, hm.2.2⟩) h
  | Parameter ci mi pi =>
    apply NamesAll_updateMethod Q classes ci mi _ _ h
    intro m hm
    refine ⟨hm.1, forall_mem_updateAt (fun x : Parameter => Q TokenParameter x.Names) _ ?_ pi
      m.Parameters hm.2.1, hm.2.2⟩
    exact fun x hx => hx
  | LocalVariable ci mi vi =>
    apply NamesAll_updateMethod Q classes ci mi _ _ h
    intro m hm
    refine ⟨hm.1, hm.2.1, forall_mem_updateAt
      (fun x : LocalVariable => Q TokenLocalVariable x.Names) _ ?_ vi m.LocalVars hm.2.2⟩
    exact fun x hx => hx

theorem parseBody_namesAll (Q : TokenType → List Str → Prop) (p : Parser) (tok : Token)
    (q : Parser) (hw : NamesAll Q p.classes)
    (hQ : Q tok.Typ (p.parseNames (p.currentTok.Parts.drop (nameOffset tok.Typ))))
    (h : Parser.parseBody p tok = .ok q) : NamesAll Q q.classes := by
  unfold Parser.parseBody at h
  split at h
  · rename_i hty
    rw [hty] at hQ
    rcases parseClass_cases p q h with ⟨msg, rfl⟩ | ⟨hind, rfl⟩
    · exact hw
    · intro c hc
      simp only [List.mem_append, List.mem_singleton] at hc
      rcases hc with hc | rfl
      · exact hw c hc
      · exact ⟨hQ, by simp, by simp⟩
  · rename_i hty
    rw [hty] at hQ
    rcases parseField_cases p q h with ⟨msg, rfl⟩ | ⟨hind, ci, d, hpar, hd, rfl⟩
    · exact hw
    · apply NamesAll_updateClass _ p.classes ci _ _ hw
      intro c hc
      refine ⟨hc.1, ?_, hc.2.2⟩
      intro f hf
      simp only [List.mem_append, List.mem_singleton] at hf
      rcases hf with hf | rfl
      · exact hc.2.1 f hf
      · exact hQ
  · rename_i hty
    rw [hty] at hQ
    rcases parseMethod_cases p q h with ⟨msg, rfl⟩ | ⟨hind, ci, d, hpar, hd, rfl⟩
    · exact hw
    · apply NamesAll_updateClass _ p.classes ci _ _ hw
      intro c hc
      refine ⟨hc.1, hc.2.1, ?_⟩
      intro m hm
      simp only [List.mem_append, List.mem_singleton] at hm
      rcases hm with hm | rfl
      · exact hc.2.2 m hm
      · exact ⟨hQ, by simp, by simp⟩
  · rename_i hty
    rw [hty] at hQ
    rcases parseParameter_cases p q h with ⟨msg, rfl⟩ | ⟨hind, ci, mi, d, hpar, hd, hdok, rfl⟩
    · exact hw
    · apply NamesAll_updateMethod _ p.classes ci mi _ _ hw
      intro m hm
      refine ⟨hm.1, ?_, hm.2.2⟩
      intro x hx
      simp only [List.mem_append, List.mem_singleton] at hx
      rcases hx with hx | rfl
      · exact hm.2.1 x hx
      · exact hQ
  · rename_i hty
    rw [hty] at hQ
    rcases parseLocalVariable_cases p q h with
      ⟨msg, rfl⟩ | ⟨hind, hlen, ci, mi, i1, i2, i3, hpar, rfl⟩
    · exact hw
    · apply NamesAll_updateMethod _ p.classes ci mi _ _ hw
      intro m hm
      refine ⟨hm.1, hm.2.1, ?_⟩
      intro x hx
      simp only [List.mem_append, List.mem_singleton] at hx
      rcases hx with hx | rfl
      · exact hm.2.2 x hx
      · exact hQ
  · cases (Except.ok.inj h)
    rcases handleComment_cases p with ⟨node, _, _, he⟩ | ⟨_, he⟩
    · rw [he]; exact NamesAll_appendComment _ _ _ _ hw
    · rw [he]; exact hw
  · cases (Except.ok.inj h); exact hw
  · cases (Except.ok.inj h); exact hw

theorem dispatch_namesFrom (r : Scanner) (p0 p1 q : Parser) (n : Nat)
    (hlex : p0.lexer = Lexer.after n (NewLexer r))
    (hw : NamesAll (NamesFromLine r p0) p0.classes)
    (hl : p1.lexer = p0.lexer.NextToken.2) (hc : p1.currentTok = p0.lexer.NextToken.1)
    (hm : p1.metadata = p0.metadata) (hcl : p1.classes = p0.classes)
    (h : Parser.parseBody p1 p0.lexer.NextToken.1 = .ok q) :
    q.lexer = Lexer.after (n + 1) (NewLexer r) ∧ NamesAll (NamesFromLine r q) q.classes := by
  obtain ⟨f1, _, f3, f4, _⟩ := parseBody_frame _ _ _ h
  refine ⟨by rw [f1, hl, hlex, after_succ], ?_⟩
  have e1 : NamesFromLine r q = NamesFromLine r p0 :=
    NamesFromLine_congr r p0 q (by rw [f3, hm]) (by rw [f4, hm])
  refine parseBody_namesAll _ p1 _ q ?_ ?_ h
  · rw [hcl, e1]; exact hw
  · refine ⟨n, ?_, ?_⟩
    · rw [Lexer.tokenAt, ← hlex]
    · rw [Lexer.tokenAt, ← hlex, hc]
      exact (parseNames_congr2 p1 q f3 f4 _).symm

theorem header_position (r : Scanner) (fuel : Nat) (p : Parser)
    (h : Parser.parseHeader fuel { NewParser r with lexer := (NewParser r).lexer.NextToken.2 }
      (NewParser r).lexer.NextToken.1 = .ok (p, false)) :
    ∃ (p1 : Parser) (n : Nat), p1.classes = [] ∧ p1.lexer = Lexer.after n (NewLexer r) ∧
      Parser.parseBody { p1 with lexer := p1.lexer.NextToken.2,
                                 currentTok := p1.lexer.NextToken.1 }
        p1.lexer.NextToken.1 = .ok p := by
  obtain ⟨_, _, hloop⟩ := parseHeader_init fuel _ _ p h
  have key := parseHeaderLoop_last
    (fun p : Parser => p.classes = [] ∧ ∃ n, p.lexer = Lexer.after n (NewLexer r))
    (by
      intro q hq _ _
      obtain ⟨hq, n, hn⟩ := hq
      exact ⟨hq, n + 1, by rw [after_succ, ← hn]; rfl⟩)
    (by
      intro q k v hq _
      obtain ⟨hq, n, hn⟩ := hq
      exact ⟨hq, n + 1, by rw [after_succ, ← hn]⟩)
    fuel _ p ⟨rfl, 1, rfl⟩ hloop
  obtain ⟨p1, ⟨hc, n, hn⟩, _, hb⟩ := key
  exact ⟨p1, n, hc, hn, hb⟩

theorem Reachable_namesFrom (r : Scanner) (p : Parser) (h : Reachable r p) :
    (∃ n, p.lexer = Lexer.after n (NewLexer r)) ∧ NamesAll (NamesFromLine r p) p.classes := by
  induction h with
  | header fuel p hp =>
    obtain ⟨p1, n, hc, hn, hb⟩ := header_position r fuel p hp
    obtain ⟨h1, h2⟩ := dispatch_namesFrom r p1
      { p1 with lexer := p1.lexer.NextToken.2, currentTok := p1.lexer.NextToken.1 } p n hn
      (by rw [hc]; intro c hc; simp at hc) rfl rfl rfl rfl hb
    exact ⟨⟨n + 1, h1⟩, h2⟩
  | step p q _ _ hq ih =>
    obtain ⟨⟨n, hn⟩, hw⟩ := ih
    obtain ⟨h1, h2⟩ := dispatch_namesFrom r p
      (Parser.adjustStack { p with lexer := p.lexer.NextToken.2, currentTok := p.lexer.NextToken.1 }
        p.lexer.NextToken.1.Indent) q n hn hw rfl rfl rfl rfl hq
    exact ⟨⟨n + 1, h1⟩, h2⟩

/-! ## The claims -/

/-! ### C1 -/

/-- C1 (as stated, refuted): the header `tiny\t1\t0\tnsA\tnsB` followed by
    the class line `c`, `A1` and a name of 65536 characters `x`, a line whose
    fields are free of tab, CR and LF. The line does not fit the scanner's
    buffer: the scanner fails with `token too long`, hands out the first
    65536 bytes of the line on the next call and then fails for good, and
    `Parse` exhausts every budget of `NextToken` calls: it returns neither a
    mapping nor an error list. -/
theorem C1_counterexample_long_class_line :
    readerOf (str "tiny\t1\t0\tnsA\tnsB" ++
        '\n' :: (str "c\tA1\t" ++ List.replicate 65536 'x' ++ str "\n")) =
      ⟨[str "tiny\t1\t0\tnsA\tnsB"], some (str "bufio.Scanner: token too long"),
        [str "c\tA1\t" ++ List.replicate 65531 'x']⟩ ∧
    ∀ fuel : Nat,
      Parser.Parse fuel (NewParser
          (readerOf (str "tiny\t1\t0\tnsA\tnsB" ++
            '\n' :: (str "c\tA1\t" ++ List.replicate 65536 'x' ++ str "\n")))) =
        .error Fault.outOfFuel :=
  ⟨(long_class_line_run 65536 (by decide) 0).1,
   fun fuel => (long_class_line_run 65536 (by decide) fuel).2⟩

/-- C1 (amended): an input text made of a header line `tiny`, `M`, `m`,
    `ns1 … nsk` (tab-separated, `k ≥ 2`, the version fields being read by
    `strconv.Atoi` as `M` and `m`) and `n ≥ 0` class lines `c`, `f1 … fk`,
    the lines separated by line feeds and the last one followed by a line
    feed or by nothing, all fields free of tab, CR and LF and every line
    shorter than 65536 bytes, is delivered by the scanner line by line
    without a failure, and `Parse` returns on it: no error, and a mapping
    with the versions `M` and `m`, the namespaces `ns1 … nsk`, and exactly
    the `n` classes in source order, the i-th named `f1 … fk` of its line,
    without comments, fields or methods. -/
theorem C1_header_and_class_lines (M m : Int) (sM sm : Str) (nss : List Str)
    (cls : List (List Str)) (tail : Str) (fuel : Nat)
    (hM : Atoi sM = ⟨M, true⟩) (hm : Atoi sm = ⟨m, true⟩)
    (hk : 2 ≤ nss.length) (hns : ∀ ns ∈ nss, '\t' ∉ ns ∧ '\n' ∉ ns ∧ '\r' ∉ ns)
    (hcls : ∀ fs ∈ cls, fs.length = nss.length ∧ ∀ f ∈ fs, '\t' ∉ f ∧ '\n' ∉ f ∧ '\r' ∉ f)
    (hshort : ∀ l ∈ Join (str "tiny" :: sM :: sm :: nss) (str "\t") ::
        cls.map (fun fs => Join (str "c" :: fs) (str "\t")), byteLen l < MaxScanTokenSize)
    (htail : tail = [] ∨ tail = str "\n")
    (hfuel : cls.length + 1 ≤ fuel) :
    readerOf (Join (Join (str "tiny" :: sM :: sm :: nss) (str "\t") ::
        cls.map (fun fs => Join (str "c" :: fs) (str "\t"))) (str "\n") ++ tail) =
      ⟨Join (str "tiny" :: sM :: sm :: nss) (str "\t") ::
        cls.map (fun fs => Join (str "c" :: fs) (str "\t")), none, []⟩ ∧
    ∃ out,
      Parser.Parse fuel (NewParser (readerOf
        (Join (Join (str "tiny" :: sM :: sm :: nss) (str "\t") ::
          cls.map (fun fs => Join (str "c" :: fs) (str "\t"))) (str "\n") ++ tail))) = .ok out ∧
      out.errors = [] ∧
      out.mapping = some
        { Metadata := { MajorVersion := M, MinorVersion := m, Namespaces := nss,
                        Properties := [], GlobalComments := [] },
          Classes := cls.map (fun fs => { Names := fs, Comments := [], Fields := [], Methods := [] }) } := by
  have hclean : ∀ l ∈ Join (str "tiny" :: sM :: sm :: nss) (str "\t") ::
      cls.map (fun fs => Join (str "c" :: fs) (str "\t")), '\n' ∉ l ∧ '\r' ∉ l ∧ l ≠ [] := by
    intro l hl
    have hM' := Atoi_ok_clean _ _ hM
    have hm' := Atoi_ok_clean _ _ hm
    have hfields : ∃ f0 fields, l = Join (f0 :: fields) (str "\t") ∧ f0 ≠ [] ∧
        ∀ f ∈ f0 :: fields, '\n' ∉ f ∧ '\r' ∉ f := by
      simp only [List.mem_cons, List.mem_map] at hl
      rcases hl with rfl | ⟨fs, hfs, rfl⟩
      · refine ⟨str "tiny", sM :: sm :: nss, rfl, by decide, ?_⟩
        intro f hf
        simp only [List.mem_cons] at hf
        rcases hf with rfl | rfl | rfl | hf
        · exact ⟨by decide, by decide⟩
        · exact ⟨hM'.2.1, hM'.2.2⟩
        · exact ⟨hm'.2.1, hm'.2.2⟩
        · exact ⟨(hns f hf).2.1, (hns f hf).2.2⟩
      · refine ⟨str "c", fs, rfl, by decide, ?_⟩
        intro f hf
        simp only [List.mem_cons] at hf
        rcases hf with rfl | hf
        · exact ⟨by decide, by decide⟩
        · exact ⟨((hcls fs hfs).2 f hf).2.1, ((hcls fs hfs).2 f hf).2.2⟩
    obtain ⟨f0, fields, rfl, hf0, hall⟩ := hfields
    refine ⟨?_, ?_, ?_⟩
    · intro hc
      rcases mem_Join _ _ _ hc with h | ⟨f, hf, h⟩
      · revert h; decide
      · exact (hall f hf).1 h
    · intro hc
      rcases mem_Join _ _ _ hc with h | ⟨f, hf, h⟩
      · revert h; decide
      · exact (hall f hf).2 h
    · cases f0 with
      | nil => exact absurd rfl hf0
      | cons c cs => cases fields <;> simp [Join]
  have hr := readerOf_lines _ tail (by simp) (fun l hl => (hclean l hl).1)
    (fun l hl => (hclean l hl).2.1) hshort
    (fun h => (hclean _ (List.mem_of_getLast?_eq_some h)).2.2 rfl) htail
  refine ⟨hr, ?_⟩
  rw [hr]
  exact Parse_header_class_lines M m sM sm nss cls fuel hM hm hk (fun ns h => (hns ns h).1)
    (fun fs h => ⟨(hcls fs h).1, fun f hf => ((hcls fs h).2 f hf).1⟩) hfuel

/-- Witness for C1: the text `tiny\t1\t0\tnsA\tnsB\nc\tA1\tB1\n`. -/
theorem C1_header_and_class_lines_witness :
    Join (Join (str "tiny" :: str "1" :: str "0" :: [str "nsA", str "nsB"]) (str "\t") ::
        [[str "A1", str "B1"]].map (fun fs => Join (str "c" :: fs) (str "\t"))) (str "\n") ++
      str "\n" = str "tiny\t1\t0\tnsA\tnsB\nc\tA1\tB1\n" ∧
    ∃ out,
      Parser.Parse 2 (NewParser (readerOf
        (Join (Join (str "tiny" :: str "1" :: str "0" :: [str "nsA", str "nsB"]) (str "\t") ::
          [[str "A1", str "B1"]].map (fun fs => Join (str "c" :: fs) (str "\t"))) (str "\n") ++
            str "\n"))) = .ok out ∧
      out.errors = [] ∧
      out.mapping = some
        { Metadata := { MajorVersion := 1, MinorVersion := 0, Namespaces := [str "nsA", str "nsB"],
                        Properties := [], GlobalComments := [] },
          Classes := [[str "A1", str "B1"]].map
            (fun fs => { Names := fs, Comments := [], Fields := [], Methods := [] }) } :=
  ⟨by decide,
   (C1_header_and_class_lines 1 0 (str "1") (str "0") [str "nsA", str "nsB"]
     [[str "A1", str "B1"]] (str "\n") 2 (by decide) (by decide) (by decide) (by decide)
     (by decide) (by decide) (Or.inr rfl) (by decide)).2⟩

/-! ### C2 -/

/-- C2: in every mapping that `Parse` returns, each class, field, method,
    parameter and local variable has exactly as many names as the header
    declares namespaces, and its name list is what `parseNames` makes of the
    name fields of a line of the input of the node's own kind (the fields
    after the identifier for a class, after the descriptor or index for a
    field, method or parameter, after the three numbers for a local
    variable). Names never change once a node exists: each dispatch of a
    token leaves every node of the tree in its place with the names it had,
    so the names a node has at any state of the loop are the names it has in
    the state the loop ends in. Each node is created with the names that
    `parseNames` makes of the name fields of its line; that list has one
    entry per namespace, holding at position `i` the (gated) unescaping of
    the `i`-th name field when the line has one and the empty string
    otherwise, so that fields beyond the namespace count are dropped. -/
theorem C2_names_sized_per_namespace (r : Scanner) (fuel : Nat) (out : ParseOutcome) (m : Mapping)
    (h : Parser.Parse fuel (NewParser r) = .ok out) (hm : out.mapping = some m) :
    WellSized m.Metadata.Namespaces.length m.Classes ∧
    NamesAll (NamesFromLine r out.parser) m.Classes ∧
    (∀ (fuel2 : Nat) (p : Parser), Parser.parseLoop fuel2 p = .ok out.parser →
      ∀ (e : Element) (names : List Str),
        namesOf p.classes e = some names → namesOf m.Classes e = some names) ∧
    (∀ (p : Parser) (tok : Token) (q : Parser), Parser.parseBody p tok = .ok q →
      ∀ (e : Element) (names : List Str),
        namesOf p.classes e = some names → namesOf q.classes e = some names) ∧
    (∀ (p : Parser) (tok : Token) (q : Parser),
      Parser.parseBody p tok = .ok q → q.errors = p.errors →
      (tok.Typ = TokenClass → q.classes = p.classes ++
        [{ Names := p.parseNames (p.currentTok.Parts.drop 1), Comments := [] }]) ∧
      (tok.Typ = TokenField → ∃ ci d, q.classes = updateClass p.classes ci
        (fun c => { c with Fields := c.Fields ++
          [{ Descriptor := d, Names := p.parseNames (p.currentTok.Parts.drop 2),
             Comments := [] }] })) ∧
      (tok.Typ = TokenMethod → ∃ ci d, q.classes = updateClass p.classes ci
        (fun c => { c with Methods := c.Methods ++
          [{ Descriptor := d, Names := p.parseNames (p.currentTok.Parts.drop 2),
             Comments := [] }] })) ∧
      (tok.Typ = TokenParameter → ∃ ci mi idx, q.classes = updateMethod p.classes ci mi
        (fun m => { m with Parameters := m.Parameters ++
          [{ Index := idx, Names := p.parseNames (p.currentTok.Parts.drop 2),
             Comments := [] }] })) ∧
      (tok.Typ = TokenLocalVariable → ∃ ci mi i1 i2 i3, q.classes = updateMethod p.classes ci mi
        (fun m => { m with LocalVars := m.LocalVars ++
          [{ Index := i1, StartOffset := i2, LvtIndex := i3,
             Names := p.parseNames (p.currentTok.Parts.drop 4), Comments := [] }] }))) ∧
    (∀ (p : Parser) (parts : List Str),
      (p.parseNames parts).length = p.metadata.Namespaces.length ∧
      (∀ i, i < p.metadata.Namespaces.length →
        (p.parseNames parts)[i]? =
          some (if i < parts.length then p.unescape (parts.getD i []) else [])) ∧
      (∀ i, p.metadata.Namespaces.length ≤ i → (p.parseNames parts)[i]? = none)) := by
  obtain ⟨hreach, rfl, _⟩ := Parse_reachable r fuel out m h hm
  refine ⟨Reachable_wellSized r _ hreach, (Reachable_namesFrom r _ hreach).2, ?_, ?_,
    parseBody_created, ?_⟩
  · intro fuel2 p hp e names hn
    exact namesOf_of_keeps _ _ (parseLoop_keeps fuel2 p _ hp) e names hn
  · intro p tok q hq e names hn
    exact namesOf_of_keeps _ _ (parseBody_keeps p tok q hq) e names hn
  · intro p parts
    refine ⟨parseNames_length p parts, ?_, ?_⟩
    · intro i hi
      simp [parseNames_eq, hi]
    · intro i hi
      simp [parseNames_eq, hi]

/-- Witness for C2: the mapping that `Parse` returns on `commentReader`. The
    class of line 2 has in it the names `A1` and `B1` that it had before the
    two comment lines were read. -/
theorem C2_names_sized_per_namespace_witness :
    Parser.parseLoop 3 classOpenBeforeComment = .ok commentRunEnd ∧
    namesOf commentRunEnd.classes (Element.Class 0) = some [str "A1", str "B1"] ∧
    WellSized 2 commentRunEnd.classes ∧
    NamesAll (NamesFromLine commentReader commentRunEnd) commentRunEnd.classes := by
  have hrun : Parser.Parse 5 (NewParser commentReader) = .ok
      { mapping := some { Metadata := commentRunEnd.metadata, Classes := commentRunEnd.classes },
        errors := [], parser := commentRunEnd } := by decide
  have hloop : Parser.parseLoop 3 classOpenBeforeComment = .ok commentRunEnd := by decide
  have t := C2_names_sized_per_namespace commentReader 5 _ _ hrun rfl
  exact ⟨hloop, t.2.2.1 3 classOpenBeforeComment hloop (Element.Class 0) _ rfl, t.1, t.2.1⟩

/-! ### C3 -/

/-- C3: the stack-scoping law. In the header phase the one token that is
    dispatched has depth 0 and meets an empty scope stack. In the loop of
    `Parse`, when a token of depth `d` is dispatched every frame left on the
    stack has an indent below `d`; and when a Field or Method token is
    attached without error, the stack is exactly one Class frame of indent
    `0 = d - 1` and the node is appended to that class, while a Parameter or
    LocalVariable token is appended to the Method whose frame, of indent
    `1 = d - 1`, is the top of the stack. -/
theorem C3_stack_scoping (r : Scanner) (p : Parser) (hreach : Reachable r p) :
    (∀ fuel p1, Parser.parseHeader fuel
        { NewParser r with lexer := (NewParser r).lexer.NextToken.2 }
        (NewParser r).lexer.NextToken.1 = .ok (p1, false) →
      ∃ q0 t, q0.stack = [] ∧ q0.currentTok = t ∧ t.Indent = 0 ∧ Parser.parseBody q0 t = .ok p1) ∧
    (∀ f ∈ (Parser.adjustStack
        { p with lexer := p.lexer.NextToken.2, currentTok := p.lexer.NextToken.1 }
        p.lexer.NextToken.1.Indent).stack, f.indent < p.lexer.NextToken.1.Indent) ∧
    (∀ q', Parser.loopBody { p with lexer := p.lexer.NextToken.2 } p.lexer.NextToken.1 = .ok q' →
      q'.errors = p.errors →
      ((p.lexer.NextToken.1.Typ = TokenField ∨ p.lexer.NextToken.1.Typ = TokenMethod) →
        ∃ top ci, (Parser.adjustStack
            { p with lexer := p.lexer.NextToken.2, currentTok := p.lexer.NextToken.1 }
            p.lexer.NextToken.1.Indent).stack.getLast? = some top ∧
          top.indent = p.lexer.NextToken.1.Indent - 1 ∧ top.indent = 0 ∧
          top.element = Element.Class ci ∧
          ((p.lexer.NextToken.1.Typ = TokenField ∧ ∃ fld, q'.classes =
              updateClass p.classes ci (fun c => { c with Fields := c.Fields ++ [fld] })) ∨
           (p.lexer.NextToken.1.Typ = TokenMethod ∧ ∃ mth, q'.classes =
              updateClass p.classes ci (fun c => { c with Methods := c.Methods ++ [mth] })))) ∧
      ((p.lexer.NextToken.1.Typ = TokenParameter ∨
          p.lexer.NextToken.1.Typ = TokenLocalVariable) →
        ∃ top ci mi, (Parser.adjustStack
            { p with lexer := p.lexer.NextToken.2, currentTok := p.lexer.NextToken.1 }
            p.lexer.NextToken.1.Indent).stack.getLast? = some top ∧
          top.indent = p.lexer.NextToken.1.Indent - 1 ∧ top.indent = 1 ∧
          top.element = Element.Method ci mi ∧
          ((p.lexer.NextToken.1.Typ = TokenParameter ∧ ∃ prm, q'.classes =
              updateMethod p.classes ci mi
                (fun m => { m with Parameters := m.Parameters ++ [prm] })) ∨
           (p.lexer.NextToken.1.Typ = TokenLocalVariable ∧ ∃ lv, q'.classes =
              updateMethod p.classes ci mi
                (fun m => { m with LocalVars := m.LocalVars ++ [lv] }))))) := by
  have hs := Reachable_shape r p hreach
  have ha := adjustStack_shape
    { p with lexer := p.lexer.NextToken.2, currentTok := p.lexer.NextToken.1 }
    p.lexer.NextToken.1.Indent hs
  refine ⟨fun fuel p1 h => parseHeader_dispatch fuel _ _ p1 rfl h, ha.2, ?_⟩
  intro q' hq' hok
  have hat := parseBody_attach _ _ q' ha.1 ha.2 hq' hok
  constructor
  · rintro (hty | hty)
    · obtain ⟨hind, ci, fld, hst, hcl⟩ := hat.1 hty
      have hind' : p.lexer.NextToken.1.Indent = 1 := hind
      refine ⟨⟨0, Element.Class ci⟩, ci, by rw [hst]; rfl, by simp [hind'], rfl, rfl,
        Or.inl ⟨hty, fld, hcl⟩⟩
    · obtain ⟨hind, ci, mth, hst, hcl⟩ := hat.2.1 hty
      have hind' : p.lexer.NextToken.1.Indent = 1 := hind
      refine ⟨⟨0, Element.Class ci⟩, ci, by rw [hst]; rfl, by simp [hind'], rfl, rfl,
        Or.inr ⟨hty, mth, hcl⟩⟩
  · rintro (hty | hty)
    · obtain ⟨hind, ci, cj, mi, prm, hst, hcl⟩ := hat.2.2.1 hty
      have hind' : p.lexer.NextToken.1.Indent = 2 := hind
      refine ⟨⟨1, Element.Method cj mi⟩, cj, mi, by rw [hst]; rfl, by simp [hind'], rfl, rfl,
        Or.inl ⟨hty, prm, hcl⟩⟩
    · obtain ⟨hind, ci, cj, mi, lv, hst, hcl⟩ := hat.2.2.2 hty
      have hind' : p.lexer.NextToken.1.Indent = 2 := hind
      refine ⟨⟨1, Element.Method cj mi⟩, cj, mi, by rw [hst]; rfl, by simp [hind'], rfl, rfl,
        Or.inr ⟨hty, lv, hcl⟩⟩

/-- Witness for C3: on `scenarioReader` the header phase leaves the class of
    line 2 open; the method line that follows is attached to that class,
    whose frame is the top of the stack at indent `0 = 1 - 1`. -/
theorem C3_stack_scoping_witness :
    Reachable scenarioReader classOpenParser ∧
    ∃ top ci, (Parser.adjustStack
        { classOpenParser with lexer := classOpenParser.lexer.NextToken.2,
                               currentTok := classOpenParser.lexer.NextToken.1 }
        classOpenParser.lexer.NextToken.1.Indent).stack.getLast? = some top ∧
      top.indent = classOpenParser.lexer.NextToken.1.Indent - 1 ∧ top.indent = 0 ∧
      top.element = Element.Class ci ∧
      ((classOpenParser.lexer.NextToken.1.Typ = TokenField ∧ ∃ fld, methodOpenParser.classes =
          updateClass classOpenParser.classes ci
            (fun c => { c with Fields := c.Fields ++ [fld] })) ∨
       (classOpenParser.lexer.NextToken.1.Typ = TokenMethod ∧ ∃ mth, methodOpenParser.classes =
          updateClass classOpenParser.classes ci
            (fun c => { c with Methods := c.Methods ++ [mth] }))) :=
  ⟨Reachable.header 5 classOpenParser (by decide),
   ((C3_stack_scoping scenarioReader classOpenParser
      (Reachable.header 5 classOpenParser (by decide))).2.2 methodOpenParser
      (by decide) (by decide)).1 (Or.inr (by decide))⟩

/-! ### C4 -/

/-- C4 (evaluated on the code): a line holding only `f`, or only `m`, at depth
    1 under a class, and a line holding only `p` at depth 2 under a method,
    each end `Parse` with an index-out-of-range panic instead of an error
    record. -/
theorem C4_lone_identifier_panics :
    Parser.Parse 10 (NewParser (readerOf (str "tiny\t1\t0\tnsA\tnsB\nc\tA1\tB1\n\tf\n")))
      = .error Fault.indexOutOfRange ∧
    Parser.Parse 10 (NewParser (readerOf (str "tiny\t1\t0\tnsA\tnsB\nc\tA1\tB1\n\tm\n")))
      = .error Fault.indexOutOfRange ∧
    Parser.Parse 10 (NewParser (readerOf
        (str "tiny\t1\t0\tnsA\tnsB\nc\tA1\tB1\n\tm\t()V\ta\tb\n\t\tp\n")))
      = .error Fault.indexOutOfRange := by
  decide

/-! ### C5 -/

/-- C5: when the first line of the input is not accepted as a header by the
    lexer (it does not start with `tiny` and a tab, or it splits into fewer
    than 5 fields), `Parse` returns a nil mapping and exactly one error, and
    the lexer has consumed exactly that one line. -/
theorem C5_rejected_header_is_fatal (line : Str) (rest : List Str) (err : Option Str) (buf : List Str) (fuel : Nat)
    (hbad : HasPrefix line (str "tiny\t") = false ∨ (Split line '\t').length < 5) :
    ∃ out, Parser.Parse fuel (NewParser ⟨line :: rest, err, buf⟩) = .ok out ∧
      out.mapping = none ∧
      out.errors = [{ Line := 0, Message := (str "missing header") }] ∧
      out.errors.length = 1 ∧
      out.parser.lexer.reader.lines = rest ∧
      out.parser.lexer.lineNumber = 1 := by
  rcases hbad with h | h
  · simp [Parser.Parse, NewParser, NewLexer, Lexer.NextToken, Scanner.Scan, Lexer.parseHeader, h,
      Lexer.errorToken, Parser.parseHeader, Parser.addError, bind, Except.bind, pure, Except.pure]
  · by_cases h2 : HasPrefix line (str "tiny\t") = false
    · simp [Parser.Parse, NewParser, NewLexer, Lexer.NextToken, Scanner.Scan, Lexer.parseHeader, h2,
        Lexer.errorToken, Parser.parseHeader, Parser.addError, bind, Except.bind, pure, Except.pure]
    · simp at h2
      simp [Parser.Parse, NewParser, NewLexer, Lexer.NextToken, Scanner.Scan, Lexer.parseHeader, h2,
        h, Separator,
        Lexer.errorToken, Parser.parseHeader, Parser.addError, bind, Except.bind, pure, Except.pure]

/-- Witness for C5: the input `nottiny` followed by a line feed. -/
theorem C5_rejected_header_is_fatal_witness :
    ∃ out, Parser.Parse 0 (NewParser ⟨(str "nottiny") :: [], none, []⟩) = .ok out ∧
      out.mapping = none ∧
      out.errors = [{ Line := 0, Message := (str "missing header") }] ∧
      out.errors.length = 1 ∧
      out.parser.lexer.reader.lines = [] ∧
      out.parser.lexer.lineNumber = 1 :=
  C5_rejected_header_is_fatal (str "nottiny") [] none [] 0 (Or.inl (by decide))

/-! ### C6 -/

/-- C6 (evaluated on the code): after the header, the property line
    `\tescaped-names\ttrue` and a class line, the parser's property map holds
    the single entry `true ↦ ""`; the key `escaped-names` is absent, so reading
    it gives the empty string and not `true`. -/
theorem C6_property_stored_under_second_field :
    (Parser.Parse 10 (NewParser (readerOf
        (str "tiny\t1\t0\tnsA\tnsB\n\tescaped-names\ttrue\nc\tA1\tB1\n")))).map
      (fun o => o.mapping.map
        (fun m => (m.Metadata.Properties, mapGet m.Metadata.Properties (str "escaped-names"))))
      = .ok (some ([(str "true", [])], [])) := by
  decide

/-! ### C7 -/

/-- C7 (as stated, refuted): after a header and a class line, the depth-1
    line `\tp`, whose first field is neither `f` nor `m`, is recorded as an
    error and no comment is attached to the class. -/
theorem C7_counterexample_parameter_code_at_depth_one :
    (Parser.Parse 10 (NewParser (readerOf (str "tiny\t1\t0\tnsA\tnsB\nc\tA1\tB1\n\tp\n")))).map
      (fun o => (o.errors, o.mapping.map (fun m => m.Classes.map (fun c => c.Comments))))
      = .ok ([{ Line := 3, Message := str "invalid identifier \"p\" at indent 1" }], some [[]]) := by
  decide

/-- C7 (amended): for a header accepted by the lexer, followed by a class
    line and then by a depth-1 line `L` whose text after the single leading
    tab is not empty and whose first field is none of `f`, `m`, `p`, `v`,
    `Parse` continues after `L` from the state `commentedClassParser`: no
    error has been recorded for `L` (the errors are those of the header), no
    field and no method has been created, and the class's comments are
    exactly the one string `L` without its leading tab. When the input ends
    after `L`, that state is the result. -/
theorem C7_comment_line_attaches_to_class (h : Str) (names : List Str) (rest : Str)
    (more : List Str) (err : Option Str) (buf : List Str) (fuel : Nat)
    (hpre : HasPrefix h (str "tiny\t") = true) (hlen : 5 ≤ (Split h '\t').length)
    (hnames : ∀ f ∈ names, '\t' ∉ f)
    (hne : rest ≠ []) (hhead : rest.head? ≠ some '\t')
    (hx : (Split rest '\t').headD [] ∉ [str "f", str "m", str "p", str "v"]) :
    Parser.Parse (fuel + 1) (NewParser
        ⟨h :: Join (str "c" :: names) (str "\t") :: ('\t' :: rest) :: more, err, buf⟩) =
      (match Parser.parseLoop fuel (commentedClassParser h names rest more err buf) with
       | .error e => .error e
       | .ok p => .ok { mapping := some { Metadata := p.metadata, Classes := p.classes },
                        errors := p.errors, parser := p }) ∧
    Parser.Parse (fuel + 2) (NewParser
        ⟨[h, Join (str "c" :: names) (str "\t"), '\t' :: rest], none, []⟩) =
      .ok { mapping := some
              { Metadata := (headerParser h [] none []).metadata,
                Classes := [{ Names := (headerParser h [] none []).parseNames names,
                              Comments := [rest], Fields := [], Methods := [] }] },
            errors := (headerParser h [] none []).errors,
            parser := commentedClassParser h names rest [] none [] } := by
  have key : ∀ (k : Nat) (more : List Str) (err : Option Str) (buf : List Str),
      Parser.Parse (k + 1) (NewParser
        ⟨h :: Join (str "c" :: names) (str "\t") :: ('\t' :: rest) :: more, err, buf⟩) =
      (match Parser.parseLoop k (commentedClassParser h names rest more err buf) with
       | .error e => .error e
       | .ok p => .ok { mapping := some { Metadata := p.metadata, Classes := p.classes },
                        errors := p.errors, parser := p }) := by
    intro k more err buf
    rw [Parse_header_eq _ _ _ _ _ hpre hlen]
    rw [parseHeaderLoop_classLine_eq k _ names (('\t' :: rest) :: more) rfl rfl hnames]
    simp only []
    rw [parseLoop_comment_step k _ rest more (Element.Class 0) rfl rfl rfl hne hhead hx]
    rfl
  refine ⟨key fuel more err buf, ?_⟩
  rw [key (fuel + 1) [] none, parseLoop_eof fuel _ rfl rfl]
  rfl

/-- Witness for C7: the class line `c\tA1\tB1` followed by `\tcomment text`. -/
theorem C7_comment_line_attaches_to_class_witness :
    Parser.Parse (0 + 2) (NewParser
        ⟨[str "tiny\t1\t0\tnsA\tnsB", Join (str "c" :: [str "A1", str "B1"]) (str "\t"),
          '\t' :: str "comment text"], none, []⟩) =
      .ok { mapping := some
              { Metadata := (headerParser (str "tiny\t1\t0\tnsA\tnsB") [] none []).metadata,
                Classes := [{ Names := (headerParser (str "tiny\t1\t0\tnsA\tnsB") [] none []).parseNames
                                [str "A1", str "B1"],
                              Comments := [str "comment text"], Fields := [], Methods := [] }] },
            errors := (headerParser (str "tiny\t1\t0\tnsA\tnsB") [] none []).errors,
            parser := commentedClassParser (str "tiny\t1\t0\tnsA\tnsB") [str "A1", str "B1"]
              (str "comment text") [] none [] } :=
  (C7_comment_line_attaches_to_class (str "tiny\t1\t0\tnsA\tnsB") [str "A1", str "B1"]
    (str "comment text") [] none [] 0 (by decide) (by decide) (by decide) (by decide) (by decide)
    (by decide)).2

/-! ### C8 -/

/-- C8: in body mode, a line with `d` leading tabs and a non-empty remainder
    `rest`, whose first field is `x`, is classified by `NextToken` as Class
    (`c`, depth 0), Field (`f`, 1), Method (`m`, 1), Parameter (`p`, 2) or
    LocalVariable (`v`, 2); as Error with the message
    `invalid identifier "x" at indent d` when `x` is `f`, `m`, `p` or `v` at
    another depth; and as Comment otherwise. A token that is not an Error has
    `Indent = d`, `Parts` the tab-split of `rest`, and the number of its line. -/
theorem C8_body_line_classification (l : Lexer) (d : Nat) (rest : Str) (ls : List Str)
    (hstate : l.state = stateInBody)
    (hlines : l.reader.lines = (List.replicate d '\t' ++ rest) :: ls)
    (hne : rest ≠ []) (hhead : rest.head? ≠ some '\t') :
    (((Split rest '\t').headD [] = ['c'] ∧ d = 0) → l.NextToken.1.Typ = TokenClass) ∧
    (((Split rest '\t').headD [] = ['f'] ∧ d = 1) → l.NextToken.1.Typ = TokenField) ∧
    (((Split rest '\t').headD [] = ['m'] ∧ d = 1) → l.NextToken.1.Typ = TokenMethod) ∧
    (((Split rest '\t').headD [] = ['p'] ∧ d = 2) → l.NextToken.1.Typ = TokenParameter) ∧
    (((Split rest '\t').headD [] = ['v'] ∧ d = 2) → l.NextToken.1.Typ = TokenLocalVariable) ∧
    (((((Split rest '\t').headD [] = ['f'] ∨ (Split rest '\t').headD [] = ['m']) ∧ d ≠ 1) ∨
      (((Split rest '\t').headD [] = ['p'] ∨ (Split rest '\t').headD [] = ['v']) ∧ d ≠ 2)) →
        l.NextToken.1.Typ = TokenError ∧
        l.NextToken.1.Error = (str "invalid identifier ") ++ fmtQuote ((Split rest '\t').headD [])
          ++ (str " at indent ") ++ fmtInt d) ∧
    ((((Split rest '\t').headD [] = ['c'] ∧ 0 < d) ∨
      ((Split rest '\t').headD [] ∉ [['c'], ['f'], ['m'], ['p'], ['v']])) →
        l.NextToken.1.Typ = TokenComment) ∧
    (l.NextToken.1.Typ ≠ TokenError →
        l.NextToken.1.Indent = d ∧ l.NextToken.1.Parts = Split rest '\t' ∧
        l.NextToken.1.Line = l.lineNumber + 1) := by
  rw [NextToken_body l _ ls hstate hlines]
  simp only [parseBodyLine_tabs _ d rest hne hhead]
  generalize (Split rest '\t').headD [] = x
  refine ⟨?_, ?_, ?_, ?_, ?_, ?_, ?_, ?_⟩
  · rintro ⟨rfl, rfl⟩; simp [identifierType]
  · rintro ⟨rfl, rfl⟩; simp [identifierType]
  · rintro ⟨rfl, rfl⟩; simp [identifierType]
  · rintro ⟨rfl, rfl⟩; simp [identifierType]
  · rintro ⟨rfl, rfl⟩; simp [identifierType]
  · rintro (⟨rfl | rfl, hd⟩ | ⟨rfl | rfl, hd⟩)
    all_goals
      have hd1 : (d : Int) ≠ 1 ∨ (d : Int) ≠ 2 := by omega
      first
        | (have hd2 : (d : Int) ≠ 1 := by exact_mod_cast hd
           simp [identifierType, Lexer.errorToken, ErrInvalidIdentifier, hd2])
        | (have hd2 : (d : Int) ≠ 2 := by exact_mod_cast hd
           simp [identifierType, Lexer.errorToken, ErrInvalidIdentifier, hd2])
  · rintro (⟨rfl, hd⟩ | hx)
    · have : (d : Int) ≠ 0 := by omega
      simp [identifierType, this]
    · simp at hx
      simp [identifierType, hx]
  · intro h
    by_cases hT : identifierType x d = TokenError
    · simp [hT, Lexer.errorToken] at h
    · simp [hT]

/-- Witness for C8: the parameter line `\t\tp\t0\tx` read in body mode. -/
theorem C8_body_line_classification_witness :
    (Lexer.NextToken { reader := ⟨[(str "\t\tp\t0\tx")], none, []⟩, state := stateInBody }).1.Typ
      = TokenParameter :=
  (C8_body_line_classification
    { reader := ⟨[(str "\t\tp\t0\tx")], none, []⟩, state := stateInBody } 2 (str "p\t0\tx") []
    rfl rfl (by decide) (by decide)).2.2.2.1 ⟨by decide, rfl⟩

/-! ### C9 -/

/-- C9 (as stated, refuted): under a method, the line `\t\tv\t0\t1\t2`, with
    three integer fields and no name, is accepted: no error is recorded and a
    local variable with empty names is appended to the method. -/
theorem C9_counterexample_three_fields_accepted :
    (Parser.Parse 10 (NewParser (readerOf
        (str "tiny\t1\t0\tnsA\tnsB\nc\tA1\tB1\n\tm\t()V\ta\tb\n\t\tv\t0\t1\t2\n")))).map
      (fun o => (o.errors,
        o.mapping.map (fun m => m.Classes.map (fun c => c.Methods.map (fun x => x.LocalVars)))))
      = .ok ([], some [[[{ Index := 0, StartOffset := 1, LvtIndex := 2, Names := [[], []],
                           Comments := [] }]]]) := by
  decide

/-- C9 (amended): a depth-2 local-variable line whose current parent is a
    method and which has fewer than 3 fields after the identifier `v` (fewer
    than 4 fields in all) is recorded as the error
    `invalid local variable format` on its line, and the tree is left as it
    was: no local variable is appended. -/
theorem C9_short_local_variable_rejected (p : Parser) (fields : List Str) (ls : List Str)
    (ci mi : Nat)
    (hstate : p.lexer.state = stateInBody)
    (hlines : p.lexer.reader.lines = (str "\t\t" ++ Join (str "v" :: fields) (str "\t")) :: ls)
    (htab : ∀ f ∈ fields, '\t' ∉ f) (hshort : fields.length < 3)
    (hparent : (p.adjustStack 2).getCurrentParent = some (Element.Method ci mi)) :
    p.lexer.NextToken.1.Typ = TokenLocalVariable ∧
    Parser.loopBody { p with lexer := p.lexer.NextToken.2 } p.lexer.NextToken.1 =
      .ok { p with
            lexer := { p.lexer with reader := { p.lexer.reader with lines := ls },
                                    lineNumber := p.lexer.lineNumber + 1 },
            currentTok := { Typ := TokenLocalVariable, Indent := 2, Parts := str "v" :: fields,
                            Line := p.lexer.lineNumber + 1 },
            stack := (p.adjustStack 2).stack,
            errors := p.errors ++
              [{ Line := p.lexer.lineNumber + 1, Message := str "invalid local variable format" }] } := by
  have hNT := NextToken_body p.lexer _ ls hstate hlines
  rw [parseBodyLine_localVariable _ fields htab] at hNT
  rw [hNT]
  refine ⟨rfl, ?_⟩
  have hlen : (str "v" :: fields).length < 4 := by simp; omega
  simp only [Parser.loopBody, Parser.parseBody, Parser.parseLocalVariable, Parser.adjustStack,
    Parser.getCurrentParent] at hparent ⊢
  rw [hparent]
  simp only [List.length_cons] at hlen
  simp [hlen, Parser.addError]

/-- Witness for C9: the line `\t\tv\t0\t1` read in the state that the header
    `tiny\t1\t0\tnsA\tnsB`, the class line `c\tA1\tB1` and the method line
    `\tm\t()V\ta\tb` leave behind; the whole input parsed by `Parse` yields
    that one error and a method without local variables. -/
theorem C9_short_local_variable_rejected_witness :
    (Parser.loopBody { methodOpenParser with lexer := methodOpenParser.lexer.NextToken.2 }
        methodOpenParser.lexer.NextToken.1 =
      .ok { methodOpenParser with
            lexer := { methodOpenParser.lexer with
                       reader := { methodOpenParser.lexer.reader with lines := [] },
                       lineNumber := methodOpenParser.lexer.lineNumber + 1 },
            currentTok := { Typ := TokenLocalVariable, Indent := 2,
                            Parts := str "v" :: [str "0", str "1"],
                            Line := methodOpenParser.lexer.lineNumber + 1 },
            stack := (methodOpenParser.adjustStack 2).stack,
            errors := methodOpenParser.errors ++
              [{ Line := methodOpenParser.lexer.lineNumber + 1,
                 Message := str "invalid local variable format" }] }) ∧
    (Parser.Parse 10 (NewParser (readerOf
        (str "tiny\t1\t0\tnsA\tnsB\nc\tA1\tB1\n\tm\t()V\ta\tb\n\t\tv\t0\t1\n")))).map
      (fun o => (o.errors,
        o.mapping.map (fun m => m.Classes.map (fun c => c.Methods.map (fun x => x.LocalVars)))))
      = .ok ([{ Line := 4, Message := str "invalid local variable format" }], some [[[]]]) :=
  ⟨(C9_short_local_variable_rejected methodOpenParser [str "0", str "1"] [] 0 0
      rfl rfl (by decide) (by decide) (by decide)).2,
   by decide⟩

/-! ### C10 -/

/-- C10: name unescaping is gated by the property `escaped-names`. When the
    property is absent or empty, `parseNames` stores the name field at each
    position verbatim; when it is present and not empty, it stores the field
    with every backslash-`n` pair replaced by a line feed and nothing else
    changed. -/
theorem C10_unescape_gated_by_property (p : Parser) (parts : List Str) (i : Nat)
    (hi : i < p.metadata.Namespaces.length) (hp : i < parts.length) :
    ((p.metadata.Properties.lookup (str "escaped-names") = none ∨
      p.metadata.Properties.lookup (str "escaped-names") = some []) →
        (p.parseNames parts)[i]? = some parts[i]) ∧
    ((∃ v, p.metadata.Properties.lookup (str "escaped-names") = some v ∧ v ≠ []) →
        (p.parseNames parts)[i]? = some (newlineUnescaped parts[i])) := by
  have hget : parts.getD i [] = parts[i] := by
    simp [List.getD, List.getElem?_eq_getElem hp]
  constructor
  · intro h
    have hm : mapGet p.metadata.Properties (str "escaped-names") = [] := by
      rcases h with h | h <;> simp [mapGet, h]
    simp [parseNames_eq, hi, hp, Parser.unescape, hm, hget]
  · rintro ⟨v, hv, hne⟩
    have hm : mapGet p.metadata.Properties (str "escaped-names") ≠ [] := by
      simp [mapGet, hv, hne]
    simp [parseNames_eq, hi, hp, Parser.unescape, hm, hget, unescapeString_eq]

/-- Witness for C10: with `escaped-names` set to `true`, the field `a\nb`
    (backslash, `n`) is stored with a line feed. -/
theorem C10_unescape_gated_by_property_witness :
    (Parser.parseNames
      { lexer := NewLexer ⟨[], none, []⟩,
        metadata := { Namespaces := [(str "nsA")], Properties := [((str "escaped-names"), (str "true"))] } }
      [(str "a\\nb")])[0]? = some (str "a\nb") :=
  (C10_unescape_gated_by_property
    { lexer := NewLexer ⟨[], none, []⟩,
      metadata := { Namespaces := [(str "nsA")], Properties := [((str "escaped-names"), (str "true"))] } }
    [(str "a\\nb")] 0 (by decide) (by decide)).2 ⟨(str "true"), by decide, by decide⟩



/-! ### C11 -/

/-- C11 (as stated, refuted): the first line `tiny\t1\t0\tns1`, which declares
    exactly one namespace, is not lexed as a Header token but as the Error
    token `header too short`, and `Parse` returns a nil mapping and the one
    error `missing header`. -/
theorem C11_counterexample_single_namespace_rejected :
    (NewLexer (readerOf (str "tiny\t1\t0\tns1\n"))).NextToken.1 =
      { Typ := TokenError, Line := 1, Error := str "header too short" } ∧
    (Parser.Parse 10 (NewParser (readerOf (str "tiny\t1\t0\tns1\n")))).map
      (fun o => (o.mapping, o.errors))
      = .ok (none, [{ Line := 0, Message := str "missing header" }]) := by
  decide

/-- C11 (amended): a header needs at least two namespaces. For tab-free
    fields, the first line `tiny`, `M`, `m`, `ns1` with exactly one namespace
    is lexed as the Error token `header too short` and makes `Parse` return a
    nil mapping with the one error `missing header`; the first line `tiny`,
    `M`, `m`, `ns1`, `ns2 …` with two or more namespaces is lexed as a Header
    token carrying the split fields, `Parse` returns on it when nothing
    follows, and whenever `Parse` returns on an input that starts with it the
    mapping is not nil and its `Namespaces` are `ns1`, `ns2 …`. -/
theorem C11_header_needs_two_namespaces (sM sm ns1 : Str) (nss rest : List Str)
    (err : Option Str) (buf : List Str) (fuel : Nat)
    (hM : '\t' ∉ sM) (hm : '\t' ∉ sm) (h1 : '\t' ∉ ns1) (hns : ∀ ns ∈ nss, '\t' ∉ ns) :
    ((NewLexer ⟨Join [str "tiny", sM, sm, ns1] (str "\t") :: rest, err, buf⟩).NextToken.1 =
        { Typ := TokenError, Line := 1, Error := str "header too short" } ∧
      ∃ out, Parser.Parse fuel (NewParser ⟨Join [str "tiny", sM, sm, ns1] (str "\t") :: rest, err, buf⟩)
          = .ok out ∧
        out.mapping = none ∧ out.errors = [{ Line := 0, Message := str "missing header" }]) ∧
    (nss ≠ [] →
      (NewLexer ⟨Join (str "tiny" :: sM :: sm :: ns1 :: nss) (str "\t") :: rest, err, buf⟩).NextToken.1 =
        { Typ := TokenHeader, Parts := str "tiny" :: sM :: sm :: ns1 :: nss, Line := 1 } ∧
      (∀ out, Parser.Parse fuel
          (NewParser ⟨Join (str "tiny" :: sM :: sm :: ns1 :: nss) (str "\t") :: rest, err, buf⟩) = .ok out →
        ∃ m, out.mapping = some m ∧ m.Metadata.Namespaces = ns1 :: nss) ∧
      ∃ out, Parser.Parse (fuel + 1)
          (NewParser ⟨[Join (str "tiny" :: sM :: sm :: ns1 :: nss) (str "\t")], none, []⟩) = .ok out ∧
        ∃ m, out.mapping = some m ∧ m.Metadata.Namespaces = ns1 :: nss) := by
  have htab : ∀ (l : List Str), (∀ ns ∈ l, '\t' ∉ ns) →
      ∀ f ∈ str "tiny" :: sM :: sm :: ns1 :: l, '\t' ∉ f := by
    intro l hl f hf
    simp only [List.mem_cons] at hf
    rcases hf with rfl | rfl | rfl | rfl | hf
    · decide
    · exact hM
    · exact hm
    · exact h1
    · exact hl f hf
  constructor
  · have hsplit : Split (Join [str "tiny", sM, sm, ns1] (str "\t")) '\t' = [str "tiny", sM, sm, ns1] :=
      Split_Join _ (by simp) (htab [] (by simp))
    have hpre := HasPrefix_tiny [sm, ns1] sM
    constructor
    · simp [NewLexer, Lexer.NextToken, Scanner.Scan, Lexer.parseHeader, hpre, hsplit, Separator,
        Lexer.errorToken, ErrHeaderTooShort]
    · simp [Parser.Parse, NewParser, NewLexer, Lexer.NextToken, Scanner.Scan, Lexer.parseHeader,
        hpre, hsplit, Separator, Lexer.errorToken, Parser.parseHeader, Parser.addError, bind,
        Except.bind, pure, Except.pure]
  · intro hne
    have hsplit : Split (Join (str "tiny" :: sM :: sm :: ns1 :: nss) (str "\t")) '\t' =
        str "tiny" :: sM :: sm :: ns1 :: nss := Split_Join _ (by simp) (htab nss hns)
    have hpre := HasPrefix_tiny (sm :: ns1 :: nss) sM
    have hlen : 5 ≤ (Split (Join (str "tiny" :: sM :: sm :: ns1 :: nss) (str "\t")) '\t').length := by
      rw [hsplit]
      cases nss with
      | nil => exact absurd rfl hne
      | cons a as => simp
    refine ⟨?_, ?_, ?_⟩
    · rw [NextToken_start _ _ rest rfl rfl hpre hlen, hsplit]
      rfl
    · intro out hout
      obtain ⟨_, _, h3, h4, _⟩ := Parse_header_mapping fuel _ rest err buf out hpre hlen hout
      refine ⟨_, h3, ?_⟩
      rw [h4, hsplit]
      rfl
    · rw [Parse_header_eq _ _ _ _ _ hpre hlen]
      rw [parseHeaderLoop_eof fuel _ rfl rfl]
      simp only []
      rw [parseLoop_eof fuel _ rfl rfl]
      refine ⟨_, rfl, _, rfl, ?_⟩
      simp [headerParser, hsplit]

/-- Witness for C11: the fields `1`, `0`, `nsA`, and then `nsB` as the second
    namespace. -/
theorem C11_header_needs_two_namespaces_witness :
    (NewLexer ⟨Join [str "tiny", str "1", str "0", str "nsA"] (str "\t") :: [], none, []⟩).NextToken.1 =
        { Typ := TokenError, Line := 1, Error := str "header too short" } ∧
    (NewLexer ⟨Join (str "tiny" :: str "1" :: str "0" :: str "nsA" :: [str "nsB"]) (str "\t") :: [],
        none, []⟩).NextToken.1 =
      { Typ := TokenHeader, Parts := str "tiny" :: str "1" :: str "0" :: str "nsA" :: [str "nsB"],
        Line := 1 } :=
  ⟨(C11_header_needs_two_namespaces (str "1") (str "0") (str "nsA") [str "nsB"] [] none [] 1
      (by decide) (by decide) (by decide) (by decide)).1.1,
   ((C11_header_needs_two_namespaces (str "1") (str "0") (str "nsA") [str "nsB"] [] none [] 1
      (by decide) (by decide) (by decide) (by decide)).2 (by decide)).1⟩

/-! ### C12 -/

/-- C12: every Comment token that the body dispatch handles comes from a
    line of the input: its `Line` is the 1-based number of that line and its
    fields joined by tabs are the line without its leading tabs.
    In the loop of `Parse`: let a reached state have the Comment token `tok`
    next and let `mid` be the state in which the dispatch handles it (the
    stack adjusted to the token's depth). At depth 0 no frame of the stack
    has indent `tok.Indent - 1`. When no frame has that indent, the
    dispatch changes nothing but `GlobalComments`, to which it appends the
    one string `L`, the decimal line number, `: ` and the text. When a frame
    has that indent, the dispatch changes nothing but the tree (so
    `GlobalComments` is unchanged): the frame's element exists in the tree
    and the text is appended to its `Comments`.
    In the header phase: the one token that `parseHeader` hands to the
    dispatch has depth 0 and meets an empty stack; when it is a Comment
    token, nothing changes but `GlobalComments`, which was empty and now
    holds the one string `L`, the decimal line number, `: ` and the text. -/
theorem C12_comment_attachment (r : Scanner) :
    (∀ (p : Parser) (tok : Token) (mid : Parser),
      Reachable r p → tok = p.lexer.NextToken.1 → tok.Typ = TokenComment →
      mid = Parser.adjustStack { p with lexer := p.lexer.NextToken.2, currentTok := tok } tok.Indent →
    (∃ line ls, p.lexer.reader.lines = line :: ls ∧ (r.lines ++ r.buffered)[tok.Line - 1]? = some line ∧
        tok.Line = p.lexer.lineNumber + 1 ∧ tok.Indent = countIndent line ∧
        Join tok.Parts (str "\t") = TrimLeft line [Separator]) ∧
      (tok.Indent = 0 → ∀ n ∈ mid.stack, n.indent ≠ tok.Indent - 1) ∧
      ((∀ n ∈ mid.stack, n.indent ≠ tok.Indent - 1) →
        Parser.loopBody { p with lexer := p.lexer.NextToken.2 } tok =
          .ok { mid with metadata := { mid.metadata with
                  GlobalComments := mid.metadata.GlobalComments ++
                    [str "L" ++ Nat.toDigits 10 tok.Line ++ str ": " ++ Join tok.Parts (str "\t")] } }) ∧
      (∀ n ∈ mid.stack, n.indent = tok.Indent - 1 →
        Parser.loopBody { p with lexer := p.lexer.NextToken.2 } tok =
          .ok { mid with classes :=
                  Parser.appendComment mid.classes (Join tok.Parts (str "\t")) n.element } ∧
        ∃ old, commentsOf mid.classes n.element = some old ∧
          commentsOf (Parser.appendComment mid.classes (Join tok.Parts (str "\t")) n.element)
            n.element = some (old ++ [Join tok.Parts (str "\t")]))) ∧
    (∀ (fuel : Nat) (p2 : Parser),
      Parser.parseHeader fuel { NewParser r with lexer := (NewParser r).lexer.NextToken.2 }
        (NewParser r).lexer.NextToken.1 = .ok (p2, false) →
      ∃ p1, HeaderPhase r p1 ∧ p1.lexer.NextToken.1.Indent = 0 ∧
        Parser.parseBody { p1 with lexer := p1.lexer.NextToken.2, currentTok := p1.lexer.NextToken.1 } p1.lexer.NextToken.1 = .ok p2 ∧
        (p1.lexer.NextToken.1.Typ = TokenComment →
          (∃ line ls, p1.lexer.reader.lines = line :: ls ∧
            (r.lines ++ r.buffered)[p1.lexer.NextToken.1.Line - 1]? = some line ∧
            p1.lexer.NextToken.1.Line = p1.lexer.lineNumber + 1 ∧ countIndent line = 0 ∧
            Join p1.lexer.NextToken.1.Parts (str "\t") = TrimLeft line [Separator]) ∧
          p1.stack = [] ∧ p1.metadata.GlobalComments = [] ∧
          p2 = { p1 with
                  lexer := p1.lexer.NextToken.2, currentTok := p1.lexer.NextToken.1,
                  metadata := { p1.metadata with
                    GlobalComments := [str "L" ++ Nat.toDigits 10 p1.lexer.NextToken.1.Line ++
                      str ": " ++ Join p1.lexer.NextToken.1.Parts (str "\t")] } })) :=
  ⟨fun p tok mid hreach htok hcom hmid => comment_dispatch_in_loop r p tok mid hreach htok hcom hmid,
   fun fuel p2 h => comment_dispatch_in_header r fuel p2 h⟩

/-- Witness for C12: on `commentReader` the comment of line 3, at depth 1, is
    attached to the class of line 2, whose comments were empty; and `Parse` on
    the raw text attaches `# about A` to the class and records the depth-0
    comment of line 4 as the global comment `L4: # top`; on a text whose
    first line after the header is the comment `# first`, the header phase
    records it as the global comment `L2: # first`. -/
theorem C12_comment_attachment_witness :
    (Parser.loopBody { classOpenBeforeComment with lexer := classOpenBeforeComment.lexer.NextToken.2 }
        classOpenBeforeComment.lexer.NextToken.1 =
      .ok { Parser.adjustStack { classOpenBeforeComment with lexer := classOpenBeforeComment.lexer.NextToken.2, currentTok := classOpenBeforeComment.lexer.NextToken.1 } classOpenBeforeComment.lexer.NextToken.1.Indent with
            classes := Parser.appendComment classOpenBeforeComment.classes
              (Join classOpenBeforeComment.lexer.NextToken.1.Parts (str "\t")) (Element.Class 0) } ∧
      ∃ old, commentsOf classOpenBeforeComment.classes (Element.Class 0) = some old ∧
        commentsOf (Parser.appendComment classOpenBeforeComment.classes
            (Join classOpenBeforeComment.lexer.NextToken.1.Parts (str "\t")) (Element.Class 0))
          (Element.Class 0) =
            some (old ++ [Join classOpenBeforeComment.lexer.NextToken.1.Parts (str "\t")])) ∧
    (Parser.Parse 10 (NewParser (readerOf
        (str "tiny\t1\t0\tnsA\tnsB\nc\tA1\tB1\n\t# about A\n# top\n")))).map
      (fun o => o.mapping.map
        (fun m => (m.Metadata.GlobalComments, m.Classes.map (fun c => c.Comments))))
      = .ok (some ([str "L4: # top"], [[str "# about A"]])) ∧
    (Parser.Parse 10 (NewParser (readerOf
        (str "tiny\t1\t0\tnsA\tnsB\n# first\nc\tA1\tB1\n")))).map
      (fun o => o.mapping.map
        (fun m => (m.Metadata.GlobalComments, m.Classes.map (fun c => c.Comments))))
      = .ok (some ([str "L2: # first"], [[]])) :=
  ⟨((C12_comment_attachment commentReader).1 classOpenBeforeComment _ _
      (Reachable.header 5 _ (by decide)) rfl (by decide) rfl).2.2.2
      ⟨0, Element.Class 0⟩ (by decide) (by decide),
   by decide, by decide⟩

/-! ### C13 -/

/-- C13: a header line with at least 5 fields that starts with `tiny` is
    accepted whatever its version fields hold. `Parse` gives on it the
    outcome that it gives on the same input with a header `line2` of the same
    namespaces and well-formed versions, except that the errors start with
    one error for each version field of `line` that is not an integer
    (`invalid major version`, then `invalid minor version`, on line 0) and
    that the mapping holds the values `Atoi` returned for them. So whenever
    `Parse` returns, the mapping is not nil and its `Namespaces` are the
    fields from position 3 on; and on the header alone `Parse` returns, with
    exactly the version errors. -/
theorem C13_bad_version_is_soft_error (line line2 : Str) (rest : List Str) (err : Option Str) (buf : List Str)
    (fuel : Nat)
    (hpre : HasPrefix line (str "tiny\t") = true) (hlen : 5 ≤ (Split line '\t').length)
    (hpre2 : HasPrefix line2 (str "tiny\t") = true) (hlen2 : 5 ≤ (Split line2 '\t').length)
    (hsame : (Split line2 '\t').drop 3 = (Split line '\t').drop 3)
    (hM2 : (Atoi ((Split line2 '\t').getD 1 [])).ok = true)
    (hm2 : (Atoi ((Split line2 '\t').getD 2 [])).ok = true) :
    Parser.Parse fuel (NewParser ⟨line :: rest, err, buf⟩) =
      (Parser.Parse fuel (NewParser ⟨line2 :: rest, err, buf⟩)).map
        (ParseOutcome.withVersions
          ((if (Atoi ((Split line '\t').getD 1 [])).ok then []
            else [{ Line := 0, Message := str "invalid major version" }]) ++
           (if (Atoi ((Split line '\t').getD 2 [])).ok then []
            else [{ Line := 0, Message := str "invalid minor version" }]))
          (Atoi ((Split line '\t').getD 1 [])).value (Atoi ((Split line '\t').getD 2 [])).value) ∧
    (∀ out, Parser.Parse fuel (NewParser ⟨line :: rest, err, buf⟩) = .ok out →
      ∃ mp tail, out.mapping = some mp ∧ mp.Metadata.Namespaces = (Split line '\t').drop 3 ∧
        out.errors =
          ((if (Atoi ((Split line '\t').getD 1 [])).ok then []
            else [{ Line := 0, Message := str "invalid major version" }]) ++
           (if (Atoi ((Split line '\t').getD 2 [])).ok then []
            else [{ Line := 0, Message := str "invalid minor version" }])) ++ tail) ∧
    (∃ out, Parser.Parse (fuel + 1) (NewParser ⟨[line], none, []⟩) = .ok out ∧
      (∃ mp, out.mapping = some mp ∧ mp.Metadata.Namespaces = (Split line '\t').drop 3) ∧
      out.errors =
        (if (Atoi ((Split line '\t').getD 1 [])).ok then []
         else [{ Line := 0, Message := str "invalid major version" }]) ++
        (if (Atoi ((Split line '\t').getD 2 [])).ok then []
         else [{ Line := 0, Message := str "invalid minor version" }])) := by
  have hsim : Parser.Parse fuel (NewParser ⟨line :: rest, err, buf⟩) =
      (Parser.Parse fuel (NewParser ⟨line2 :: rest, err, buf⟩)).map
        (ParseOutcome.withVersions (headerParser line [] none []).errors
          (Atoi ((Split line '\t').getD 1 [])).value (Atoi ((Split line '\t').getD 2 [])).value) := by
    rw [Parse_header_eq fuel line rest err buf hpre hlen, Parse_header_eq fuel line2 rest err buf hpre2 hlen2]
    rw [headerParser_withVersions line line2 rest err buf hlen hlen2 hsame hM2 hm2,
      parseHeaderLoop_withVersions]
    cases Parser.parseHeaderLoop fuel (headerParser line2 rest err buf) with
    | error e => rfl
    | ok p1 =>
      simp only [Except.map]
      rw [parseLoop_withVersions]
      cases Parser.parseLoop fuel p1 with
      | error e => rfl
      | ok q => rfl
  refine ⟨hsim, ?_, ?_⟩
  · intro out hout
    obtain ⟨_, _, h3, h4, _⟩ := Parse_header_mapping fuel line rest err buf out hpre hlen hout
    rw [hsim] at hout
    cases h2 : Parser.Parse fuel (NewParser ⟨line2 :: rest, err, buf⟩) with
    | error e => rw [h2] at hout; cases hout
    | ok out2 =>
      rw [h2] at hout
      cases (Except.ok.inj hout)
      exact ⟨_, out2.errors, h3, h4, rfl⟩
  · rw [Parse_header_eq _ _ _ _ _ hpre hlen]
    rw [parseHeaderLoop_eof fuel _ rfl rfl]
    simp only []
    rw [parseLoop_eof fuel _ rfl rfl]
    exact ⟨_, rfl, ⟨_, rfl, rfl⟩, rfl⟩

/-- Witness for C13: the header `tiny\tx\t0\tnsA\tnsB`, whose major version
    `x` is not an integer, against the header `tiny\t1\t0\tnsA\tnsB`, both
    followed by a class line; the run on the raw text, which records
    `invalid major version` and still builds the class; and the run on a
    header whose version fields are a digit run beyond the 64-bit range
    followed by `x`, for which `strconv.Atoi` returns the bound of the range
    together with its error, so that the bounds are what the mapping holds. -/
theorem C13_bad_version_is_soft_error_witness :
    (∃ out, Parser.Parse (1 + 1) (NewParser ⟨[str "tiny\tx\t0\tnsA\tnsB"], none, []⟩) = .ok out ∧
      (∃ mp, out.mapping = some mp ∧
        mp.Metadata.Namespaces = (Split (str "tiny\tx\t0\tnsA\tnsB") '\t').drop 3) ∧
      out.errors =
        (if (Atoi ((Split (str "tiny\tx\t0\tnsA\tnsB") '\t').getD 1 [])).ok then []
         else [{ Line := 0, Message := str "invalid major version" }]) ++
        (if (Atoi ((Split (str "tiny\tx\t0\tnsA\tnsB") '\t').getD 2 [])).ok then []
         else [{ Line := 0, Message := str "invalid minor version" }])) ∧
    (Parser.Parse 10 (NewParser (readerOf (str "tiny\tx\t0\tnsA\tnsB\nc\tA1\tB1\n")))).map
      (fun o => (o.errors, o.mapping.map (fun mp => (mp.Metadata.Namespaces, mp.Classes))))
      = .ok ([{ Line := 0, Message := str "invalid major version" }],
             some ([str "nsA", str "nsB"],
               [{ Names := [str "A1", str "B1"], Comments := [], Fields := [], Methods := [] }])) ∧
    (Parser.Parse 10 (NewParser (readerOf
        (str "tiny\t99999999999999999999x\t-99999999999999999999x\tnsA\tnsB\n")))).map
      (fun o => (o.errors,
        o.mapping.map (fun mp => (mp.Metadata.MajorVersion, mp.Metadata.MinorVersion))))
      = .ok ([{ Line := 0, Message := str "invalid major version" },
              { Line := 0, Message := str "invalid minor version" }],
             some (9223372036854775807, -9223372036854775808)) :=
  ⟨(C13_bad_version_is_soft_error (str "tiny\tx\t0\tnsA\tnsB") (str "tiny\t1\t0\tnsA\tnsB")
      [str "c\tA1\tB1"] none [] 1 (by decide) (by decide) (by decide) (by decide) (by decide)
      (by decide) (by decide)).2.2,
   by decide, by decide⟩

/-! ### C14 -/

/-- C14 (evaluated on the code): on the input made of the header
    `tiny\t1\t0\tnsA\tnsB` and a second line of 65536 characters, which the
    scanner cannot hold, the scanner delivers the header, fails with
    `token too long`, hands out the 65536 characters it has buffered on the
    next call, and then fails for good. The lexer turns every failed `Scan`
    into an Error token and never returns the end-of-stream token, so `Parse`
    exhausts every budget of `NextToken` calls: it never reaches the exit of
    its loop. The same holds for every stream that starts with an accepted
    header and whose scanner fails: `Parse` returns no outcome, whatever the
    budget. -/
theorem C14_failed_read_never_returns (fuel : Nat) :
    readerOf (str "tiny\t1\t0\tnsA\tnsB" ++ '\n' :: List.replicate 65536 'x') =
      ⟨[str "tiny\t1\t0\tnsA\tnsB"], some (str "bufio.Scanner: token too long"),
        [List.replicate 65536 'x']⟩ ∧
    Parser.Parse fuel (NewParser
        (readerOf (str "tiny\t1\t0\tnsA\tnsB" ++ '\n' :: List.replicate 65536 'x'))) =
      .error Fault.outOfFuel ∧
    (∀ (h : Str) (rest : List Str) (e : Str) (buf : List Str) (out : ParseOutcome),
      HasPrefix h (str "tiny\t") = true → 5 ≤ (Split h '\t').length →
      Parser.Parse fuel (NewParser ⟨h :: rest, some e, buf⟩) ≠ .ok out) :=
  ⟨(long_comment_line_run 65536 (by decide) fuel).1,
   (long_comment_line_run 65536 (by decide) fuel).2,
   fun h rest e buf out hpre hlen => Parse_never_returns h rest e buf fuel out hpre hlen⟩

/-! ### C15 -/

/-- C15: every Error token of the lexer has indent 0, whatever the
    indentation of the rejected line (a line that is empty after its leading
    tabs is such a line). So when a rejected line is met in body mode, the
    stack adjustment closes every open scope, and a well-formed depth-1 field
    or method line that follows immediately is not attached to the class: the
    tree is unchanged, and the two lines leave the errors of the lexer and
    `field must be inside a class` (`method must be inside a class`) behind,
    with an empty scope stack. -/
theorem C15_error_token_closes_every_scope (r : Scanner) (p : Parser) (bad code : Str)
    (fields : List Str) (more : List Str) (fuel : Nat)
    (hreach : Reachable r p) (hstate : p.lexer.state = stateInBody)
    (hlines : p.lexer.reader.lines = bad :: ('\t' :: Join (code :: fields) (str "\t")) :: more)
    (hbad : p.lexer.NextToken.1.Typ = TokenError)
    (hcode : code = str "f" ∨ code = str "m") (htab : ∀ f ∈ fields, '\t' ∉ f) :
    (∀ l : Lexer, l.NextToken.1.Typ = TokenError → l.NextToken.1.Indent = 0) ∧
    (∀ (l : Lexer) (line : Str), TrimLeft line [Separator] = [] →
      l.parseBodyLine line = l.errorToken (str "empty line")) ∧
    Parser.parseLoop (fuel + 2) p = Parser.parseLoop fuel
      { p with
        lexer := { p.lexer with reader := { p.lexer.reader with lines := more },
                                lineNumber := p.lexer.lineNumber + 1 + 1 },
        currentTok := { Typ := if code = str "f" then TokenField else TokenMethod, Indent := 1,
                        Parts := code :: fields, Line := p.lexer.lineNumber + 1 + 1 },
        errors := p.errors ++
          [{ Line := p.lexer.lineNumber + 1, Message := p.lexer.NextToken.1.Error },
           { Line := p.lexer.lineNumber + 1 + 1,
             Message := if code = str "f" then str "field must be inside a class"
                        else str "method must be inside a class" }],
        stack := [] } := by
  refine ⟨NextToken_error_indent, parseBodyLine_empty, ?_⟩
  rw [parseLoop_error_line (fuel + 1) p bad _ (Reachable_shape r p hreach) hstate hlines hbad]
  refine Eq.trans (parseLoop_orphan_depth1 fuel _ code fields more ?_ ?_ ?_ hcode htab) ?_
  · exact hstate
  · rfl
  · rfl
  · simp

/-- Witness for C15: on `orphanReader` the empty line 3 closes the class of
    line 2, and the field line 4 is recorded as an error; `Parse` on the raw
    text gives these two errors and a class without fields. -/
theorem C15_error_token_closes_every_scope_witness :
    Parser.parseLoop (1 + 2) classOpenBeforeEmptyLine = Parser.parseLoop 1
      { classOpenBeforeEmptyLine with
        lexer := { classOpenBeforeEmptyLine.lexer with
                   reader := { classOpenBeforeEmptyLine.lexer.reader with lines := [] },
                   lineNumber := classOpenBeforeEmptyLine.lexer.lineNumber + 1 + 1 },
        currentTok := { Typ := if str "f" = str "f" then TokenField else TokenMethod, Indent := 1,
                        Parts := str "f" :: [str "I", str "x", str "y"],
                        Line := classOpenBeforeEmptyLine.lexer.lineNumber + 1 + 1 },
        errors := classOpenBeforeEmptyLine.errors ++
          [{ Line := classOpenBeforeEmptyLine.lexer.lineNumber + 1,
             Message := classOpenBeforeEmptyLine.lexer.NextToken.1.Error },
           { Line := classOpenBeforeEmptyLine.lexer.lineNumber + 1 + 1,
             Message := if str "f" = str "f" then str "field must be inside a class"
                        else str "method must be inside a class" }],
        stack := [] } ∧
    (Parser.Parse 10 (NewParser (readerOf
        (str "tiny\t1\t0\tnsA\tnsB\nc\tA1\tB1\n\n\tf\tI\tx\ty\n")))).map
      (fun o => (o.errors, o.mapping.map (fun m => m.Classes.map (fun c => c.Fields))))
      = .ok ([{ Line := 3, Message := str "empty line" },
              { Line := 4, Message := str "field must be inside a class" }], some [[]]) :=
  ⟨(C15_error_token_closes_every_scope orphanReader classOpenBeforeEmptyLine [] (str "f")
      [str "I", str "x", str "y"] [] 1 (Reachable.header 5 _ (by decide)) rfl rfl (by decide)
      (Or.inl rfl) (by decide)).2.2,
   by decide⟩

/-! ### C16 -/

/-- C16 (as stated, refuted): after a header, a class, a method and the
    accepted parameter line `\t\tp\t0\tx\ty` the scope stack holds the class,
    the method and the parameter; the next line `\t\tp\tzz\tx\ty`, whose index
    is not a number, is recorded as an error and leaves the stack with the
    class and the method only: the frame of the earlier parameter was popped. -/
theorem C16_counterexample_failed_parameter_pops_frame :
    (Parser.Parse 10 (NewParser (readerOf
        (str "tiny\t1\t0\tnsA\tnsB\nc\tA1\tB1\n\tm\t()V\ta\tb\n\t\tp\t0\tx\ty\n")))).map
      (fun o => (o.parser.stack, o.errors))
      = .ok ([⟨0, Element.Class 0⟩, ⟨1, Element.Method 0 0⟩, ⟨2, Element.Parameter 0 0 0⟩], []) ∧
    (Parser.Parse 10 (NewParser (readerOf
        (str "tiny\t1\t0\tnsA\tnsB\nc\tA1\tB1\n\tm\t()V\ta\tb\n\t\tp\t0\tx\ty\n\t\tp\tzz\tx\ty\n")))).map
      (fun o => (o.parser.stack, o.errors))
      = .ok ([⟨0, Element.Class 0⟩, ⟨1, Element.Method 0 0⟩],
             [{ Line := 5, Message := str "invalid parameter index" }]) := by
  decide

/-- C16 (amended): when a Field, Method, Parameter or LocalVariable line
    fails the parser's validation, so that an error is recorded for it, the
    parse function pushes no frame and adds no node: the tree and the
    metadata are as before the line and exactly one error carrying the line's
    number is appended. The scope stack is the stack as `adjustStack` left it
    for the depth of the line, before the validation ran: frames are popped
    from the top for as long as the top frame's indent is at least the depth.
    On a stack of one of the shapes of `StackShape`, as every reachable stack
    is, this removes exactly the frames whose indent is at least the depth of
    the line and keeps all the others, in their order. -/
theorem C16_failed_line_leaves_adjusted_stack (p : Parser) (tok : Token) (q : Parser)
    (hty : tok.Typ = TokenField ∨ tok.Typ = TokenMethod ∨ tok.Typ = TokenParameter ∨
      tok.Typ = TokenLocalVariable)
    (h : Parser.loopBody p tok = .ok q) (hfail : q.errors ≠ p.errors) :
    q.stack = (p.adjustStack tok.Indent).stack ∧ q.classes = p.classes ∧
    q.metadata = p.metadata ∧
    (∃ msg, q.errors = p.errors ++ [{ Line := tok.Line, Message := msg }]) ∧
    q.stack = (p.stack.reverse.dropWhile (fun n => decide (tok.Indent ≤ n.indent))).reverse ∧
    (StackShape p.stack →
      q.stack = p.stack.filter (fun n => decide (n.indent < tok.Indent))) := by
  obtain ⟨msg, rfl⟩ := parseBody_failed _ tok q hty h hfail
  exact ⟨rfl, rfl, rfl, ⟨msg, rfl⟩, adjustStackLoop_dropWhile _ _ _ (Nat.le_refl _),
    fun hs => adjustStackLoop_filter _ _ hs⟩

/-- Witness for C16: in the state `parameterOpenParser`, whose stack holds a
    class, a method and a parameter, the parameter line `\t\tp\tzz\tx\ty` is
    rejected: the tree is unchanged, the error sits on line 5, and of the
    three frames the parameter frame, of indent 2, is the one removed. -/
theorem C16_failed_line_leaves_adjusted_stack_witness :
    StackShape parameterOpenParser.stack ∧
    parameterRejectedParser.classes = parameterOpenParser.classes ∧
    parameterRejectedParser.errors = [{ Line := 5, Message := str "invalid parameter index" }] ∧
    parameterRejectedParser.stack =
      parameterOpenParser.stack.filter
        (fun n => decide (n.indent < parameterOpenParser.lexer.NextToken.1.Indent)) ∧
    parameterRejectedParser.stack = [⟨0, Element.Class 0⟩, ⟨1, Element.Method 0 0⟩] :=
  ⟨StackShape.parameter 0 0 0 0 0 0,
   (C16_failed_line_leaves_adjusted_stack
      { parameterOpenParser with lexer := parameterOpenParser.lexer.NextToken.2 }
      parameterOpenParser.lexer.NextToken.1 parameterRejectedParser
      (by decide) (by decide) (by decide)).2.1,
   rfl,
   (C16_failed_line_leaves_adjusted_stack
      { parameterOpenParser with lexer := parameterOpenParser.lexer.NextToken.2 }
      parameterOpenParser.lexer.NextToken.1 parameterRejectedParser
      (by decide) (by decide) (by decide)).2.2.2.2.2 (StackShape.parameter 0 0 0 0 0 0),
   rfl⟩

/-! ### C17 -/

/-- C17: the lexer mode is monotonic. Over any sequence of `NextToken` calls
    the mode only moves forward in the order BeforeHeader, InProperties,
    InBody. It leaves BeforeHeader exactly in a call that returns a Header
    token, so no two calls return a Header token; after a rejected first line
    (`invalid header` or `header too short`) the mode is still BeforeHeader
    and the next line goes through the header rule again. In InProperties a
    line with exactly one leading tab keeps the mode, and the first line with
    another count moves it to InBody, the token of that same line being the
    one `parseBodyLine` returns for it. A call that reads no line changes
    nothing but the scanner, which has made its failed `Scan`; when the
    scanner has nothing buffered, the lexer is left as it was. -/
theorem C17_lexer_mode_monotonic (l : Lexer) :
    (∀ n m, n ≤ m → (Lexer.after n l).state.rank ≤ (Lexer.after m l).state.rank) ∧
    (l.state = stateStart →
      (l.NextToken.2.state ≠ stateStart ↔ l.NextToken.1.Typ = TokenHeader)) ∧
    (∀ i j, i < j →
      ¬ ((Lexer.tokenAt i l).Typ = TokenHeader ∧ (Lexer.tokenAt j l).Typ = TokenHeader)) ∧
    (∀ line ls, l.state = stateStart → l.reader.lines = line :: ls →
      (HasPrefix line (str "tiny\t") = false ∨ (Split line '\t').length < 5) →
      l.NextToken.1.Typ = TokenError ∧
      (l.NextToken.1.Error = str "invalid header" ∨
        l.NextToken.1.Error = str "header too short") ∧
      l.NextToken.2.state = stateStart ∧
      ∀ line2 ls2, ls = line2 :: ls2 →
        l.NextToken.2.NextToken =
          Lexer.parseHeader { l with reader := { l.reader with lines := ls2 },
                                     lineNumber := l.lineNumber + 1 + 1 } line2) ∧
    (∀ line ls, l.state = stateHeaderParsed → l.reader.lines = line :: ls →
      (countIndent line = 1 → l.NextToken.2.state = stateHeaderParsed) ∧
      (countIndent line ≠ 1 → l.NextToken.2.state = stateInBody ∧
        l.NextToken.1 = Lexer.parseBodyLine l.NextToken.2 line)) ∧
    (l.reader.lines = [] →
      l.NextToken.2 = { l with reader := l.reader.Scan.2 } ∧
      (l.reader.buffered = [] → l.NextToken.2 = l)) := by
  refine ⟨after_rank_mono l, ?_, ?_, ?_, ?_, ?_⟩
  · intro hs
    have := (NextToken_state_step l).2.1
    constructor
    · intro h; exact this.mpr ⟨hs, h⟩
    · intro h; exact (this.mp h).2
  · rintro i j hij ⟨hi, hj⟩
    have h1 := (NextToken_state_step (Lexer.after i l)).2.2 hi
    have h2 := ((NextToken_state_step (Lexer.after j l)).2.1.mp hj).1
    have h3 := after_rank_mono l (i + 1) j hij
    rw [after_succ, h1, h2] at h3
    simp [lexerState.rank] at h3
  · intro line ls hs hlines hbad
    obtain ⟨h1, h2, h3, h4⟩ := NextToken_start_rejected l line ls hs hlines hbad
    exact ⟨h1, h2, h3, h4⟩
  · intro line ls hs hlines
    constructor
    · intro hind
      simp only [Lexer.NextToken, Scanner.Scan, hlines, hs, Lexer.parsePossibleProperty, hind]
      split_ifs <;> rfl
    · intro hind
      simp [Lexer.NextToken, Scanner.Scan, hlines, hs, Lexer.parsePossibleProperty, hind]
  · intro hlines
    constructor
    · cases he : l.reader.err <;>
        simp [Lexer.NextToken, Scanner.Scan, hlines, he, Scanner.Err]
    · intro hbuf
      obtain ⟨⟨lines, err, buffered⟩, n, s, k⟩ := l
      simp only at hlines hbuf
      subst hlines hbuf
      cases err <;> simp [Lexer.NextToken, Scanner.Scan, Scanner.Err]

/-- Witness for C17: on `scenarioReader` the first two calls of `NextToken`
    do not both return a Header token. -/
theorem C17_lexer_mode_monotonic_witness :
    ¬ ((Lexer.tokenAt 0 (NewLexer scenarioReader)).Typ = TokenHeader ∧
       (Lexer.tokenAt 1 (NewLexer scenarioReader)).Typ = TokenHeader) :=
  (C17_lexer_mode_monotonic (NewLexer scenarioReader)).2.2.1 0 1 (by decide)

/-! ### C18 -/

/-- C18: for every lexer state, the token that `NextToken` returns has a
    non-empty `Error` message if and only if its type is `TokenError`. -/
theorem C18_error_message_iff_error_token (l : Lexer) :
    l.NextToken.1.Error ≠ [] ↔ l.NextToken.1.Typ = TokenError := by
  have h1 : ErrInvalidHeader ≠ [] := by decide
  have h2 : ErrHeaderTooShort ≠ [] := by decide
  have h3 : ErrInvalidProperty ≠ [] := by decide
  have h4 : ∀ e : Str, ErrIo e ≠ [] := by
    intro e
    have : ErrIo e = 'I' :: (str "O error: " ++ e) := rfl
    rw [this]; simp
  unfold Lexer.NextToken
  split
  · split
    · simp [Lexer.errorToken, h4]
    · simp
  · simp only
    split
    · unfold Lexer.parseHeader
      simp only
      split_ifs <;> simp [Lexer.errorToken, h1, h2]
    · unfold Lexer.parsePossibleProperty
      simp only
      split_ifs
      · simp [Lexer.errorToken, h3]
      · simp
      · exact (parseBodyLine_error_iff _ _).1
    · exact (parseBodyLine_error_iff _ _).1

/-! ### C19 -/

/-- C19: at every state the loop of `Parse` reaches, the stack of open
    scopes has one of the shapes of `StackShape` (empty; a class at indent 0;
    a class, then a field or a method at indent 1; a class, a method, then a
    parameter or a local variable at indent 2), so it has at most three frames
    and strictly increasing indents; the same holds after `adjustStack` has
    run for the next token, when every frame is shallower than the token.
    Hence a depth-1 token finds no parent or a class as its parent, and
    neither `field parent must be a class` nor `method parent must be a class`
    is ever recorded: not at a reachable state, and not in the errors that
    `Parse` returns. -/
theorem C19_stack_shape_parent_checks_dead (r : Scanner) (p : Parser) (hreach : Reachable r p) :
    StackShape p.stack ∧ p.stack.length ≤ 3 ∧
    (p.stack.map (fun n => n.indent)).Pairwise (fun a b => a < b) ∧
    StackShape (Parser.adjustStack { p with lexer := p.lexer.NextToken.2, currentTok := p.lexer.NextToken.1 } p.lexer.NextToken.1.Indent).stack ∧
    (∀ f ∈ (Parser.adjustStack { p with lexer := p.lexer.NextToken.2, currentTok := p.lexer.NextToken.1 } p.lexer.NextToken.1.Indent).stack,
      f.indent < p.lexer.NextToken.1.Indent) ∧
    (p.lexer.NextToken.1.Indent = 1 →
      (Parser.adjustStack { p with lexer := p.lexer.NextToken.2, currentTok := p.lexer.NextToken.1 } p.lexer.NextToken.1.Indent).getCurrentParent = none ∨
      ∃ ci, (Parser.adjustStack { p with lexer := p.lexer.NextToken.2, currentTok := p.lexer.NextToken.1 } p.lexer.NextToken.1.Indent).getCurrentParent
        = some (Element.Class ci)) ∧
    (∀ e ∈ p.errors, e.Message ≠ str "field parent must be a class" ∧
      e.Message ≠ str "method parent must be a class") ∧
    (∀ fuel out, Parser.Parse fuel (NewParser r) = .ok out →
      ∀ e ∈ out.errors, e.Message ≠ str "field parent must be a class" ∧
        e.Message ≠ str "method parent must be a class") := by
  have hs := Reachable_shape r p hreach
  have ha := adjustStack_shape { p with lexer := p.lexer.NextToken.2, currentTok := p.lexer.NextToken.1 } p.lexer.NextToken.1.Indent hs
  refine ⟨hs, (StackShape_sorted _ hs).1, (StackShape_sorted _ hs).2, ha.1, ha.2, ?_,
    Reachable_no_parent_error r p hreach, ?_⟩
  · intro hind
    obtain ⟨h1, h2⟩ := ha
    simp only [Parser.getCurrentParent]
    generalize (Parser.adjustStack { p with lexer := p.lexer.NextToken.2, currentTok := p.lexer.NextToken.1 } p.lexer.NextToken.1.Indent).stack = st at h1 h2 ⊢
    rw [hind] at h2
    cases h1 <;> simp at h2 ⊢
  · intro fuel out hout e he
    rcases Parse_cases r fuel out hout with ⟨_, h2⟩ | ⟨h1, h2, _⟩
    · rw [h2] at he
      simp only [List.mem_singleton] at he
      subst he
      exact ⟨by decide, by decide⟩
    · rw [h2] at he
      exact Reachable_no_parent_error r _ h1 e he

/-- Witness for C19: on `scenarioReader` the state `classOpenParser` is
    reached; its stack holds one class frame, and the next token, a method
    line, finds that class as its parent. -/
theorem C19_stack_shape_parent_checks_dead_witness :
    Reachable scenarioReader classOpenParser ∧ StackShape classOpenParser.stack ∧
    classOpenParser.stack.length ≤ 3 ∧
    (∀ fuel out, Parser.Parse fuel (NewParser scenarioReader) = .ok out →
      ∀ e ∈ out.errors, e.Message ≠ str "field parent must be a class" ∧
        e.Message ≠ str "method parent must be a class") :=
  ⟨Reachable.header 5 _ (by decide),
   (C19_stack_shape_parent_checks_dead scenarioReader classOpenParser
      (Reachable.header 5 _ (by decide))).1,
   (C19_stack_shape_parent_checks_dead scenarioReader classOpenParser
      (Reachable.header 5 _ (by decide))).2.1,
   (C19_stack_shape_parent_checks_dead scenarioReader classOpenParser
      (Reachable.header 5 _ (by decide))).2.2.2.2.2.2.2⟩

/-! ### C20 -/

/-- C20: an error recorded while a token is dispatched in the loop of
    `Parse` carries the `Line` of that token, which for a token read from a
    line is the 1-based number of that line in the input. The header phase
    is different: the error of a missing header, and every error recorded by
    the property loop of `parseHeader` before it dispatches its first body
    token (an invalid major or minor version, or the empty message of a token
    with fewer than two fields), carries line 0; the body token that ends
    the header phase is dispatched with its own line number. -/
theorem C20_error_line_numbers (r : Scanner) (p q : Parser) (hreach : Reachable r p)
    (hstep : Parser.loopBody { p with lexer := p.lexer.NextToken.2 } p.lexer.NextToken.1 = .ok q) :
    (q.errors = p.errors ∨
      ∃ msg, q.errors = p.errors ++ [{ Line := p.lexer.NextToken.1.Line, Message := msg }]) ∧
    (∀ line ls, p.lexer.reader.lines = line :: ls →
      p.lexer.NextToken.1.Line = p.lexer.lineNumber + 1 ∧
      (r.lines ++ r.buffered)[p.lexer.NextToken.1.Line - 1]? = some line) ∧
    (∀ fuel p2,
      Parser.parseHeader fuel { NewParser r with lexer := (NewParser r).lexer.NextToken.2 }
        (NewParser r).lexer.NextToken.1 = .ok (p2, true) →
      p2.errors = [{ Line := 0, Message := str "missing header" }]) ∧
    (∀ fuel p2,
      Parser.parseHeader fuel { NewParser r with lexer := (NewParser r).lexer.NextToken.2 }
        (NewParser r).lexer.NextToken.1 = .ok (p2, false) →
      ∃ p1, HeaderPhase r p1 ∧
        (∀ e ∈ p1.errors, e.Line = 0 ∧
          (e.Message = str "invalid major version" ∨ e.Message = str "invalid minor version" ∨
            e.Message = [])) ∧
        p1.lexer.NextToken.1.Indent = 0 ∧
        Parser.parseBody { p1 with lexer := p1.lexer.NextToken.2, currentTok := p1.lexer.NextToken.1 } p1.lexer.NextToken.1 = .ok p2 ∧
        (p2.errors = p1.errors ∨
          ∃ msg, p2.errors = p1.errors ++ [{ Line := p1.lexer.NextToken.1.Line, Message := msg }]) ∧
        (∀ line ls, p1.lexer.reader.lines = line :: ls →
          p1.lexer.NextToken.1.Line = p1.lexer.lineNumber + 1 ∧
          (r.lines ++ r.buffered)[p1.lexer.NextToken.1.Line - 1]? = some line)) := by
  refine ⟨?_, ?_, ?_, ?_⟩
  · unfold Parser.loopBody at hstep
    exact (parseBody_frame _ _ _ hstep).2.2.2.2.2.2
  · intro line ls hl
    exact NextToken_lineNumber r _ (Reachable_lexerAt r p hreach) line ls hl
  · intro fuel p2 h
    exact parseHeader_fatal_lexer r fuel p2 h
  · intro fuel p2 h
    obtain ⟨_, _, p1, hph, hind, hb⟩ := header_phase_end r fuel p2 h
    refine ⟨p1, hph, hph.2.2.2.2.2.2.2.2, hind, hb, (parseBody_frame _ _ _ hb).2.2.2.2.2.2, ?_⟩
    intro line ls hl
    exact NextToken_lineNumber r _ hph.1 line ls hl

/-- Witness for C20: on `orphanReader` the empty line 3 is dispatched from the
    state `classOpenBeforeEmptyLine` and its error is recorded on line 3; and
    in a run on a text whose header has a bad major version and is followed
    by a one-field line at depth 2, the two header-phase errors sit on line
    0 while the error of line 4 sits on line 4. -/
theorem C20_error_line_numbers_witness :
    (classClosedByEmptyLine.errors = classOpenBeforeEmptyLine.errors ∨
      ∃ msg, classClosedByEmptyLine.errors = classOpenBeforeEmptyLine.errors ++
        [{ Line := classOpenBeforeEmptyLine.lexer.NextToken.1.Line, Message := msg }]) ∧
    classOpenBeforeEmptyLine.lexer.NextToken.1.Line = 3 ∧
    (Parser.Parse 10 (NewParser (readerOf
        (str "tiny\tx\t0\tnsA\tnsB\n\t\tfoo\nc\tA\tB\n\tp\t0\ta\n")))).map (fun o => o.errors)
      = .ok [{ Line := 0, Message := str "invalid major version" },
             { Line := 0, Message := [] },
             { Line := 4, Message := str "invalid identifier \"p\" at indent 1" }] :=
  ⟨(C20_error_line_numbers orphanReader classOpenBeforeEmptyLine classClosedByEmptyLine
      (Reachable.header 5 _ (by decide)) (by decide)).1,
   by decide, by decide⟩


end TinyV2
